import Mathlib

/-!
Verification of the InsightsLibrary document store, ingestion pipeline and
retrieval engine.  The Python modules `models.py`, `agents.py`, `extractor.py`,
`recognizer.py` and `embedder.py` are shallowly embedded as executable Lean
definitions; the theorems below settle the specification claims against them.
-/

namespace InsightsLib

/-! ## Dates (`datetime` values as used by `agents.py`)

A Python `datetime` is compared lexicographically; `.date()` drops the time
component.  We model the calendar part as a triple of integers and a datetime
as a date plus an abstract time-of-day key.  A stored date *string* is modelled
by its parse result: `none` when `datetime.fromisoformat`/`strptime` would
fail, `some dt` otherwise. -/

structure PyDate where
  y : Int
  m : Int
  d : Int
deriving DecidableEq, Repr, Inhabited

structure PyDateTime where
  date : PyDate
  time : Int
deriving DecidableEq, Repr, Inhabited

/-- Strict `<` on Python `date` objects (lexicographic). -/
def dateLt (a b : PyDate) : Bool :=
  decide (a.y < b.y ∨ (a.y = b.y ∧ (a.m < b.m ∨ (a.m = b.m ∧ a.d < b.d))))

/-- `≤` on Python `date` objects (lexicographic). -/
def dateLe (a b : PyDate) : Bool :=
  decide (a.y < b.y ∨ (a.y = b.y ∧ (a.m < b.m ∨ (a.m = b.m ∧ a.d ≤ b.d))))

/-- `≤` on Python `datetime` objects (lexicographic, time included). -/
def dtLe (a b : PyDateTime) : Bool :=
  dateLt a.date b.date || (a.date == b.date && decide (a.time ≤ b.time))

theorem dateLt_eq_false_iff {a b : PyDate} : dateLt a b = false ↔ dateLe b a = true := by
  simp only [dateLt, dateLe, decide_eq_false_iff_not, decide_eq_true_eq]
  omega

theorem dateLt_eq_true_iff {a b : PyDate} : dateLt a b = true ↔ dateLe b a = false := by
  simp only [dateLt, dateLe, decide_eq_true_eq, decide_eq_false_iff_not]
  omega

/-! ## `agents.py`: match logic and search criteria -/

/-- `MatchLogic` enum of `agents.py`. -/
inductive MatchLogic
  | AND
  | OR
deriving DecidableEq, Repr, Inhabited

/-- `SearchCriteria` of `agents.py`.  `start_date`/`end_date` are optional
datetimes; text fields default to the empty string. -/
structure SearchCriteria where
  keywords : List String
  match_logic : MatchLogic
  publisher : String
  title : String
  content : String
  start_date : Option PyDateTime
  end_date : Option PyDateTime
deriving DecidableEq, Repr, Inhabited

/-- The inner target scan of `BaseRetriever._match_keywords`: a criterion
keyword is found when some target keyword equals it after `strip`, exactly or
case-insensitively. -/
def kwFound (q : String) (targets : List String) : Bool :=
  targets.any fun t => (q.trim == t.trim) || (q.trim.toLower == t.trim.toLower)

/-- The main loop of `BaseRetriever._match_keywords`: walk the criterion
keywords accumulating the matched ones, aborting on the first miss under
`AND`; under `OR` fail only if nothing matched. -/
def kwLoop (targets : List String) (logic : MatchLogic) :
    List String → List String → Bool × List String
  | [], acc => if logic = .OR && acc.isEmpty then (false, []) else (true, acc)
  | q :: rest, acc =>
    let found := kwFound q targets
    if logic = .AND && !found then (false, [])
    else kwLoop targets logic rest (if found then acc ++ [q] else acc)

/-- `BaseRetriever._match_keywords`. -/
def matchKeywords (targets : List String) (c : SearchCriteria) : Bool × List String :=
  if c.keywords.isEmpty then (true, [])
  else kwLoop targets c.match_logic c.keywords []

/-- Containment of one character list in another as a contiguous run,
modelling Python's `in` on strings. -/
def pyIn (needle : List Char) : List Char → Bool
  | [] => needle.isEmpty
  | c :: rest => needle.isPrefixOf (c :: rest) || pyIn needle rest

/-- `BaseRetriever._match_text`: case-insensitive substring test; an empty
(after strip) search text always passes. -/
def matchText (target search : String) : Bool :=
  if search.trim = "" then true
  else pyIn (search.trim.toLower).toList (target.toLower).toList

/-- `BaseRetriever._match_date`: an unparseable target fails; otherwise only
the date parts are compared, each given bound strictly excluding the target
making the filter fail. -/
def matchDate (c : SearchCriteria) (target : Option PyDateTime) : Bool :=
  match target with
  | none => false
  | some dt =>
    if c.start_date.any fun s => dateLt dt.date s.date then false
    else if c.end_date.any fun e => dateLt e.date dt.date then false
    else true

/-- `BaseRetriever._parse_date` for sorting: an absent/unparseable date sorts
as `datetime.min`. -/
def parseDateOrMin (o : Option PyDateTime) : PyDateTime :=
  o.getD ⟨⟨1, 1, 1⟩, 0⟩

/-! ### Claim C4: keyword matching -/

theorem kwLoop_and_fst (targets : List String) (ks : List String) :
    ∀ acc, (kwLoop targets .AND ks acc).1 = true ↔ ∀ q ∈ ks, kwFound q targets = true := by
  induction ks with
  | nil => intro acc; simp [kwLoop]
  | cons q rest ih =>
    intro acc
    by_cases h : kwFound q targets = true
    · simp [kwLoop, h, ih]
    · simp [kwLoop, Bool.not_eq_true] at h ⊢
      simp [h]

theorem kwLoop_or_fst (targets : List String) (ks : List String) :
    ∀ acc, (kwLoop targets .OR ks acc).1 = true ↔
      (acc ≠ [] ∨ ∃ q ∈ ks, kwFound q targets = true) := by
  induction ks with
  | nil =>
    intro acc
    cases acc <;> simp [kwLoop]
  | cons q rest ih =>
    intro acc
    by_cases h : kwFound q targets = true
    · have : acc ++ [q] ≠ [] := by simp
      simp [kwLoop, h, ih, this]
    · simp only [Bool.not_eq_true] at h
      simp [kwLoop, h, ih]

/-- C4: with a non-empty criterion keyword list, `_match_keywords` succeeds
under `AND` iff every criterion keyword is found among the targets and under
`OR` iff at least one is; a criterion keyword is found iff some target keyword
equals it exactly or case-insensitively, after trimming whitespace. -/
theorem c4_match_keywords (targets : List String) (c : SearchCriteria)
    (hk : c.keywords ≠ []) :
    ((matchKeywords targets c).1 = true ↔
      match c.match_logic with
      | .AND => ∀ q ∈ c.keywords, kwFound q targets = true
      | .OR => ∃ q ∈ c.keywords, kwFound q targets = true) ∧
    (∀ q, kwFound q targets = true ↔
      ∃ t ∈ targets, q.trim = t.trim ∨ q.trim.toLower = t.trim.toLower) := by
  obtain ⟨ks, lg, pb, tl, ct, sd, ed⟩ := c
  simp only at hk ⊢
  constructor
  · have hne : ks.isEmpty = false := by
      cases h : ks with
      | nil => exact absurd h hk
      | cons a l => simp
    cases lg with
    | AND =>
      simpa [matchKeywords, hne] using kwLoop_and_fst targets ks []
    | OR =>
      simpa [matchKeywords, hne] using kwLoop_or_fst targets ks []
  · intro q
    simp [kwFound]

/-- Witness for C4 at concrete inputs. -/
theorem c4_match_keywords_witness :
    (["AI", "tax"] : List String) ≠ [] ∧
    ((matchKeywords ["Tax ", "law"] ⟨["AI", "tax"], .AND, "", "", "", none, none⟩).1 = true ↔
      match MatchLogic.AND with
      | .AND => ∀ q ∈ (["AI", "tax"] : List String), kwFound q ["Tax ", "law"] = true
      | .OR => ∃ q ∈ (["AI", "tax"] : List String), kwFound q ["Tax ", "law"] = true) ∧
    (∀ q, kwFound q ["Tax ", "law"] = true ↔
      ∃ t ∈ (["Tax ", "law"] : List String),
        q.trim = t.trim ∨ q.trim.toLower = t.trim.toLower) := by
  refine ⟨by decide, ?_⟩
  exact c4_match_keywords ["Tax ", "law"] ⟨["AI", "tax"], .AND, "", "", "", none, none⟩ (by decide)

/-! ### Claim C5: date filtering -/

/-- Criteria carrying only a date range, for readability of the C5 statement. -/
def dateCriteria (sd ed : Option PyDateTime) : SearchCriteria :=
  ⟨[], .OR, "", "", "", sd, ed⟩

/-- C5: the date filter fails on an unparseable target; on a parsed target it
compares only the date parts and the range is inclusive at both ends; the
spec's concrete instances for target `2024-03-15` hold. -/
theorem c5_match_date :
    (∀ c, matchDate c none = false) ∧
    (∀ c dt, matchDate c (some dt) = true ↔
      ((∀ s ∈ c.start_date, dateLe s.date dt.date = true) ∧
       (∀ e ∈ c.end_date, dateLe dt.date e.date = true))) ∧
    (∀ c dt t, matchDate c (some ⟨dt.date, t⟩) = matchDate c (some dt)) ∧
    (matchDate (dateCriteria (some ⟨⟨2024, 1, 1⟩, 0⟩) (some ⟨⟨2024, 12, 31⟩, 0⟩))
      (some ⟨⟨2024, 3, 15⟩, 0⟩) = true) ∧
    (matchDate (dateCriteria (some ⟨⟨2024, 1, 1⟩, 0⟩) (some ⟨⟨2024, 3, 14⟩, 0⟩))
      (some ⟨⟨2024, 3, 15⟩, 0⟩) = false) := by
  refine ⟨fun c => rfl, ?_, ?_, by decide, by decide⟩
  · intro c dt
    cases hs : c.start_date with
    | none =>
      cases he : c.end_date with
      | none => simp [matchDate, hs, he]
      | some e =>
        by_cases h2 : dateLt e.date dt.date = true
        · simp [matchDate, hs, he, h2, dateLt_eq_true_iff.mp h2]
        · have h2f : dateLt e.date dt.date = false := by simpa using h2
          simp [matchDate, hs, he, h2f, dateLt_eq_false_iff.mp h2f]
    | some s =>
      by_cases h1 : dateLt dt.date s.date = true
      · simp [matchDate, hs, h1, dateLt_eq_true_iff.mp h1]
      · have h1f : dateLt dt.date s.date = false := by simpa using h1
        cases he : c.end_date with
        | none => simp [matchDate, hs, he, h1f, dateLt_eq_false_iff.mp h1f]
        | some e =>
          by_cases h2 : dateLt e.date dt.date = true
          · simp [matchDate, hs, he, h1f, h2, dateLt_eq_true_iff.mp h2]
          · have h2f : dateLt e.date dt.date = false := by simpa using h2
            simp [matchDate, hs, he, h1f, h2f, dateLt_eq_false_iff.mp h1f,
              dateLt_eq_false_iff.mp h2f]
  · intro c dt t
    rfl

/-! ## `models.py`: TinyDB tables, the in-memory secondary index, and the
`FileModel`/`ContentModel` operations

A TinyDB table is a sequence of (doc-id, document) pairs; a fresh doc id is
one more than the largest id in use.  The secondary index dictionaries are
association lists with Python-dict get/set/pop semantics.  `os.path.normpath`
is an external function, abstracted as a parameter `np` (only its idempotence
is ever used). -/

/-- Python-dict lookup on an association list. -/
def dget {κ α : Type} [DecidableEq κ] (l : List (κ × α)) (k : κ) : Option α :=
  (l.find? fun p => p.1 == k).map (·.2)

/-- Python-dict key assignment (`d[k] = v`). -/
def dinsert {κ α : Type} [DecidableEq κ] (l : List (κ × α)) (k : κ) (v : α) :
    List (κ × α) :=
  (l.filter fun p => p.1 != k) ++ [(k, v)]

/-- Python-dict `pop(k, None)` (the remaining dictionary). -/
def dpop {κ α : Type} [DecidableEq κ] (l : List (κ × α)) (k : κ) : List (κ × α) :=
  l.filter fun p => p.1 != k

theorem find?_filter_ne {κ α : Type} [DecidableEq κ] (l : List (κ × α)) (k k' : κ) (h : k' ≠ k) :
    ((l.filter fun p => p.1 != k).find? fun p => p.1 == k') = l.find? fun p => p.1 == k' := by
  induction l with
  | nil => rfl
  | cons e rest ih =>
    by_cases hk : e.1 = k
    · have h1 : (e.1 != k) = false := by simp [hk]
      have h2 : (e.1 == k') = false :=
        beq_eq_false_iff_ne.mpr (by rw [hk]; exact fun hc => h hc.symm)
      simp [List.filter_cons, h1, List.find?_cons, h2, ih]
    · have h1 : (e.1 != k) = true := by simpa using hk
      by_cases he : e.1 = k'
      · have h2 : (e.1 == k') = true := by simpa using he
        simp [List.filter_cons, h1, List.find?_cons, h2]
      · have h2 : (e.1 == k') = false := by simpa using he
        simp [List.filter_cons, h1, List.find?_cons, h2, ih]

theorem find?_filter_self {κ α : Type} [DecidableEq κ] (l : List (κ × α)) (k : κ) :
    ((l.filter fun p => p.1 != k).find? fun p => p.1 == k) = none := by
  induction l with
  | nil => rfl
  | cons e rest ih =>
    by_cases hk : e.1 = k
    · simp [List.filter_cons, hk, ih]
    · have hne : (e.1 != k) = true := by simpa using hk
      have : (e.1 == k) = false := by simpa using hk
      simp [List.filter_cons, hne, List.find?_cons, this, ih]

@[simp]
theorem dget_nil {κ α : Type} [DecidableEq κ] (k : κ) : dget ([] : List (κ × α)) k = none := rfl

theorem dget_dinsert {κ α : Type} [DecidableEq κ] (l : List (κ × α)) (k k' : κ) (v : α) :
    dget (dinsert l k v) k' = if k' = k then some v else dget l k' := by
  by_cases h : k' = k
  · subst h
    simp [dget, dinsert, List.find?_append, find?_filter_self]
  · have hb : (k == k') = false := beq_eq_false_iff_ne.mpr fun hc => h hc.symm
    simp [dget, dinsert, List.find?_append, find?_filter_ne l k k' h, h,
      List.find?_cons, hb]

theorem dget_dpop {κ α : Type} [DecidableEq κ] (l : List (κ × α)) (k k' : κ) :
    dget (dpop l k) k' = if k' = k then none else dget l k' := by
  by_cases h : k' = k
  · subst h
    simp [dget, dpop, find?_filter_self]
  · simp [dget, dpop, find?_filter_ne l k k' h, h]

theorem dget_eq_some_of_mem {κ α : Type} [DecidableEq κ] {l : List (κ × α)} {kv : κ × α}
    (hnd : (l.map (·.1)).Nodup) (hm : kv ∈ l) : dget l kv.1 = some kv.2 := by
  induction l with
  | nil => cases hm
  | cons e rest ih =>
    simp only [List.map_cons, List.nodup_cons] at hnd
    rcases List.mem_cons.mp hm with h | h
    · subst h
      simp [dget, List.find?_cons]
    · have hne : e.1 ≠ kv.1 := by
        intro hc
        exact hnd.1 (hc ▸ (List.mem_map.mpr ⟨kv, h, rfl⟩))
      have : (e.1 == kv.1) = false := by simpa using hne
      simpa [dget, List.find?_cons, this] using ih hnd.2 h

theorem mem_of_dget_eq_some {κ α : Type} [DecidableEq κ] {l : List (κ × α)} {k : κ} {v : α}
    (h : dget l k = some v) : (k, v) ∈ l := by
  induction l with
  | nil => simp [dget] at h
  | cons e rest ih =>
    obtain ⟨k1, v1⟩ := e
    by_cases he : k1 = k
    · subst he
      have hb : ((k1, v1).1 == k1) = true := by simp
      simp [dget, List.find?_cons, hb] at h
      subst h
      exact List.mem_cons_self _ _
    · have hb : ((k1, v1).1 == k) = false := by simpa using he
      simp only [dget, List.find?_cons, hb] at h
      exact List.mem_cons_of_mem _ (ih h)

theorem nodup_keys_dinsert {κ α : Type} [DecidableEq κ] (l : List (κ × α)) (k : κ) (v : α)
    (h : (l.map (·.1)).Nodup) : ((dinsert l k v).map (·.1)).Nodup := by
  simp only [dinsert, List.map_append]
  refine List.Nodup.append ?_ (by simp) ?_
  · exact h.sublist (List.Sublist.map _ (List.filter_sublist l))
  · intro a ha hb
    simp only [List.map_cons, List.map_nil, List.mem_singleton] at hb
    subst hb
    rcases List.mem_map.mp ha with ⟨e, he, hek⟩
    have := List.of_mem_filter he
    simp [hek] at this

theorem nodup_keys_dpop {κ α : Type} [DecidableEq κ] (l : List (κ × α)) (k : κ)
    (h : (l.map (·.1)).Nodup) : ((dpop l k).map (·.1)).Nodup :=
  h.sublist (List.Sublist.map _ (List.filter_sublist l))

/-- TinyDB table lookup by doc id. -/
def tget {ρ : Type} (t : List (Nat × ρ)) (d : Nat) : Option ρ :=
  dget t d

/-- TinyDB's fresh doc id: one more than the largest id present. -/
def nextId {ρ : Type} (t : List (Nat × ρ)) : Nat :=
  (t.map (·.1)).foldr max 0 + 1

/-- TinyDB `table.update(fields, cond)`: map the update over matching rows,
also returning how many rows matched (TinyDB returns their ids). -/
def tupdateWhere {ρ : Type} (t : List (Nat × ρ)) (p : ρ → Bool) (f : ρ → ρ) :
    List (Nat × ρ) × Nat :=
  (t.map fun e => if p e.2 then (e.1, f e.2) else e, (t.filter fun e => p e.2).length)

/-- TinyDB `table.remove(cond)`: drop matching rows, returning how many were
removed. -/
def tremoveWhere {ρ : Type} (t : List (Nat × ρ)) (p : ρ → Bool) :
    List (Nat × ρ) × Nat :=
  (t.filter fun e => !p e.2, (t.filter fun e => p e.2).length)

/-- A page entry of a File row (an element of the `pages` list written by
`PDFExtractor.process_file` and updated by `IMGRecognizer._update_models`;
keys absent until the recognizer writes them are modelled by `""`). -/
structure PageRec where
  page_number : Int
  page_path : String
  abstract : Option String
  keywords : List String
  is_aigc : Bool
  processed_at : String
  title : String
  property : String
deriving DecidableEq, Repr, Inhabited

/-- A row of the `files` table (`FileModel.create_file`).  `published_date`
holds the parse result of the stored date string. -/
structure FileRow where
  file_id : String
  file_path : String
  file_name : String
  file_hash : String
  last_modified : ℚ
  processed_at : String
  pages : List PageRec
  tags : List String
  file_desc : Option String
  opt_msg : String
  source : String
  uploader : String
  language : String
  topic : String
  published_date : Option PyDateTime
deriving DecidableEq, Repr, Inhabited

/-- A row of the `contents` table (`ContentModel.create_content`). -/
structure ContentRow where
  page_id : String
  file_id : String
  page_number : Int
  content : String
  title : String
  property : String
  abstract : String
  keywords : List String
  created_at : String
  updated_at : String
deriving DecidableEq, Repr, Inhabited

/-- A value of the shared `_content_index` dictionary: a single doc id under a
page-id key, a doc-id set under a file-id key. -/
inductive CIdxVal
  | pageDoc (d : Nat)
  | fileDocs (ds : List Nat)
deriving DecidableEq, Repr

/-- The TinyDB database plus the two in-memory secondary indexes of
`TinyDBManager`. -/
structure Store where
  files : List (Nat × FileRow)
  contents : List (Nat × ContentRow)
  fileIdx : List (String × Nat)
  contentIdx : List (String × CIdxVal)
deriving DecidableEq, Repr

def emptyStore : Store := ⟨[], [], [], []⟩

/-- `FileModel.get_file_by_path` (index lookup, then table fetch). -/
def getFileByPath (np : String → String) (s : Store) (p : String) :
    Option (Nat × FileRow) :=
  match dget s.fileIdx (np p) with
  | none => none
  | some d => (tget s.files d).map (d, ·)

/-- `FileModel.get_file_by_id`. -/
def getFileById (s : Store) (fid : String) : Option (Nat × FileRow) :=
  match dget s.fileIdx fid with
  | none => none
  | some d => (tget s.files d).map (d, ·)

/-- `FileModel.get_all_files`. -/
def getAllFiles (s : Store) : List FileRow := s.files.map (·.2)

/-- `FileModel.create_file`: refuse an existing normalized path, insert the
row, then index it under the generated file id and the normalized path.  The
generated `uuid4` is passed in as `fid`; `now` is the clock reading. -/
def createFile (np : String → String) (s : Store) (fid path name hash : String)
    (mtime : ℚ) (now : String) (optMsg source uploader language topic : String)
    (pub : Option PyDateTime) : Store × Option String :=
  let normalized := np path
  match getFileByPath np s normalized with
  | some _ => (s, some "File path already exists")
  | none =>
    let row : FileRow :=
      ⟨fid, normalized, name, hash, mtime, now, [], [], none, optMsg,
        source, uploader, language, topic, pub⟩
    let d := nextId s.files
    ({ s with
        files := s.files ++ [(d, row)]
        fileIdx := dinsert (dinsert s.fileIdx fid d) normalized d }, none)

/-- The update descriptor for `FileModel.update_file` (its non-`None`
keyword arguments, restricted to the fields the program updates). -/
structure FileUpdates where
  file_path : Option String := none
  file_name : Option String := none
  file_hash : Option String := none
  last_modified : Option ℚ := none
  opt_msg : Option String := none
  tags : Option (List String) := none
  file_desc : Option String := none
deriving DecidableEq, Repr, Inhabited

def FileUpdates.isEmpty (u : FileUpdates) : Bool :=
  u.file_path.isNone && u.file_name.isNone && u.file_hash.isNone &&
  u.last_modified.isNone && u.opt_msg.isNone && u.tags.isNone && u.file_desc.isNone

/-- Apply the non-`None` fields of an update descriptor to a row.  Note the
raw (un-normalized) `file_path` is stored, as in the source. -/
def FileUpdates.apply (u : FileUpdates) (r : FileRow) : FileRow :=
  { r with
      file_path := u.file_path.getD r.file_path
      file_name := u.file_name.getD r.file_name
      file_hash := u.file_hash.getD r.file_hash
      last_modified := u.last_modified.getD r.last_modified
      opt_msg := u.opt_msg.getD r.opt_msg
      tags := u.tags.getD r.tags
      file_desc := u.file_desc.or r.file_desc }

/-- `FileModel.update_file`: on a `file_path` change the old normalized path
key is popped and the new one inserted before the table write; the table row
receives the raw path.  The index sync is guarded by Python truthiness
(`if new_path and new_path != old_path`), so a falsy (empty) new path skips
the sync entirely while still being written to the row. -/
def updateFile (np : String → String) (s : Store) (fid : String) (u : FileUpdates) :
    Store × Option String :=
  if u.isEmpty then (s, some "No valid update fields")
  else
    match getFileById s fid with
    | none => (s, some "File not found")
    | some (d, row) =>
      let fIdx' :=
        match u.file_path with
        | some newP =>
          if newP ≠ "" ∧ newP ≠ row.file_path then
            dinsert (dpop s.fileIdx (np row.file_path)) (np newP) d
          else s.fileIdx
        | none => s.fileIdx
      let upd := tupdateWhere s.files (fun r => r.file_id == fid) u.apply
      if upd.2 = 0 then ({ s with fileIdx := fIdx' }, some "File not found")
      else ({ s with files := upd.1, fileIdx := fIdx' }, none)

/-- `FileModel.delete_file`: remove the row, then pop both index keys. -/
def deleteFile (np : String → String) (s : Store) (fid : String) :
    Store × Option String :=
  match getFileById s fid with
  | none => (s, some "File not found")
  | some (_, row) =>
    let rem := tremoveWhere s.files (fun r => r.file_id == fid)
    if rem.2 = 0 then (s, some "File not found")
    else
      ({ s with
          files := rem.1
          fileIdx := dpop (dpop s.fileIdx fid) (np row.file_path) }, none)

/-- `FileModel.clean_up_file_pages`. -/
def cleanUpFilePages (s : Store) (fid : String) : Store × Option String :=
  let upd := tupdateWhere s.files (fun r => r.file_id == fid) (fun r => { r with pages := [] })
  if upd.2 = 0 then (s, some "File not found")
  else ({ s with files := upd.1 }, none)

/-- `FileModel.add_pages`: locate the first row with the file id by a table
scan, then overwrite that doc's `pages` with the extended list. -/
def addPages (s : Store) (fid : String) (pageData : List PageRec) : Store × Bool :=
  match s.files.find? (fun e => e.2.file_id == fid) with
  | none => (s, false)
  | some (d, row) =>
    let newPages := row.pages ++ pageData
    ({ s with
        files := s.files.map fun e =>
          if e.1 = d then (e.1, { e.2 with pages := newPages }) else e }, true)

/-- `ContentModel.create_content`: insert the row, index the generated page id,
and add the doc id to the owning file's doc-id set (`setdefault`).  A page-id
key already holding a single doc id would make Python's `set.add` fail; that
branch surfaces as an error with the table already written. -/
def createContent (s : Store) (pid fid : String) (pnum : Int)
    (content title prop abstract : String) (kws : List String)
    (createdAt updatedAt : String) : Store × Option String :=
  let row : ContentRow := ⟨pid, fid, pnum, content, title, prop, abstract, kws, createdAt, updatedAt⟩
  let d := nextId s.contents
  let contents' := s.contents ++ [(d, row)]
  let cIdx1 := dinsert s.contentIdx pid (.pageDoc d)
  match dget cIdx1 fid with
  | none =>
    ({ s with contents := contents', contentIdx := dinsert cIdx1 fid (.fileDocs [d]) }, none)
  | some (.fileDocs ds) =>
    ({ s with contents := contents', contentIdx := dinsert cIdx1 fid (.fileDocs (ds.insert d)) }, none)
  | some (.pageDoc _) =>
    ({ s with contents := contents', contentIdx := cIdx1 }, some "set add on int")

/-- `ContentModel.get_content_by_page_id` (errors are swallowed to `None`). -/
def getContentByPageId (s : Store) (pid : String) : Option (Nat × ContentRow) :=
  match dget s.contentIdx pid with
  | some (.pageDoc d) => (tget s.contents d).map (d, ·)
  | _ => none

/-- `ContentModel.get_contents_by_file_id` (batch fetch through the doc-id
set; a missing or wrongly-typed key yields `[]`). -/
def getContentsByFileId (s : Store) (fid : String) : List ContentRow :=
  match dget s.contentIdx fid with
  | some (.fileDocs ds) => if ds.isEmpty then [] else ds.filterMap (tget s.contents)
  | _ => []

/-- `ContentModel.delete_content`: remove the row, pop the page-id key, and
discard the doc id from the owning file's set, dropping the set when it
empties. -/
def deleteContent (s : Store) (pid : String) : Store × Bool :=
  match getContentByPageId s pid with
  | none => (s, false)
  | some (_, row) =>
    let rem := tremoveWhere s.contents (fun r => r.page_id == pid)
    if rem.2 = 0 then (s, false)
    else
      let popped := dget s.contentIdx pid
      let cIdx1 := dpop s.contentIdx pid
      match popped with
      | some (.pageDoc d) =>
        if d ≠ 0 then
          match dget cIdx1 row.file_id with
          | some (.fileDocs ds) =>
            let ds' := ds.erase d
            let cIdx2 :=
              if ds'.isEmpty then dpop cIdx1 row.file_id
              else dinsert cIdx1 row.file_id (.fileDocs ds')
            ({ s with contents := rem.1, contentIdx := cIdx2 }, true)
          | some (.pageDoc _) =>
            ({ s with contents := rem.1, contentIdx := cIdx1 }, false)
          | none => ({ s with contents := rem.1, contentIdx := cIdx1 }, true)
        else ({ s with contents := rem.1, contentIdx := cIdx1 }, true)
      | _ => ({ s with contents := rem.1, contentIdx := cIdx1 }, true)

/-- `ContentModel.delete_contents_by_file_id`: remove every row of the file,
then pop each removed page-id key and the file-id key. -/
def deleteContentsByFileId (s : Store) (fid : String) : Store × Nat :=
  let cts := getContentsByFileId s fid
  let rem := tremoveWhere s.contents (fun r => r.file_id == fid)
  if rem.2 = 0 then (s, 0)
  else
    let cIdx1 := cts.foldl (fun ci c => dpop ci c.page_id) s.contentIdx
    ({ s with contents := rem.1, contentIdx := dpop cIdx1 fid }, rem.2)

/-! ### Dictionary membership and fresh-id lemmas -/

theorem mem_dpop {κ α : Type} [DecidableEq κ] {l : List (κ × α)} {k : κ} {kv : κ × α} :
    kv ∈ dpop l k ↔ kv ∈ l ∧ kv.1 ≠ k := by
  simp only [dpop, List.mem_filter, bne_iff_ne, ne_eq]

theorem mem_dinsert {κ α : Type} [DecidableEq κ] {l : List (κ × α)} {k : κ} {v : α}
    {kv : κ × α} : kv ∈ dinsert l k v ↔ kv = (k, v) ∨ (kv ∈ l ∧ kv.1 ≠ k) := by
  simp only [dinsert, List.mem_append, List.mem_filter, List.mem_singleton,
    bne_iff_ne, ne_eq]
  tauto

theorem mem_le_foldr_max (l : List Nat) : ∀ x ∈ l, x ≤ l.foldr max 0 := by
  induction l with
  | nil => simp
  | cons a rest ih =>
    intro x hx
    rcases List.mem_cons.mp hx with h | h
    · subst h; exact le_max_left _ _
    · exact le_trans (ih x h) (le_max_right _ _)

theorem nextId_not_mem {ρ : Type} (t : List (Nat × ρ)) : ∀ e ∈ t, e.1 ≠ nextId t := by
  intro e he hc
  have := mem_le_foldr_max (t.map (·.1)) e.1 (List.mem_map.mpr ⟨e, he, rfl⟩)
  simp only [nextId] at hc
  omega

theorem nextId_pos {ρ : Type} (t : List (Nat × ρ)) : 0 < nextId t := by
  simp [nextId]

theorem tget_eq_some_of_mem {ρ : Type} {t : List (Nat × ρ)} {e : Nat × ρ}
    (hnd : (t.map (·.1)).Nodup) (hm : e ∈ t) : tget t e.1 = some e.2 :=
  dget_eq_some_of_mem hnd hm

theorem mem_of_tget_eq_some {ρ : Type} {t : List (Nat × ρ)} {d : Nat} {r : ρ}
    (h : tget t d = some r) : (d, r) ∈ t :=
  mem_of_dget_eq_some h

/-! ### Claim C1: the secondary index stays consistent with the tables

`Consistent` is the claim's invariant: every live file row is reachable in the
file index under its file id and its normalized path, every live content row
is reachable in the content index under its page id and its owning file id,
and every index entry points at a live row.  `WFStore` collects bookkeeping
facts (distinct doc ids, distinct dictionary keys, well-formed doc-id sets)
that every reachable store satisfies. -/

def FilesInv (np : String → String) (s : Store) : Prop :=
  ∀ e ∈ s.files, dget s.fileIdx e.2.file_id = some e.1 ∧
    dget s.fileIdx (np e.2.file_path) = some e.1

def FileIdxInv (np : String → String) (s : Store) : Prop :=
  ∀ kv ∈ s.fileIdx, ∃ e ∈ s.files, e.1 = kv.2 ∧
    (kv.1 = e.2.file_id ∨ kv.1 = np e.2.file_path)

def ContentsInv (s : Store) : Prop :=
  ∀ e ∈ s.contents, dget s.contentIdx e.2.page_id = some (.pageDoc e.1) ∧
    ∃ ds, dget s.contentIdx e.2.file_id = some (.fileDocs ds) ∧ e.1 ∈ ds

def ContentIdxInv (s : Store) : Prop :=
  ∀ kv ∈ s.contentIdx,
    (∀ d, kv.2 = .pageDoc d → ∃ e ∈ s.contents, e.1 = d ∧ kv.1 = e.2.page_id) ∧
    (∀ ds, kv.2 = .fileDocs ds →
      ds ≠ [] ∧ ∀ d ∈ ds, ∃ e ∈ s.contents, e.1 = d ∧ kv.1 = e.2.file_id)

/-- The C1 invariant. -/
def Consistent (np : String → String) (s : Store) : Prop :=
  FilesInv np s ∧ FileIdxInv np s ∧ ContentsInv s ∧ ContentIdxInv s

/-- Bookkeeping well-formedness of a store. -/
def WFStore (np : String → String) (s : Store) : Prop :=
  (s.files.map (·.1)).Nodup ∧
  (s.contents.map (·.1)).Nodup ∧
  (s.fileIdx.map (·.1)).Nodup ∧
  (s.contentIdx.map (·.1)).Nodup ∧
  (∀ kv ∈ s.contentIdx, ∀ ds, kv.2 = CIdxVal.fileDocs ds → ds.Nodup) ∧
  (∀ e ∈ s.contents, e.1 ≠ 0) ∧
  (∀ e ∈ s.files, e.2.file_id ≠ np e.2.file_path)

theorem consistent_emptyStore (np : String → String) : Consistent np emptyStore := by
  refine ⟨?_, ?_, ?_, ?_⟩ <;> intro kv hkv <;> simp [emptyStore] at hkv

theorem wfStore_emptyStore (np : String → String) : WFStore np emptyStore := by
  refine ⟨?_, ?_, ?_, ?_, ?_, ?_, ?_⟩ <;> simp [emptyStore]

/-- Two file rows with the same file id coincide. -/
theorem file_id_inj {np : String → String} {s : Store} (hC : Consistent np s)
    (hW : WFStore np s) : ∀ e ∈ s.files, ∀ e' ∈ s.files,
      e.2.file_id = e'.2.file_id → e = e' := by
  intro e he e' he' hid
  have h1 := (hC.1 e he).1
  have h2 := (hC.1 e' he').1
  rw [hid] at h1
  rw [h1] at h2
  have hfst : e.1 = e'.1 := by injection h2
  exact List.inj_on_of_nodup_map hW.1 he he' hfst

/-- Two file rows with the same normalized path coincide. -/
theorem file_path_inj {np : String → String} {s : Store} (hC : Consistent np s)
    (hW : WFStore np s) : ∀ e ∈ s.files, ∀ e' ∈ s.files,
      np e.2.file_path = np e'.2.file_path → e = e' := by
  intro e he e' he' hp
  have h1 := (hC.1 e he).2
  have h2 := (hC.1 e' he').2
  rw [hp] at h1
  rw [h1] at h2
  have hfst : e.1 = e'.1 := by injection h2
  exact List.inj_on_of_nodup_map hW.1 he he' hfst

/-- A file id never equals another row's normalized path. -/
theorem file_id_ne_path {np : String → String} {s : Store} (hC : Consistent np s)
    (hW : WFStore np s) : ∀ e ∈ s.files, ∀ e' ∈ s.files,
      e.2.file_id ≠ np e'.2.file_path := by
  intro e he e' he' hc
  by_cases hee : e = e'
  · subst hee
    exact hW.2.2.2.2.2.2 e he hc
  · have h1 := (hC.1 e he).1
    have h2 := (hC.1 e' he').2
    rw [hc] at h1
    rw [h1] at h2
    have hfst : e.1 = e'.1 := by injection h2
    exact hee (List.inj_on_of_nodup_map hW.1 he he' hfst)

/-- Two content rows with the same page id coincide. -/
theorem page_id_inj {np : String → String} {s : Store} (hC : Consistent np s)
    (hW : WFStore np s) : ∀ e ∈ s.contents, ∀ e' ∈ s.contents,
      e.2.page_id = e'.2.page_id → e = e' := by
  intro e he e' he' hid
  have h1 := (hC.2.2.1 e he).1
  have h2 := (hC.2.2.1 e' he').1
  rw [hid] at h1
  rw [h1] at h2
  have hfst : e.1 = e'.1 := by
    have := Option.some.inj h2
    injection this
  exact List.inj_on_of_nodup_map hW.2.1 he he' hfst

/-- A page id never equals any owning file id among the content rows. -/
theorem page_id_ne_file_id {np : String → String} {s : Store} (hC : Consistent np s) :
    ∀ e ∈ s.contents, ∀ e' ∈ s.contents, e.2.page_id ≠ e'.2.file_id := by
  intro e he e' he' hc
  have h1 := (hC.2.2.1 e he).1
  obtain ⟨ds, h2, _⟩ := (hC.2.2.1 e' he').2
  rw [hc] at h1
  rw [h1] at h2
  exact absurd (Option.some.inj h2) (by simp)

theorem getFileById_eq_some {s : Store} {fid : String} {d : Nat} {row : FileRow}
    (h : getFileById s fid = some (d, row)) :
    dget s.fileIdx fid = some d ∧ tget s.files d = some row := by
  unfold getFileById at h
  cases hd : dget s.fileIdx fid with
  | none => rw [hd] at h; simp at h
  | some d' =>
    rw [hd] at h
    have h : Option.map (fun x => (d', x)) (tget s.files d') = some (d, row) := h
    cases ht : tget s.files d' with
    | none => rw [ht] at h; simp at h
    | some r =>
      rw [ht] at h
      simp only [Option.map_some', Option.some.injEq, Prod.mk.injEq] at h
      obtain ⟨h1, h2⟩ := h
      subst h1
      subst h2
      exact ⟨rfl, ht⟩

/-- Replacing one file row by a row with the same file id and the same
normalized path (only other fields changed) preserves the invariants. -/
theorem replaceRow_preserves (np : String → String) {s : Store}
    (hC : Consistent np s) (hW : WFStore np s) {d : Nat} {row r' : FileRow}
    (hmem : (d, row) ∈ s.files)
    (hid : r'.file_id = row.file_id) (hpath : np r'.file_path = np row.file_path)
    (g : Nat × FileRow → Nat × FileRow)
    (hg : ∀ e ∈ s.files, g e = if e = (d, row) then (d, r') else e) :
    Consistent np { s with files := s.files.map g } ∧
    WFStore np { s with files := s.files.map g } := by
  have hmap : s.files.map g = s.files.map fun e => if e = (d, row) then (d, r') else e :=
    List.map_congr_left hg
  rw [hmap]
  have hmem' : (d, r') ∈ s.files.map fun e => if e = (d, row) then (d, r') else e := by
    refine List.mem_map.mpr ⟨(d, row), hmem, by simp⟩
  have hmemo : ∀ e ∈ s.files, e ≠ (d, row) →
      e ∈ s.files.map fun e => if e = (d, row) then (d, r') else e := by
    intro e he hne
    exact List.mem_map.mpr ⟨e, he, by simp [hne]⟩
  have hfst : ((s.files.map fun e => if e = (d, row) then (d, r') else e).map (·.1)) =
      s.files.map (·.1) := by
    simp only [List.map_map]
    apply List.map_congr_left
    intro e he
    by_cases hne : e = (d, row) <;> simp [hne, Function.comp]
  constructor
  · refine ⟨?_, ?_, hC.2.2.1, hC.2.2.2⟩
    · intro e' he'
      obtain ⟨e, he, hge⟩ := List.mem_map.mp he'
      by_cases hne : e = (d, row)
      · subst hne
        rw [if_pos rfl] at hge
        subst hge
        have hf := hC.1 (d, row) hmem
        constructor
        · simpa only [hid] using hf.1
        · simpa only [hpath] using hf.2
      · rw [if_neg hne] at hge
        subst hge
        exact hC.1 e he
    · intro kv hkv
      obtain ⟨e, he, he1, he2⟩ := hC.2.1 kv hkv
      by_cases hne : e = (d, row)
      · subst hne
        refine ⟨(d, r'), hmem', he1, ?_⟩
        rcases he2 with h | h
        · exact Or.inl (by rw [h, ← hid])
        · exact Or.inr (by rw [h, ← hpath])
      · exact ⟨e, hmemo e he hne, he1, he2⟩
  · refine ⟨?_, hW.2.1, hW.2.2.1, hW.2.2.2.1, hW.2.2.2.2.1, hW.2.2.2.2.2.1, ?_⟩
    · rw [hfst]; exact hW.1
    · intro e' he'
      obtain ⟨e, he, hge⟩ := List.mem_map.mp he'
      by_cases hne : e = (d, row)
      · subst hne
        rw [if_pos rfl] at hge
        subst hge
        intro hc
        rw [hid, hpath] at hc
        exact hW.2.2.2.2.2.2 (d, row) hmem hc
      · rw [if_neg hne] at hge
        subst hge
        exact hW.2.2.2.2.2.2 e he

theorem map_ite_fst {ρ : Type} [DecidableEq ρ] (l : List (Nat × ρ)) (d : Nat) (row r' : ρ) :
    ((l.map fun e => if e = (d, row) then (d, r') else e).map (·.1)) = l.map (·.1) := by
  simp only [List.map_map]
  apply List.map_congr_left
  intro e he
  by_cases hne : e = (d, row) <;> simp [hne, Function.comp]

theorem updateFile_some (np : String → String) (s : Store) (fid : String)
    (u : FileUpdates) (d : Nat) (row : FileRow) (hemp : ¬ u.isEmpty = true)
    (hgid : getFileById s fid = some (d, row)) :
    updateFile np s fid u =
      (let fIdx' :=
        match u.file_path with
        | some newP =>
          if newP ≠ "" ∧ newP ≠ row.file_path then
            dinsert (dpop s.fileIdx (np row.file_path)) (np newP) d
          else s.fileIdx
        | none => s.fileIdx
      let upd := tupdateWhere s.files (fun r => r.file_id == fid) u.apply
      if upd.2 = 0 then ({ s with fileIdx := fIdx' }, some "File not found")
      else ({ s with files := upd.1, fileIdx := fIdx' }, none)) := by
  unfold updateFile
  rw [if_neg hemp, hgid]

/-- Moving one file row to a new raw path `newP` (popping the old normalized
path key and inserting the new one) preserves the invariants, provided the new
normalized path is either the old one or absent from the index. -/
theorem pathChange_preserves (np : String → String) {s : Store}
    (hC : Consistent np s) (hW : WFStore np s) {d : Nat} {row r' : FileRow}
    (hmem : (d, row) ∈ s.files) (newP : String)
    (hr'id : r'.file_id = row.file_id)
    (hr'path : np r'.file_path = np newP)
    (hopt : np newP = np row.file_path ∨ dget s.fileIdx (np newP) = none)
    (g : Nat × FileRow → Nat × FileRow)
    (hg : ∀ e ∈ s.files, g e = if e = (d, row) then (d, r') else e) :
    Consistent np { s with
      files := s.files.map g
      fileIdx := dinsert (dpop s.fileIdx (np row.file_path)) (np newP) d } ∧
    WFStore np { s with
      files := s.files.map g
      fileIdx := dinsert (dpop s.fileIdx (np row.file_path)) (np newP) d } := by
  have hmap : s.files.map g = s.files.map fun e => if e = (d, row) then (d, r') else e :=
    List.map_congr_left hg
  rw [hmap]
  have hdg : dget s.fileIdx row.file_id = some d := (hC.1 (d, row) hmem).1
  have hdp : dget s.fileIdx (np row.file_path) = some d := (hC.1 (d, row) hmem).2
  have hfid_old : row.file_id ≠ np row.file_path := hW.2.2.2.2.2.2 (d, row) hmem
  have hfid_new : row.file_id ≠ np newP := by
    rcases hopt with h | h
    · rw [h]; exact hfid_old
    · intro hc
      rw [← hc, hdg] at h
      exact absurd h (by simp)
  have hmem' : (d, r') ∈ s.files.map fun e => if e = (d, row) then (d, r') else e :=
    List.mem_map.mpr ⟨(d, row), hmem, by simp⟩
  have hmemo : ∀ e ∈ s.files, e ≠ (d, row) →
      e ∈ s.files.map fun e => if e = (d, row) then (d, r') else e := by
    intro e he hne
    exact List.mem_map.mpr ⟨e, he, by simp [hne]⟩
  constructor
  · refine ⟨?_, ?_, hC.2.2.1, hC.2.2.2⟩
    · intro e' he'
      have he'' : e' ∈ s.files.map fun e => if e = (d, row) then (d, r') else e := he'
      obtain ⟨e, he, hge⟩ := List.mem_map.mp he''
      by_cases hne : e = (d, row)
      · subst hne
        rw [if_pos rfl] at hge
        subst hge
        constructor
        · show dget (dinsert (dpop s.fileIdx (np row.file_path)) (np newP) d)
            r'.file_id = some d
          rw [hr'id, dget_dinsert, if_neg hfid_new, dget_dpop, if_neg hfid_old]
          exact hdg
        · show dget (dinsert (dpop s.fileIdx (np row.file_path)) (np newP) d)
            (np r'.file_path) = some d
          rw [hr'path, dget_dinsert, if_pos rfl]
      · rw [if_neg hne] at hge
        subst hge
        have hf := hC.1 e he
        have hB : e.2.file_id ≠ np row.file_path :=
          file_id_ne_path hC hW e he (d, row) hmem
        have hA : e.2.file_id ≠ np newP := by
          rcases hopt with h | h
          · rw [h]; exact hB
          · intro hc
            rw [← hc, hf.1] at h
            exact absurd h (by simp)
        have hD : np e.2.file_path ≠ np row.file_path := by
          intro hc
          exact hne (file_path_inj hC hW e he (d, row) hmem hc)
        have hCc : np e.2.file_path ≠ np newP := by
          rcases hopt with h | h
          · rw [h]; exact hD
          · intro hc
            rw [← hc, hf.2] at h
            exact absurd h (by simp)
        constructor
        · show dget (dinsert (dpop s.fileIdx (np row.file_path)) (np newP) d)
            e.2.file_id = some e.1
          rw [dget_dinsert, if_neg hA, dget_dpop, if_neg hB]
          exact hf.1
        · show dget (dinsert (dpop s.fileIdx (np row.file_path)) (np newP) d)
            (np e.2.file_path) = some e.1
          rw [dget_dinsert, if_neg hCc, dget_dpop, if_neg hD]
          exact hf.2
    · intro kv hkv
      have hkv' : kv ∈ dinsert (dpop s.fileIdx (np row.file_path)) (np newP) d := hkv
      rcases mem_dinsert.mp hkv' with hnew | ⟨hin, hne1⟩
      · subst hnew
        refine ⟨(d, r'), hmem', rfl, Or.inr ?_⟩
        rw [hr'path]
      · obtain ⟨hin2, hne2⟩ := mem_dpop.mp hin
        obtain ⟨e, he, he1, he2⟩ := hC.2.1 kv hin2
        by_cases hne : e = (d, row)
        · subst hne
          have hkey : kv.1 = row.file_id := by
            rcases he2 with h | h
            · exact h
            · exact absurd h hne2
          refine ⟨(d, r'), hmem', he1, Or.inl ?_⟩
          rw [hkey, hr'id]
        · exact ⟨e, hmemo e he hne, he1, he2⟩
  · refine ⟨?_, hW.2.1, ?_, hW.2.2.2.1, hW.2.2.2.2.1, hW.2.2.2.2.2.1, ?_⟩
    · show (((s.files.map fun e => if e = (d, row) then (d, r') else e).map (·.1))).Nodup
      rw [map_ite_fst]
      exact hW.1
    · exact nodup_keys_dinsert _ _ _ (nodup_keys_dpop _ _ hW.2.2.1)
    · intro e' he'
      have he'' : e' ∈ s.files.map fun e => if e = (d, row) then (d, r') else e := he'
      obtain ⟨e, he, hge⟩ := List.mem_map.mp he''
      by_cases hne : e = (d, row)
      · subst hne
        rw [if_pos rfl] at hge
        subst hge
        intro hc
        rw [hr'id, hr'path] at hc
        exact hfid_new hc
      · rw [if_neg hne] at hge
        subst hge
        exact hW.2.2.2.2.2.2 e he

theorem updateFile_preserves (np : String → String) {s : Store}
    (hC : Consistent np s) (hW : WFStore np s) (fid : String) (u : FileUpdates)
    (hok : ∀ d row, getFileById s fid = some (d, row) → row.file_id = fid ∧
      ∀ p, u.file_path = some p → p ≠ "" ∧
        (np p = np row.file_path ∨ dget s.fileIdx (np p) = none)) :
    Consistent np (updateFile np s fid u).1 ∧ WFStore np (updateFile np s fid u).1 := by
  by_cases hemp : u.isEmpty = true
  · unfold updateFile
    rw [if_pos hemp]
    exact ⟨hC, hW⟩
  · cases hgid : getFileById s fid with
    | none =>
      unfold updateFile
      rw [if_neg hemp, hgid]
      exact ⟨hC, hW⟩
    | some pr =>
      obtain ⟨d, row⟩ := pr
      rw [updateFile_some np s fid u d row hemp hgid]
      obtain ⟨hdg, htg⟩ := getFileById_eq_some hgid
      have hmem : (d, row) ∈ s.files := mem_of_tget_eq_some htg
      have hfidr : row.file_id = fid := (hok d row hgid).1
      have hcnt : ¬ (tupdateWhere s.files (fun r => r.file_id == fid) u.apply).2 = 0 := by
        have hm : (d, row) ∈ s.files.filter fun e => e.2.file_id == fid :=
          List.mem_filter.mpr ⟨hmem, by simp [hfidr]⟩
        have := List.length_pos.mpr (List.ne_nil_of_mem hm)
        simp only [tupdateWhere]
        omega
      have huniq : ∀ e ∈ s.files, e.2.file_id = fid → e = (d, row) := by
        intro e he hf
        exact file_id_inj hC hW e he (d, row) hmem (by rw [hf, hfidr])
      have happid : (u.apply row).file_id = row.file_id := rfl
      have hg : ∀ e ∈ s.files,
          (if e.2.file_id == fid then (e.1, u.apply e.2) else e) =
          if e = (d, row) then (d, u.apply row) else e := by
        intro e he
        by_cases hcase : e = (d, row)
        · subst hcase
          simp [hfidr]
        · have hne : e.2.file_id ≠ fid := fun hc => hcase (huniq e he hc)
          simp [hne, hcase]
      cases hup : u.file_path with
      | none =>
        show Consistent np (if (tupdateWhere s.files (fun r => r.file_id == fid) u.apply).2 = 0
            then ({ s with fileIdx := s.fileIdx }, some "File not found")
            else ({ s with
              files := (tupdateWhere s.files (fun r => r.file_id == fid) u.apply).1
              fileIdx := s.fileIdx }, none)).1 ∧ _
        rw [if_neg hcnt]
        have hpath : np (u.apply row).file_path = np row.file_path := by
          simp [FileUpdates.apply, hup]
        exact replaceRow_preserves np hC hW hmem happid hpath _ hg
      | some p =>
        by_cases hpe : p = row.file_path
        · show Consistent np (if (tupdateWhere s.files (fun r => r.file_id == fid) u.apply).2 = 0
              then ({ s with fileIdx := if p ≠ "" ∧ p ≠ row.file_path
                  then dinsert (dpop s.fileIdx (np row.file_path)) (np p) d
                  else s.fileIdx }, some "File not found")
              else ({ s with
                files := (tupdateWhere s.files (fun r => r.file_id == fid) u.apply).1
                fileIdx := if p ≠ "" ∧ p ≠ row.file_path
                  then dinsert (dpop s.fileIdx (np row.file_path)) (np p) d
                  else s.fileIdx }, none)).1 ∧ _
          rw [if_neg hcnt]
          have hif : ¬ (p ≠ "" ∧ p ≠ row.file_path) := by simp [hpe]
          rw [if_neg hif]
          have hpath : np (u.apply row).file_path = np row.file_path := by
            simp [FileUpdates.apply, hup, hpe]
          exact replaceRow_preserves np hC hW hmem happid hpath _ hg
        · show Consistent np (if (tupdateWhere s.files (fun r => r.file_id == fid) u.apply).2 = 0
              then ({ s with fileIdx := if p ≠ "" ∧ p ≠ row.file_path
                  then dinsert (dpop s.fileIdx (np row.file_path)) (np p) d
                  else s.fileIdx }, some "File not found")
              else ({ s with
                files := (tupdateWhere s.files (fun r => r.file_id == fid) u.apply).1
                fileIdx := if p ≠ "" ∧ p ≠ row.file_path
                  then dinsert (dpop s.fileIdx (np row.file_path)) (np p) d
                  else s.fileIdx }, none)).1 ∧ _
          have hpne : p ≠ "" := ((hok d row hgid).2 p hup).1
          rw [if_neg hcnt, if_pos ⟨hpne, hpe⟩]
          have hr'path : np (u.apply row).file_path = np p := by
            simp [FileUpdates.apply, hup]
          have hopt : np p = np row.file_path ∨ dget s.fileIdx (np p) = none := by
            rcases ((hok d row hgid).2 p hup).2 with h | h
            · exact Or.inl h
            · exact Or.inr h
          exact pathChange_preserves np hC hW hmem p happid hr'path hopt _ hg

theorem deleteFile_some (np : String → String) (s : Store) (fid : String)
    (d : Nat) (row : FileRow) (hgid : getFileById s fid = some (d, row)) :
    deleteFile np s fid =
      (let rem := tremoveWhere s.files (fun r => r.file_id == fid)
       if rem.2 = 0 then (s, some "File not found")
       else ({ s with
          files := rem.1
          fileIdx := dpop (dpop s.fileIdx fid) (np row.file_path) }, none)) := by
  unfold deleteFile
  rw [hgid]

theorem deleteFile_preserves (np : String → String) {s : Store}
    (hC : Consistent np s) (hW : WFStore np s) (fid : String) :
    Consistent np (deleteFile np s fid).1 ∧ WFStore np (deleteFile np s fid).1 := by
  cases hgid : getFileById s fid with
  | none =>
    unfold deleteFile
    rw [hgid]
    exact ⟨hC, hW⟩
  | some pr =>
    obtain ⟨d, row⟩ := pr
    rw [deleteFile_some np s fid d row hgid]
    obtain ⟨hdg, htg⟩ := getFileById_eq_some hgid
    have hmem : (d, row) ∈ s.files := mem_of_tget_eq_some htg
    by_cases hfidr : row.file_id = fid
    · have hcnt : ¬ (tremoveWhere s.files (fun r => r.file_id == fid)).2 = 0 := by
        have hm : (d, row) ∈ s.files.filter fun e => e.2.file_id == fid :=
          List.mem_filter.mpr ⟨hmem, by simp [hfidr]⟩
        have := List.length_pos.mpr (List.ne_nil_of_mem hm)
        simp only [tremoveWhere]
        omega
      have huniq : ∀ e ∈ s.files, e.2.file_id = fid → e = (d, row) := by
        intro e he hf
        exact file_id_inj hC hW e he (d, row) hmem (by rw [hf, hfidr])
      show Consistent np (if (tremoveWhere s.files (fun r => r.file_id == fid)).2 = 0
          then (s, some "File not found")
          else ({ s with
            files := (tremoveWhere s.files (fun r => r.file_id == fid)).1
            fileIdx := dpop (dpop s.fileIdx fid) (np row.file_path) }, none)).1 ∧ _
      rw [if_neg hcnt]
      have hkeep : ∀ e, e ∈ (tremoveWhere s.files (fun r => r.file_id == fid)).1 ↔
          e ∈ s.files ∧ e ≠ (d, row) := by
        intro e
        simp only [tremoveWhere, List.mem_filter, Bool.not_eq_eq_eq_not, Bool.not_true,
          beq_eq_false_iff_ne, ne_eq]
        constructor
        · rintro ⟨he, hne⟩
          exact ⟨he, fun hc => hne (by rw [hc, hfidr])⟩
        · rintro ⟨he, hne⟩
          exact ⟨he, fun hc => hne (huniq e he hc)⟩
      constructor
      · refine ⟨?_, ?_, hC.2.2.1, hC.2.2.2⟩
        · intro e he'
          obtain ⟨he, hne⟩ := (hkeep e).mp he'
          have hf := hC.1 e he
          have h1 : e.2.file_id ≠ fid := fun hc => hne (huniq e he hc)
          have h2 : e.2.file_id ≠ np row.file_path :=
            file_id_ne_path hC hW e he (d, row) hmem
          have h3 : np e.2.file_path ≠ fid := by
            intro hc
            exact file_id_ne_path hC hW (d, row) hmem e he (by rw [hfidr, hc])
          have h4 : np e.2.file_path ≠ np row.file_path := by
            intro hc
            exact hne (file_path_inj hC hW e he (d, row) hmem hc)
          constructor
          · show dget (dpop (dpop s.fileIdx fid) (np row.file_path)) e.2.file_id = some e.1
            rw [dget_dpop, if_neg h2, dget_dpop, if_neg h1]
            exact hf.1
          · show dget (dpop (dpop s.fileIdx fid) (np row.file_path)) (np e.2.file_path) = some e.1
            rw [dget_dpop, if_neg h4, dget_dpop, if_neg h3]
            exact hf.2
        · intro kv hkv
          have hkv' : kv ∈ dpop (dpop s.fileIdx fid) (np row.file_path) := hkv
          obtain ⟨hkv2, hne2⟩ := mem_dpop.mp hkv'
          obtain ⟨hkv3, hne3⟩ := mem_dpop.mp hkv2
          obtain ⟨e, he, he1, he2⟩ := hC.2.1 kv hkv3
          have hne : e ≠ (d, row) := by
            intro hc
            subst hc
            rcases he2 with h | h
            · exact hne3 (by rw [h, hfidr])
            · exact hne2 h
          exact ⟨e, (hkeep e).mpr ⟨he, hne⟩, he1, he2⟩
      · refine ⟨?_, hW.2.1, ?_, hW.2.2.2.1, hW.2.2.2.2.1, hW.2.2.2.2.2.1, ?_⟩
        · exact hW.1.sublist (List.Sublist.map _ (List.filter_sublist s.files))
        · exact nodup_keys_dpop _ _ (nodup_keys_dpop _ _ hW.2.2.1)
        · intro e he'
          obtain ⟨he, _⟩ := (hkeep e).mp he'
          exact hW.2.2.2.2.2.2 e he
    · have hnone : ∀ e ∈ s.files, ¬ e.2.file_id = fid := by
        intro e he hc
        have h1 := (hC.1 e he).1
        rw [hc, hdg] at h1
        have he1 : e.1 = d := (Option.some.inj h1).symm
        have : e = (d, row) := by
          have : (d, row).1 = d := rfl
          exact List.inj_on_of_nodup_map hW.1 he hmem (by rw [he1])
        rw [this] at hc
        exact hfidr hc
      have hcnt : (tremoveWhere s.files (fun r => r.file_id == fid)).2 = 0 := by
        simp only [tremoveWhere]
        have : s.files.filter (fun e => e.2.file_id == fid) = [] := by
          rw [List.filter_eq_nil_iff]
          intro e he
          simp [hnone e he]
        rw [this]
        rfl
      show Consistent np (if (tremoveWhere s.files (fun r => r.file_id == fid)).2 = 0
          then (s, some "File not found")
          else ({ s with
            files := (tremoveWhere s.files (fun r => r.file_id == fid)).1
            fileIdx := dpop (dpop s.fileIdx fid) (np row.file_path) }, none)).1 ∧ _
      rw [if_pos hcnt]
      exact ⟨hC, hW⟩

theorem cleanUpFilePages_preserves (np : String → String) {s : Store}
    (hC : Consistent np s) (hW : WFStore np s) (fid : String) :
    Consistent np (cleanUpFilePages s fid).1 ∧ WFStore np (cleanUpFilePages s fid).1 := by
  unfold cleanUpFilePages
  by_cases hcnt : (tupdateWhere s.files (fun r => r.file_id == fid)
      (fun r => { r with pages := [] })).2 = 0
  · rw [if_pos hcnt]
    exact ⟨hC, hW⟩
  · rw [if_neg hcnt]
    have hne : s.files.filter (fun e => e.2.file_id == fid) ≠ [] := by
      intro hc
      simp only [tupdateWhere, hc] at hcnt
      exact hcnt rfl
    obtain ⟨e0, he0⟩ := List.exists_mem_of_ne_nil _ hne
    obtain ⟨hmem, hbeq⟩ := List.mem_filter.mp he0
    obtain ⟨d, row⟩ := e0
    have hfidr : row.file_id = fid := by simpa using hbeq
    have huniq : ∀ e ∈ s.files, e.2.file_id = fid → e = (d, row) := by
      intro e he hf
      exact file_id_inj hC hW e he (d, row) hmem (by rw [hf, hfidr])
    have hg : ∀ e ∈ s.files,
        (if e.2.file_id == fid then (e.1, { e.2 with pages := ([] : List PageRec) }) else e) =
        if e = (d, row) then (d, { row with pages := ([] : List PageRec) }) else e := by
      intro e he
      by_cases hcase : e = (d, row)
      · subst hcase
        simp [hfidr]
      · have hne' : e.2.file_id ≠ fid := fun hc => hcase (huniq e he hc)
        simp [hne', hcase]
    exact @replaceRow_preserves np s hC hW d row { row with pages := [] } hmem rfl rfl _ hg

theorem addPages_preserves (np : String → String) {s : Store}
    (hC : Consistent np s) (hW : WFStore np s) (fid : String) (pageData : List PageRec) :
    Consistent np (addPages s fid pageData).1 ∧ WFStore np (addPages s fid pageData).1 := by
  cases hfind : s.files.find? (fun e => e.2.file_id == fid) with
  | none =>
    unfold addPages
    rw [hfind]
    exact ⟨hC, hW⟩
  | some pr =>
    obtain ⟨d, row⟩ := pr
    have hmem : (d, row) ∈ s.files := List.mem_of_find?_eq_some hfind
    unfold addPages
    rw [hfind]
    have hg : ∀ e ∈ s.files,
        (if e.1 = d then (e.1, { e.2 with pages := row.pages ++ pageData }) else e) =
        if e = (d, row) then (d, { row with pages := row.pages ++ pageData }) else e := by
      intro e he
      by_cases hcase : e = (d, row)
      · subst hcase
        simp
      · have hne' : e.1 ≠ d := by
          intro hc
          exact hcase (List.inj_on_of_nodup_map hW.1 he hmem hc)
        simp [hne', hcase]
    exact @replaceRow_preserves np s hC hW d row
      { row with pages := row.pages ++ pageData } hmem rfl rfl _ hg

theorem getContentByPageId_eq_some {s : Store} {pid : String} {d : Nat} {row : ContentRow}
    (h : getContentByPageId s pid = some (d, row)) :
    dget s.contentIdx pid = some (.pageDoc d) ∧ tget s.contents d = some row := by
  unfold getContentByPageId at h
  cases hd : dget s.contentIdx pid with
  | none => rw [hd] at h; simp at h
  | some v =>
    cases v with
    | pageDoc d' =>
      rw [hd] at h
      have h : Option.map (fun x => (d', x)) (tget s.contents d') = some (d, row) := h
      cases ht : tget s.contents d' with
      | none => rw [ht] at h; simp at h
      | some r =>
        rw [ht] at h
        simp only [Option.map_some', Option.some.injEq, Prod.mk.injEq] at h
        obtain ⟨h1, h2⟩ := h
        subst h1
        subst h2
        exact ⟨rfl, ht⟩
    | fileDocs ds => rw [hd] at h; simp at h

theorem createContent_preserves (np : String → String) {s : Store}
    (hC : Consistent np s) (hW : WFStore np s)
    (pid fid : String) (pnum : Int) (content title prop abstract : String)
    (kws : List String) (ca ua : String)
    (hfresh : dget s.contentIdx pid = none) (hpf : pid ≠ fid)
    (hty : ∀ dd, dget s.contentIdx fid ≠ some (.pageDoc dd)) :
    Consistent np (createContent s pid fid pnum content title prop abstract kws ca ua).1 ∧
    WFStore np (createContent s pid fid pnum content title prop abstract kws ca ua).1 := by
  have hred : dget (dinsert s.contentIdx pid
      (CIdxVal.pageDoc (nextId s.contents))) fid = dget s.contentIdx fid := by
    rw [dget_dinsert, if_neg (fun hc => hpf hc.symm)]
  simp only [createContent, hred]
  set D := nextId s.contents with hD
  set row : ContentRow := ⟨pid, fid, pnum, content, title, prop, abstract, kws, ca, ua⟩
    with hrow
  have hDpos : 0 < D := nextId_pos s.contents
  have hDfresh : ∀ e ∈ s.contents, e.1 ≠ D := nextId_not_mem s.contents
  have hnodupC : ((s.contents ++ [(D, row)]).map (·.1)).Nodup := by
    simp only [List.map_append]
    refine List.Nodup.append hW.2.1 (by simp) ?_
    intro a ha hb
    simp only [List.map_cons, List.map_nil, List.mem_singleton] at hb
    subst hb
    obtain ⟨e, he, hek⟩ := List.mem_map.mp ha
    exact hDfresh e he hek
  have hnz : ∀ e ∈ s.contents ++ [(D, row)], e.1 ≠ 0 := by
    intro e he
    rcases List.mem_append.mp he with h | h
    · exact hW.2.2.2.2.2.1 e h
    · have : e = (D, row) := by simpa using h
      subst this
      omega
  have hold_pid_ne : ∀ e ∈ s.contents, e.2.page_id ≠ pid := by
    intro e he hc
    have h1 := (hC.2.2.1 e he).1
    rw [hc, hfresh] at h1
    exact absurd h1 (by simp)
  have hold_fid_ne_pid : ∀ e ∈ s.contents, e.2.file_id ≠ pid := by
    intro e he hc
    obtain ⟨ds, h1, _⟩ := (hC.2.2.1 e he).2
    rw [hc, hfresh] at h1
    exact absurd h1 (by simp)
  have hmemD : (D, row) ∈ s.contents ++ [(D, row)] :=
    List.mem_append.mpr (Or.inr (by simp))
  cases hdf : dget s.contentIdx fid with
  | none =>
    have hold_fid_ne : ∀ e ∈ s.contents, e.2.file_id ≠ fid := by
      intro e he hc
      obtain ⟨ds, h1, _⟩ := (hC.2.2.1 e he).2
      rw [hc, hdf] at h1
      exact absurd h1 (by simp)
    have hold_pid_ne_fid : ∀ e ∈ s.contents, e.2.page_id ≠ fid := by
      intro e he hc
      have h1 := (hC.2.2.1 e he).1
      rw [hc, hdf] at h1
      exact absurd h1 (by simp)
    constructor
    · refine ⟨hC.1, hC.2.1, ?_, ?_⟩
      · intro e he
        rcases List.mem_append.mp he with hold | hnew
        · have hf := hC.2.2.1 e hold
          constructor
          · show dget (dinsert (dinsert s.contentIdx pid (.pageDoc D)) fid
              (.fileDocs [D])) e.2.page_id = some (.pageDoc e.1)
            rw [dget_dinsert, if_neg (hold_pid_ne_fid e hold),
              dget_dinsert, if_neg (hold_pid_ne e hold)]
            exact hf.1
          · obtain ⟨ds, h1, h2⟩ := hf.2
            refine ⟨ds, ?_, h2⟩
            show dget (dinsert (dinsert s.contentIdx pid (.pageDoc D)) fid
              (.fileDocs [D])) e.2.file_id = some (.fileDocs ds)
            rw [dget_dinsert, if_neg (hold_fid_ne e hold),
              dget_dinsert, if_neg (hold_fid_ne_pid e hold)]
            exact h1
        · have he' : e = (D, row) := by simpa using hnew
          subst he'
          constructor
          · show dget (dinsert (dinsert s.contentIdx pid (.pageDoc D)) fid
              (.fileDocs [D])) row.page_id = some (.pageDoc D)
            have : row.page_id = pid := rfl
            rw [this, dget_dinsert, if_neg hpf, dget_dinsert, if_pos rfl]
          · refine ⟨[D], ?_, by simp⟩
            show dget (dinsert (dinsert s.contentIdx pid (.pageDoc D)) fid
              (.fileDocs [D])) row.file_id = some (.fileDocs [D])
            have : row.file_id = fid := rfl
            rw [this, dget_dinsert, if_pos rfl]
      · intro kv hkv
        have hkv' : kv ∈ dinsert (dinsert s.contentIdx pid (.pageDoc D)) fid
            (.fileDocs [D]) := hkv
        rcases mem_dinsert.mp hkv' with hnew | ⟨hin, hne1⟩
        · subst hnew
          constructor
          · intro dd hdd
            exact absurd hdd (by simp)
          · intro ds hds
            have hds' : ds = [D] := by
              have : CIdxVal.fileDocs [D] = CIdxVal.fileDocs ds := hds
              injection this.symm
            subst hds'
            refine ⟨by simp, ?_⟩
            intro dd hdd
            have : dd = D := by simpa using hdd
            subst this
            exact ⟨(D, row), hmemD, rfl, rfl⟩
        · rcases mem_dinsert.mp hin with hnew2 | ⟨hin2, hne2⟩
          · subst hnew2
            constructor
            · intro dd hdd
              have : dd = D := by
                have : CIdxVal.pageDoc D = CIdxVal.pageDoc dd := hdd
                injection this.symm
              subst this
              exact ⟨(D, row), hmemD, rfl, rfl⟩
            · intro ds hds
              exact absurd hds (by simp)
          · have hf := hC.2.2.2 kv hin2
            constructor
            · intro dd hdd
              obtain ⟨e, he, he1, he2⟩ := hf.1 dd hdd
              exact ⟨e, List.mem_append.mpr (Or.inl he), he1, he2⟩
            · intro ds hds
              obtain ⟨hne, hmems⟩ := hf.2 ds hds
              refine ⟨hne, ?_⟩
              intro dd hdd
              obtain ⟨e, he, he1, he2⟩ := hmems dd hdd
              exact ⟨e, List.mem_append.mpr (Or.inl he), he1, he2⟩
    · refine ⟨hW.1, hnodupC, hW.2.2.1, ?_, ?_, hnz, hW.2.2.2.2.2.2⟩
      · exact nodup_keys_dinsert _ _ _ (nodup_keys_dinsert _ _ _ hW.2.2.2.1)
      · intro kv hkv ds hds
        have hkv' : kv ∈ dinsert (dinsert s.contentIdx pid (.pageDoc D)) fid
            (.fileDocs [D]) := hkv
        rcases mem_dinsert.mp hkv' with hnew | ⟨hin, _⟩
        · subst hnew
          have hds' : ds = [D] := by
            have : CIdxVal.fileDocs [D] = CIdxVal.fileDocs ds := hds
            injection this.symm
          subst hds'
          simp
        · rcases mem_dinsert.mp hin with hnew2 | ⟨hin2, _⟩
          · subst hnew2
            exact absurd hds (by simp)
          · exact hW.2.2.2.2.1 kv hin2 ds hds
  | some v =>
    cases v with
    | pageDoc dd => exact absurd hdf (hty dd)
    | fileDocs ds0 =>
      have hentry : (fid, CIdxVal.fileDocs ds0) ∈ s.contentIdx := mem_of_dget_eq_some hdf
      have hds0 := hC.2.2.2 (fid, .fileDocs ds0) hentry
      have hds0mem : ∀ dd ∈ ds0, ∃ e ∈ s.contents, e.1 = dd ∧ fid = e.2.file_id :=
        (hds0.2 ds0 rfl).2
      have hold_pid_ne_fid : ∀ e ∈ s.contents, e.2.page_id ≠ fid := by
        intro e he hc
        have h1 := (hC.2.2.1 e he).1
        rw [hc, hdf] at h1
        exact absurd (Option.some.inj h1) (by simp)
      constructor
      · refine ⟨hC.1, hC.2.1, ?_, ?_⟩
        · intro e he
          rcases List.mem_append.mp he with hold | hnew
          · have hf := hC.2.2.1 e hold
            constructor
            · show dget (dinsert (dinsert s.contentIdx pid (.pageDoc D)) fid
                (.fileDocs (ds0.insert D))) e.2.page_id = some (.pageDoc e.1)
              rw [dget_dinsert, if_neg (hold_pid_ne_fid e hold),
                dget_dinsert, if_neg (hold_pid_ne e hold)]
              exact hf.1
            · obtain ⟨ds, h1, h2⟩ := hf.2
              by_cases hfe : e.2.file_id = fid
              · have hds_eq : ds = ds0 := by
                  rw [hfe, hdf] at h1
                  have hinj := Option.some.inj h1
                  injection hinj with hh
                  exact hh.symm
                refine ⟨ds0.insert D, ?_, ?_⟩
                · show dget (dinsert (dinsert s.contentIdx pid (.pageDoc D)) fid
                    (.fileDocs (ds0.insert D))) e.2.file_id = some (.fileDocs (ds0.insert D))
                  rw [hfe, dget_dinsert, if_pos rfl]
                · rw [List.mem_insert_iff]
                  exact Or.inr (hds_eq ▸ h2)
              · refine ⟨ds, ?_, h2⟩
                show dget (dinsert (dinsert s.contentIdx pid (.pageDoc D)) fid
                  (.fileDocs (ds0.insert D))) e.2.file_id = some (.fileDocs ds)
                rw [dget_dinsert, if_neg hfe, dget_dinsert,
                  if_neg (hold_fid_ne_pid e hold)]
                exact h1
          · have he' : e = (D, row) := by simpa using hnew
            subst he'
            constructor
            · show dget (dinsert (dinsert s.contentIdx pid (.pageDoc D)) fid
                (.fileDocs (ds0.insert D))) row.page_id = some (.pageDoc D)
              have : row.page_id = pid := rfl
              rw [this, dget_dinsert, if_neg hpf, dget_dinsert, if_pos rfl]
            · refine ⟨ds0.insert D, ?_, by simp [List.mem_insert_iff]⟩
              show dget (dinsert (dinsert s.contentIdx pid (.pageDoc D)) fid
                (.fileDocs (ds0.insert D))) row.file_id = some (.fileDocs (ds0.insert D))
              have : row.file_id = fid := rfl
              rw [this, dget_dinsert, if_pos rfl]
        · intro kv hkv
          have hkv' : kv ∈ dinsert (dinsert s.contentIdx pid (.pageDoc D)) fid
              (.fileDocs (ds0.insert D)) := hkv
          rcases mem_dinsert.mp hkv' with hnew | ⟨hin, hne1⟩
          · subst hnew
            constructor
            · intro dd hdd
              exact absurd hdd (by simp)
            · intro ds hds
              have hds' : ds = ds0.insert D := by
                have : CIdxVal.fileDocs (ds0.insert D) = CIdxVal.fileDocs ds := hds
                injection this.symm
              subst hds'
              constructor
              · intro hc
                have : D ∈ ds0.insert D := by simp [List.mem_insert_iff]
                rw [hc] at this
                exact absurd this (by simp)
              · intro dd hdd
                rcases List.mem_insert_iff.mp hdd with h | h
                · subst h
                  exact ⟨(D, row), hmemD, rfl, rfl⟩
                · obtain ⟨e, he, he1, he2⟩ := hds0mem dd h
                  exact ⟨e, List.mem_append.mpr (Or.inl he), he1, he2⟩
          · rcases mem_dinsert.mp hin with hnew2 | ⟨hin2, hne2⟩
            · subst hnew2
              constructor
              · intro dd hdd
                have : dd = D := by
                  have : CIdxVal.pageDoc D = CIdxVal.pageDoc dd := hdd
                  injection this.symm
                subst this
                exact ⟨(D, row), hmemD, rfl, rfl⟩
              · intro ds hds
                exact absurd hds (by simp)
            · have hf := hC.2.2.2 kv hin2
              constructor
              · intro dd hdd
                obtain ⟨e, he, he1, he2⟩ := hf.1 dd hdd
                exact ⟨e, List.mem_append.mpr (Or.inl he), he1, he2⟩
              · intro ds hds
                obtain ⟨hne, hmems⟩ := hf.2 ds hds
                refine ⟨hne, ?_⟩
                intro dd hdd
                obtain ⟨e, he, he1, he2⟩ := hmems dd hdd
                exact ⟨e, List.mem_append.mpr (Or.inl he), he1, he2⟩
      · refine ⟨hW.1, hnodupC, hW.2.2.1, ?_, ?_, hnz, hW.2.2.2.2.2.2⟩
        · exact nodup_keys_dinsert _ _ _ (nodup_keys_dinsert _ _ _ hW.2.2.2.1)
        · intro kv hkv ds hds
          have hkv' : kv ∈ dinsert (dinsert s.contentIdx pid (.pageDoc D)) fid
              (.fileDocs (ds0.insert D)) := hkv
          rcases mem_dinsert.mp hkv' with hnew | ⟨hin, _⟩
          · subst hnew
            have hds' : ds = ds0.insert D := by
              have : CIdxVal.fileDocs (ds0.insert D) = CIdxVal.fileDocs ds := hds
              injection this.symm
            subst hds'
            exact List.Nodup.insert (hW.2.2.2.2.1 (fid, .fileDocs ds0) hentry ds0 rfl)
          · rcases mem_dinsert.mp hin with hnew2 | ⟨hin2, _⟩
            · subst hnew2
              exact absurd hds (by simp)
            · exact hW.2.2.2.2.1 kv hin2 ds hds

theorem dget_foldl_dpop_of_none {cts : List ContentRow} {ci : List (String × CIdxVal)}
    {k : String} (h : dget ci k = none) :
    dget (cts.foldl (fun ci c => dpop ci c.page_id) ci) k = none := by
  induction cts generalizing ci with
  | nil => exact h
  | cons c rest ih =>
    rw [List.foldl_cons]
    apply ih
    rw [dget_dpop]
    by_cases hk : k = c.page_id <;> simp [hk, h]

theorem dget_foldl_dpop_ne {cts : List ContentRow} {ci : List (String × CIdxVal)}
    {k : String} (h : ∀ c ∈ cts, c.page_id ≠ k) :
    dget (cts.foldl (fun ci c => dpop ci c.page_id) ci) k = dget ci k := by
  induction cts generalizing ci with
  | nil => rfl
  | cons c rest ih =>
    rw [List.foldl_cons, ih fun c' hc' => h c' (List.mem_cons_of_mem _ hc'),
      dget_dpop, if_neg fun hc => h c (List.mem_cons_self _ _) hc.symm]

theorem mem_foldl_dpop {cts : List ContentRow} {ci : List (String × CIdxVal)}
    {kv : String × CIdxVal} :
    kv ∈ cts.foldl (fun ci c => dpop ci c.page_id) ci ↔
      kv ∈ ci ∧ ∀ c ∈ cts, kv.1 ≠ c.page_id := by
  induction cts generalizing ci with
  | nil => simp
  | cons c rest ih =>
    rw [List.foldl_cons, ih, mem_dpop]
    constructor
    · rintro ⟨⟨h1, h2⟩, h3⟩
      refine ⟨h1, ?_⟩
      intro c' hc'
      rcases List.mem_cons.mp hc' with h | h
      · subst h; exact h2
      · exact h3 c' h
    · rintro ⟨h1, h2⟩
      exact ⟨⟨h1, h2 c (List.mem_cons_self _ _)⟩,
        fun c' hc' => h2 c' (List.mem_cons_of_mem _ hc')⟩

theorem nodup_keys_foldl_dpop {cts : List ContentRow} {ci : List (String × CIdxVal)}
    (h : (ci.map (·.1)).Nodup) :
    ((cts.foldl (fun ci c => dpop ci c.page_id) ci).map (·.1)).Nodup := by
  induction cts generalizing ci with
  | nil => exact h
  | cons c rest ih =>
    rw [List.foldl_cons]
    exact ih (nodup_keys_dpop _ _ h)

theorem deleteContent_preserves (np : String → String) {s : Store}
    (hC : Consistent np s) (hW : WFStore np s) (pid : String) :
    Consistent np (deleteContent s pid).1 ∧ WFStore np (deleteContent s pid).1 := by
  cases hg : getContentByPageId s pid with
  | none =>
    unfold deleteContent
    rw [hg]
    exact ⟨hC, hW⟩
  | some pr =>
    obtain ⟨d0, row⟩ := pr
    obtain ⟨hdg, htg⟩ := getContentByPageId_eq_some hg
    have hmem : (d0, row) ∈ s.contents := mem_of_tget_eq_some htg
    have hrpid : row.page_id = pid := by
      obtain ⟨e, he, he1, he2⟩ :=
        (hC.2.2.2 (pid, .pageDoc d0) (mem_of_dget_eq_some hdg)).1 d0 rfl
      have heq : e = (d0, row) := List.inj_on_of_nodup_map hW.2.1 he hmem he1
      rw [heq] at he2
      exact he2.symm
    have huniq : ∀ e ∈ s.contents, e.2.page_id = pid → e = (d0, row) := by
      intro e he hp
      exact page_id_inj hC hW e he (d0, row) hmem (by rw [hp, hrpid])
    have hcnt : ¬ (tremoveWhere s.contents (fun r => r.page_id == pid)).2 = 0 := by
      have hm : (d0, row) ∈ s.contents.filter fun e => e.2.page_id == pid :=
        List.mem_filter.mpr ⟨hmem, by simp [hrpid]⟩
      have := List.length_pos.mpr (List.ne_nil_of_mem hm)
      simp only [tremoveWhere]
      omega
    have hne0 : d0 ≠ 0 := hW.2.2.2.2.2.1 (d0, row) hmem
    have hfr : row.file_id ≠ pid := by
      intro hc
      exact page_id_ne_file_id hC (d0, row) hmem (d0, row) hmem (by rw [hrpid, hc])
    obtain ⟨ds, hgds, hd0ds⟩ := (hC.2.2.1 (d0, row) hmem).2
    have hfd : dget (dpop s.contentIdx pid) row.file_id = some (.fileDocs ds) := by
      rw [dget_dpop, if_neg hfr]
      exact hgds
    have hdsnodup : ds.Nodup :=
      hW.2.2.2.2.1 (row.file_id, .fileDocs ds) (mem_of_dget_eq_some hgds) ds rfl
    have hdsmem : ∀ dd ∈ ds, ∃ e ∈ s.contents, e.1 = dd ∧ row.file_id = e.2.file_id :=
      ((hC.2.2.2 _ (mem_of_dget_eq_some hgds)).2 ds rfl).2
    have hkeep : ∀ e, e ∈ (tremoveWhere s.contents (fun r => r.page_id == pid)).1 ↔
        e ∈ s.contents ∧ e ≠ (d0, row) := by
      intro e
      simp only [tremoveWhere, List.mem_filter, Bool.not_eq_eq_eq_not, Bool.not_true,
        beq_eq_false_iff_ne, ne_eq]
      constructor
      · rintro ⟨he, hne⟩
        exact ⟨he, fun hc => hne (by rw [hc, hrpid])⟩
      · rintro ⟨he, hne⟩
        exact ⟨he, fun hc => hne (huniq e he hc)⟩
    have hsurv_pid : ∀ e ∈ s.contents, e ≠ (d0, row) → e.2.page_id ≠ pid :=
      fun e he hne hc => hne (huniq e he hc)
    have hsurv_pid_fid : ∀ e ∈ s.contents, e.2.page_id ≠ row.file_id :=
      fun e he => page_id_ne_file_id hC e he (d0, row) hmem
    have hsurv_fid_pid : ∀ e ∈ s.contents, e.2.file_id ≠ pid := by
      intro e he hc
      exact page_id_ne_file_id hC (d0, row) hmem e he (by rw [hrpid, hc])
    simp only [deleteContent, hg, hdg, hfd]
    rw [if_neg hcnt, if_pos hne0]
    by_cases hde : (ds.erase d0).isEmpty = true
    · rw [if_pos hde]
      have hdse : ds.erase d0 = [] := by simpa using hde
      have hnofid : ∀ e ∈ s.contents, e ≠ (d0, row) → e.2.file_id ≠ row.file_id := by
        intro e he hne hc
        obtain ⟨ds2, hg2, hm2⟩ := (hC.2.2.1 e he).2
        rw [hc, hgds] at hg2
        have hds2 : ds2 = ds := by
          have hinj := Option.some.inj hg2
          injection hinj with hh
          exact hh.symm
        rw [hds2] at hm2
        have he1 : e.1 ≠ d0 := by
          intro hc1
          exact hne (List.inj_on_of_nodup_map hW.2.1 he hmem hc1)
        have : e.1 ∈ ds.erase d0 := (List.Nodup.mem_erase_iff hdsnodup).mpr ⟨he1, hm2⟩
        rw [hdse] at this
        exact absurd this (by simp)
      constructor
      · refine ⟨hC.1, hC.2.1, ?_, ?_⟩
        · intro e he'
          obtain ⟨he, hne⟩ := (hkeep e).mp he'
          have hf := hC.2.2.1 e he
          constructor
          · show dget (dpop (dpop s.contentIdx pid) row.file_id) e.2.page_id =
              some (.pageDoc e.1)
            rw [dget_dpop, if_neg (hsurv_pid_fid e he), dget_dpop,
              if_neg (hsurv_pid e he hne)]
            exact hf.1
          · obtain ⟨ds2, hg2, hm2⟩ := hf.2
            refine ⟨ds2, ?_, hm2⟩
            show dget (dpop (dpop s.contentIdx pid) row.file_id) e.2.file_id =
              some (.fileDocs ds2)
            rw [dget_dpop, if_neg (hnofid e he hne), dget_dpop,
              if_neg (hsurv_fid_pid e he)]
            exact hg2
        · intro kv hkv
          have hkv' : kv ∈ dpop (dpop s.contentIdx pid) row.file_id := hkv
          obtain ⟨hkv2, hne2⟩ := mem_dpop.mp hkv'
          obtain ⟨hkv3, hne3⟩ := mem_dpop.mp hkv2
          have hf := hC.2.2.2 kv hkv3
          constructor
          · intro dd hdd
            obtain ⟨e, he, he1, he2⟩ := hf.1 dd hdd
            have hne : e ≠ (d0, row) := by
              intro hc
              rw [hc] at he2
              exact hne3 (by rw [he2, hrpid])
            exact ⟨e, (hkeep e).mpr ⟨he, hne⟩, he1, he2⟩
          · intro ds2 hds2
            obtain ⟨hnn, hmems⟩ := hf.2 ds2 hds2
            refine ⟨hnn, ?_⟩
            intro dd hdd
            obtain ⟨e, he, he1, he2⟩ := hmems dd hdd
            have hne : e ≠ (d0, row) := by
              intro hc
              rw [hc] at he2
              exact hne2 he2
            exact ⟨e, (hkeep e).mpr ⟨he, hne⟩, he1, he2⟩
      · refine ⟨hW.1, ?_, hW.2.2.1, ?_, ?_, ?_, hW.2.2.2.2.2.2⟩
        · exact hW.2.1.sublist (List.Sublist.map _ (List.filter_sublist s.contents))
        · exact nodup_keys_dpop _ _ (nodup_keys_dpop _ _ hW.2.2.2.1)
        · intro kv hkv ds2 hds2
          have hkv' : kv ∈ dpop (dpop s.contentIdx pid) row.file_id := hkv
          exact hW.2.2.2.2.1 kv (mem_dpop.mp (mem_dpop.mp hkv').1).1 ds2 hds2
        · intro e he'
          exact hW.2.2.2.2.2.1 e ((hkeep e).mp he').1
    · rw [if_neg hde]
      have hdsne : ds.erase d0 ≠ [] := by
        intro hc
        rw [hc] at hde
        exact hde rfl
      constructor
      · refine ⟨hC.1, hC.2.1, ?_, ?_⟩
        · intro e he'
          obtain ⟨he, hne⟩ := (hkeep e).mp he'
          have hf := hC.2.2.1 e he
          constructor
          · show dget (dinsert (dpop s.contentIdx pid) row.file_id
              (.fileDocs (ds.erase d0))) e.2.page_id = some (.pageDoc e.1)
            rw [dget_dinsert, if_neg (hsurv_pid_fid e he), dget_dpop,
              if_neg (hsurv_pid e he hne)]
            exact hf.1
          · obtain ⟨ds2, hg2, hm2⟩ := hf.2
            by_cases hfe : e.2.file_id = row.file_id
            · have hds2 : ds2 = ds := by
                rw [hfe, hgds] at hg2
                have hinj := Option.some.inj hg2
                injection hinj with hh
                exact hh.symm
              rw [hds2] at hm2
              refine ⟨ds.erase d0, ?_, ?_⟩
              · show dget (dinsert (dpop s.contentIdx pid) row.file_id
                  (.fileDocs (ds.erase d0))) e.2.file_id = some (.fileDocs (ds.erase d0))
                rw [hfe, dget_dinsert, if_pos rfl]
              · have he1 : e.1 ≠ d0 := by
                  intro hc1
                  exact hne (List.inj_on_of_nodup_map hW.2.1 he hmem hc1)
                exact (List.Nodup.mem_erase_iff hdsnodup).mpr ⟨he1, hm2⟩
            · refine ⟨ds2, ?_, hm2⟩
              show dget (dinsert (dpop s.contentIdx pid) row.file_id
                (.fileDocs (ds.erase d0))) e.2.file_id = some (.fileDocs ds2)
              rw [dget_dinsert, if_neg hfe, dget_dpop, if_neg (hsurv_fid_pid e he)]
              exact hg2
        · intro kv hkv
          have hkv' : kv ∈ dinsert (dpop s.contentIdx pid) row.file_id
              (.fileDocs (ds.erase d0)) := hkv
          rcases mem_dinsert.mp hkv' with hnew | ⟨hin, hne1⟩
          · subst hnew
            constructor
            · intro dd hdd
              exact absurd hdd (by simp)
            · intro ds2 hds2
              have hds2' : ds2 = ds.erase d0 := by
                have : CIdxVal.fileDocs (ds.erase d0) = CIdxVal.fileDocs ds2 := hds2
                injection this.symm
              subst hds2'
              refine ⟨hdsne, ?_⟩
              intro dd hdd
              obtain ⟨hdne, hdmem⟩ := (List.Nodup.mem_erase_iff hdsnodup).mp hdd
              obtain ⟨e, he, he1, he2⟩ := hdsmem dd hdmem
              have hne : e ≠ (d0, row) := by
                intro hc
                rw [hc] at he1
                exact hdne he1.symm
              exact ⟨e, (hkeep e).mpr ⟨he, hne⟩, he1, he2⟩
          · obtain ⟨hin2, hne2⟩ := mem_dpop.mp hin
            have hf := hC.2.2.2 kv hin2
            constructor
            · intro dd hdd
              obtain ⟨e, he, he1, he2⟩ := hf.1 dd hdd
              have hne : e ≠ (d0, row) := by
                intro hc
                rw [hc] at he2
                exact hne2 (by rw [he2, hrpid])
              exact ⟨e, (hkeep e).mpr ⟨he, hne⟩, he1, he2⟩
            · intro ds2 hds2
              obtain ⟨hnn, hmems⟩ := hf.2 ds2 hds2
              refine ⟨hnn, ?_⟩
              intro dd hdd
              obtain ⟨e, he, he1, he2⟩ := hmems dd hdd
              have hne : e ≠ (d0, row) := by
                intro hc
                rw [hc] at he2
                exact hne1 he2
              exact ⟨e, (hkeep e).mpr ⟨he, hne⟩, he1, he2⟩
      · refine ⟨hW.1, ?_, hW.2.2.1, ?_, ?_, ?_, hW.2.2.2.2.2.2⟩
        · exact hW.2.1.sublist (List.Sublist.map _ (List.filter_sublist s.contents))
        · exact nodup_keys_dinsert _ _ _ (nodup_keys_dpop _ _ hW.2.2.2.1)
        · intro kv hkv ds2 hds2
          have hkv' : kv ∈ dinsert (dpop s.contentIdx pid) row.file_id
              (.fileDocs (ds.erase d0)) := hkv
          rcases mem_dinsert.mp hkv' with hnew | ⟨hin, _⟩
          · subst hnew
            have hds2' : ds2 = ds.erase d0 := by
              have : CIdxVal.fileDocs (ds.erase d0) = CIdxVal.fileDocs ds2 := hds2
              injection this.symm
            subst hds2'
            exact List.Nodup.erase _ hdsnodup
          · exact hW.2.2.2.2.1 kv (mem_dpop.mp hin).1 ds2 hds2
        · intro e he'
          exact hW.2.2.2.2.2.1 e ((hkeep e).mp he').1

theorem deleteContentsByFileId_preserves (np : String → String) {s : Store}
    (hC : Consistent np s) (hW : WFStore np s) (fid : String) :
    Consistent np (deleteContentsByFileId s fid).1 ∧
    WFStore np (deleteContentsByFileId s fid).1 := by
  have hnorow : ∀ v, dget s.contentIdx fid = v →
      (∀ ds, v ≠ some (.fileDocs ds)) → ∀ e ∈ s.contents, ¬ e.2.file_id = fid := by
    intro v hv hne e he hc
    obtain ⟨ds2, hg2, _⟩ := (hC.2.2.1 e he).2
    rw [hc, hv] at hg2
    exact hne ds2 hg2
  cases hdf : dget s.contentIdx fid with
  | none =>
    have hnone := hnorow none hdf (by simp)
    have hcnt : (s.contents.filter fun e => e.2.file_id == fid).length = 0 := by
      have : s.contents.filter (fun e => e.2.file_id == fid) = [] := by
        rw [List.filter_eq_nil_iff]
        intro e he
        simp [hnone e he]
      rw [this]
      rfl
    simp only [deleteContentsByFileId, getContentsByFileId, hdf, tremoveWhere]
    rw [if_pos hcnt]
    exact ⟨hC, hW⟩
  | some v =>
    cases v with
    | pageDoc dd =>
      have hnone := hnorow (some (.pageDoc dd)) hdf (by simp)
      have hcnt : (s.contents.filter fun e => e.2.file_id == fid).length = 0 := by
        have : s.contents.filter (fun e => e.2.file_id == fid) = [] := by
          rw [List.filter_eq_nil_iff]
          intro e he
          simp [hnone e he]
        rw [this]
        rfl
      simp only [deleteContentsByFileId, getContentsByFileId, hdf, tremoveWhere]
      rw [if_pos hcnt]
      exact ⟨hC, hW⟩
    | fileDocs ds =>
      have hentry : (fid, CIdxVal.fileDocs ds) ∈ s.contentIdx := mem_of_dget_eq_some hdf
      obtain ⟨hdsne, hdsmem⟩ := (hC.2.2.2 _ hentry).2 ds rfl
      have hdsE : ¬ ds.isEmpty = true := by
        cases ds with
        | nil => exact absurd rfl hdsne
        | cons a l => simp
      have hall : ∀ e ∈ s.contents, e.2.file_id = fid →
          e.1 ∈ ds ∧ e.2 ∈ ds.filterMap (tget s.contents) := by
        intro e he hc
        obtain ⟨ds2, hg2, hm2⟩ := (hC.2.2.1 e he).2
        rw [hc, hdf] at hg2
        have hds2 : ds2 = ds := by
          have hinj := Option.some.inj hg2
          injection hinj with hh
          exact hh.symm
        rw [hds2] at hm2
        refine ⟨hm2, ?_⟩
        exact List.mem_filterMap.mpr ⟨e.1, hm2, tget_eq_some_of_mem hW.2.1 he⟩
      have hcts : ∀ c ∈ ds.filterMap (tget s.contents),
          ∃ e ∈ s.contents, e.2 = c ∧ e.2.file_id = fid := by
        intro c hc
        obtain ⟨dd, hdd, htc⟩ := List.mem_filterMap.mp hc
        have hmemc : (dd, c) ∈ s.contents := mem_of_tget_eq_some htc
        obtain ⟨e, he, he1, he2⟩ := hdsmem dd hdd
        have : e = (dd, c) := List.inj_on_of_nodup_map hW.2.1 he hmemc he1
        rw [this] at he2
        exact ⟨(dd, c), hmemc, rfl, he2.symm⟩
      obtain ⟨dd0, hdd0⟩ := List.exists_mem_of_ne_nil ds hdsne
      obtain ⟨e0, he0, he01, he02⟩ := hdsmem dd0 hdd0
      have hcnt : ¬ (s.contents.filter fun e => e.2.file_id == fid).length = 0 := by
        have hm : e0 ∈ s.contents.filter fun e => e.2.file_id == fid :=
          List.mem_filter.mpr ⟨he0, by simp [he02.symm]⟩
        have := List.length_pos.mpr (List.ne_nil_of_mem hm)
        omega
      have hkeep : ∀ e, e ∈ (s.contents.filter fun e => !(e.2.file_id == fid)) ↔
          e ∈ s.contents ∧ e.2.file_id ≠ fid := by
        intro e
        simp [List.mem_filter]
      have hpfid : ∀ e ∈ s.contents, e.2.page_id ≠ fid := by
        intro e he hc
        refine page_id_ne_file_id hC e he e0 he0 ?_
        rw [hc]
        exact he02
      have hsurvA : ∀ e ∈ s.contents, e.2.file_id ≠ fid →
          ∀ c ∈ ds.filterMap (tget s.contents), c.page_id ≠ e.2.page_id := by
        intro e he hne c hc hcp
        obtain ⟨ec, hec, hec2, hecf⟩ := hcts c hc
        have : ec = e := by
          apply page_id_inj hC hW ec hec e he
          rw [hec2, hcp]
        rw [this] at hecf
        exact hne hecf
      have hsurvB : ∀ e ∈ s.contents,
          ∀ c ∈ ds.filterMap (tget s.contents), c.page_id ≠ e.2.file_id := by
        intro e he c hc hcp
        obtain ⟨ec, hec, hec2, _⟩ := hcts c hc
        exact page_id_ne_file_id hC ec hec e he (by rw [hec2, hcp])
      simp only [deleteContentsByFileId, getContentsByFileId, hdf, tremoveWhere]
      rw [if_neg hdsE, if_neg hcnt]
      constructor
      · refine ⟨hC.1, hC.2.1, ?_, ?_⟩
        · intro e he'
          obtain ⟨he, hne⟩ := (hkeep e).mp he'
          have hf := hC.2.2.1 e he
          constructor
          · show dget (dpop ((ds.filterMap (tget s.contents)).foldl
              (fun ci c => dpop ci c.page_id) s.contentIdx) fid) e.2.page_id =
              some (.pageDoc e.1)
            rw [dget_dpop, if_neg (hpfid e he),
              dget_foldl_dpop_ne (hsurvA e he hne)]
            exact hf.1
          · obtain ⟨ds2, hg2, hm2⟩ := hf.2
            refine ⟨ds2, ?_, hm2⟩
            show dget (dpop ((ds.filterMap (tget s.contents)).foldl
              (fun ci c => dpop ci c.page_id) s.contentIdx) fid) e.2.file_id =
              some (.fileDocs ds2)
            rw [dget_dpop, if_neg hne]
            rw [dget_foldl_dpop_ne]
            · exact hg2
            · intro c hc
              exact hsurvB e he c hc
        · intro kv hkv
          have hkv' : kv ∈ dpop ((ds.filterMap (tget s.contents)).foldl
              (fun ci c => dpop ci c.page_id) s.contentIdx) fid := hkv
          obtain ⟨hkv2, hnef⟩ := mem_dpop.mp hkv'
          obtain ⟨hkv3, hnp⟩ := mem_foldl_dpop.mp hkv2
          have hf := hC.2.2.2 kv hkv3
          constructor
          · intro dd hdd
            obtain ⟨e, he, he1, he2⟩ := hf.1 dd hdd
            have hne : e.2.file_id ≠ fid := by
              intro hc
              have := (hall e he hc).2
              exact hnp e.2 this (by rw [he2])
            exact ⟨e, (hkeep e).mpr ⟨he, hne⟩, he1, he2⟩
          · intro ds2 hds2
            obtain ⟨hnn, hmems⟩ := hf.2 ds2 hds2
            refine ⟨hnn, ?_⟩
            intro dd hdd
            obtain ⟨e, he, he1, he2⟩ := hmems dd hdd
            have hne : e.2.file_id ≠ fid := by
              intro hc
              rw [← he2] at hc
              exact hnef hc
            exact ⟨e, (hkeep e).mpr ⟨he, hne⟩, he1, he2⟩
      · refine ⟨hW.1, ?_, hW.2.2.1, ?_, ?_, ?_, hW.2.2.2.2.2.2⟩
        · exact hW.2.1.sublist (List.Sublist.map _ (List.filter_sublist s.contents))
        · exact nodup_keys_dpop _ _ (nodup_keys_foldl_dpop hW.2.2.2.1)
        · intro kv hkv ds2 hds2
          have hkv' : kv ∈ dpop ((ds.filterMap (tget s.contents)).foldl
              (fun ci c => dpop ci c.page_id) s.contentIdx) fid := hkv
          exact hW.2.2.2.2.1 kv (mem_foldl_dpop.mp (mem_dpop.mp hkv').1).1 ds2 hds2
        · intro e he'
          exact hW.2.2.2.2.2.1 e ((hkeep e).mp he').1

theorem createFile_preserves (np : String → String) (hnp : ∀ x, np (np x) = np x)
    {s : Store} (hC : Consistent np s) (hW : WFStore np s)
    (fid path name hash : String) (mtime : ℚ) (now : String)
    (optMsg source uploader language topic : String) (pub : Option PyDateTime)
    (hfresh : dget s.fileIdx fid = none) (hfp : fid ≠ np path) :
    Consistent np (createFile np s fid path name hash mtime now optMsg source
      uploader language topic pub).1 ∧
    WFStore np (createFile np s fid path name hash mtime now optMsg source
      uploader language topic pub).1 := by
  cases hget : getFileByPath np s (np path) with
  | some e =>
    simp only [createFile, hget]
    exact ⟨hC, hW⟩
  | none =>
    have hpath : dget s.fileIdx (np path) = none := by
      cases hd : dget s.fileIdx (np path) with
      | none => rfl
      | some d =>
        exfalso
        obtain ⟨e, he, he1, _⟩ := hC.2.1 (np path, d) (mem_of_dget_eq_some hd)
        have ht : tget s.files d = some e.2 := by
          have he1' : e.1 = d := he1
          rw [← he1']
          exact tget_eq_some_of_mem hW.1 he
        unfold getFileByPath at hget
        rw [hnp path, hd] at hget
        simp [ht] at hget
    simp only [createFile, hget]
    set D := nextId s.files with hD
    set row : FileRow :=
      ⟨fid, np path, name, hash, mtime, now, [], [], none, optMsg,
        source, uploader, language, topic, pub⟩ with hrow
    constructor
    · refine ⟨?_, ?_, ?_, ?_⟩
      · intro e he
        rcases List.mem_append.mp he with hold | hnew
        · have hf := hC.1 e hold
          have h1 : e.2.file_id ≠ np path := fun hc => by
            rw [hc] at hf; rw [hpath] at hf; exact absurd hf.1 (by simp)
          have h2 : e.2.file_id ≠ fid := fun hc => by
            rw [hc] at hf; rw [hfresh] at hf; exact absurd hf.1 (by simp)
          have h3 : np e.2.file_path ≠ np path := fun hc => by
            rw [hc] at hf; rw [hpath] at hf; exact absurd hf.2 (by simp)
          have h4 : np e.2.file_path ≠ fid := fun hc => by
            rw [hc] at hf; rw [hfresh] at hf; exact absurd hf.2 (by simp)
          constructor
          · rw [dget_dinsert, if_neg h1, dget_dinsert, if_neg h2]; exact hf.1
          · rw [dget_dinsert, if_neg h3, dget_dinsert, if_neg h4]; exact hf.2
        · have he' : e = (D, row) := by simpa using hnew
          subst he'
          constructor
          · simp only [hrow]
            rw [dget_dinsert, if_neg hfp, dget_dinsert, if_pos rfl]
          · simp only [hrow]
            rw [hnp path, dget_dinsert, if_pos rfl]
      · intro kv hkv
        rcases mem_dinsert.mp hkv with hnew | ⟨hin, hne1⟩
        · subst hnew
          refine ⟨(D, row), List.mem_append.mpr (Or.inr (by simp)), rfl, Or.inr ?_⟩
          simp only [hrow]
          rw [hnp path]
        · rcases mem_dinsert.mp hin with hnew2 | ⟨hin2, hne2⟩
          · subst hnew2
            exact ⟨(D, row), List.mem_append.mpr (Or.inr (by simp)), rfl, Or.inl rfl⟩
          · obtain ⟨e, he, he1, he2⟩ := hC.2.1 kv hin2
            exact ⟨e, List.mem_append.mpr (Or.inl he), he1, he2⟩
      · exact hC.2.2.1
      · exact hC.2.2.2
    · refine ⟨?_, hW.2.1, ?_, hW.2.2.2.1, hW.2.2.2.2.1, hW.2.2.2.2.2.1, ?_⟩
      · simp only [List.map_append]
        refine List.Nodup.append hW.1 (by simp) ?_
        intro a ha hb
        simp only [List.map_cons, List.map_nil, List.mem_singleton] at hb
        subst hb
        obtain ⟨e, he, hek⟩ := List.mem_map.mp ha
        exact nextId_not_mem s.files e he hek
      · exact nodup_keys_dinsert _ _ _ (nodup_keys_dinsert _ _ _ hW.2.2.1)
      · intro e he
        rcases List.mem_append.mp he with hold | hnew
        · exact hW.2.2.2.2.2.2 e hold
        · have he' : e = (D, row) := by simpa using hnew
          subst he'
          simp only [hrow]
          rw [hnp path]
          exact hfp


/-! ### The claim-C1 operation language and its verdict -/

/-- A store mutation of claim C1, with the generated `uuid4` identifiers made
explicit inputs. -/
inductive StoreOp
  | opCreateFile (fid path name hash : String) (mtime : ℚ) (now : String)
      (optMsg source uploader language topic : String) (pub : Option PyDateTime)
  | opUpdateFile (fid : String) (u : FileUpdates)
  | opDeleteFile (fid : String)
  | opCreateContent (pid fid : String) (pnum : Int)
      (content title prop abstract : String) (kws : List String) (ca ua : String)
  | opDeleteContent (pid : String)
  | opDeleteContentsByFile (fid : String)

def applyOp (np : String → String) (s : Store) : StoreOp → Store
  | .opCreateFile fid path name hash mtime now optMsg source uploader language topic pub =>
    (createFile np s fid path name hash mtime now optMsg source uploader language topic pub).1
  | .opUpdateFile fid u => (updateFile np s fid u).1
  | .opDeleteFile fid => (deleteFile np s fid).1
  | .opCreateContent pid fid pnum c t pr ab kws ca ua =>
    (createContent s pid fid pnum c t pr ab kws ca ua).1
  | .opDeleteContent pid => (deleteContent s pid).1
  | .opDeleteContentsByFile fid => (deleteContentsByFileId s fid).1

def applyOps (np : String → String) (s : Store) : List StoreOp → Store
  | [] => s
  | op :: rest => applyOps np (applyOp np s op) rest

/-- Executable side conditions under which the amended claim holds: generated
ids are fresh, and `update_file` is called with an actual file id, never sets
a falsy (empty) path — the truthiness guard would skip the index sync — and
never moves a file onto another live file's normalized path. -/
def opOkB (np : String → String) (s : Store) : StoreOp → Bool
  | .opCreateFile fid path _ _ _ _ _ _ _ _ _ _ =>
    (dget s.fileIdx fid).isNone && (fid != np path)
  | .opUpdateFile fid u =>
    match getFileById s fid with
    | some (_, row) =>
      (row.file_id == fid) &&
        (match u.file_path with
         | some p =>
           (p != "") && ((np p == np row.file_path) || (dget s.fileIdx (np p)).isNone)
         | none => true)
    | none => true
  | .opDeleteFile _ => true
  | .opCreateContent pid fid _ _ _ _ _ _ _ _ =>
    (dget s.contentIdx pid).isNone && (pid != fid) &&
      (match dget s.contentIdx fid with
       | some (.pageDoc _) => false
       | _ => true)
  | .opDeleteContent _ => true
  | .opDeleteContentsByFile _ => true

def opsOkB (np : String → String) (s : Store) : List StoreOp → Bool
  | [] => true
  | op :: rest => opOkB np s op && opsOkB np (applyOp np s op) rest

/-- Reachability of a content row through its owning-file doc set, as an
executable check (equivalent to the existential in `ContentsInv`). -/
def cInvB (s : Store) (e : Nat × ContentRow) : Bool :=
  match dget s.contentIdx e.2.file_id with
  | some (.fileDocs ds) => decide (e.1 ∈ ds)
  | _ => false

theorem cInvB_iff (s : Store) (e : Nat × ContentRow) :
    (∃ ds, dget s.contentIdx e.2.file_id = some (.fileDocs ds) ∧ e.1 ∈ ds) ↔
      cInvB s e = true := by
  unfold cInvB
  cases hv : dget s.contentIdx e.2.file_id with
  | none => simp
  | some v =>
    cases v with
    | pageDoc d => simp
    | fileDocs ds => simp

/-- The per-entry content-index invariant, as an executable check. -/
def civB (s : Store) (kv : String × CIdxVal) : Bool :=
  match kv.2 with
  | .pageDoc d => decide (∃ e ∈ s.contents, e.1 = d ∧ kv.1 = e.2.page_id)
  | .fileDocs ds =>
    decide (ds ≠ []) &&
      decide (∀ d ∈ ds, ∃ e ∈ s.contents, e.1 = d ∧ kv.1 = e.2.file_id)

theorem civB_iff (s : Store) (kv : String × CIdxVal) :
    ((∀ d, kv.2 = .pageDoc d → ∃ e ∈ s.contents, e.1 = d ∧ kv.1 = e.2.page_id) ∧
     (∀ ds, kv.2 = .fileDocs ds →
        ds ≠ [] ∧ ∀ d ∈ ds, ∃ e ∈ s.contents, e.1 = d ∧ kv.1 = e.2.file_id)) ↔
      civB s kv = true := by
  unfold civB
  rcases kv with ⟨k, v⟩
  cases v with
  | pageDoc d => simp
  | fileDocs ds => simp

/-- Nodup of a doc-id-set value, as an executable check. -/
def wfValB (kv : String × CIdxVal) : Bool :=
  match kv.2 with
  | .fileDocs ds => decide ds.Nodup
  | .pageDoc _ => true

theorem wfValB_iff (kv : String × CIdxVal) :
    (∀ ds, kv.2 = CIdxVal.fileDocs ds → ds.Nodup) ↔ wfValB kv = true := by
  unfold wfValB
  rcases kv with ⟨k, v⟩
  cases v with
  | pageDoc d => simp
  | fileDocs ds => simp

instance decFilesInv (np : String → String) (s : Store) : Decidable (FilesInv np s) :=
  decidable_of_iff
    (∀ e ∈ s.files, dget s.fileIdx e.2.file_id = some e.1 ∧
      dget s.fileIdx (np e.2.file_path) = some e.1) Iff.rfl

instance decFileIdxInv (np : String → String) (s : Store) : Decidable (FileIdxInv np s) :=
  decidable_of_iff
    (∀ kv ∈ s.fileIdx, ∃ e ∈ s.files, e.1 = kv.2 ∧
      (kv.1 = e.2.file_id ∨ kv.1 = np e.2.file_path)) Iff.rfl

instance decContentsInv (s : Store) : Decidable (ContentsInv s) := by
  refine decidable_of_iff
    (∀ e ∈ s.contents, dget s.contentIdx e.2.page_id = some (.pageDoc e.1) ∧
      cInvB s e = true) ?_
  unfold ContentsInv
  refine forall₂_congr ?_
  intro e he
  exact and_congr Iff.rfl (cInvB_iff s e).symm

instance decContentIdxInv (s : Store) : Decidable (ContentIdxInv s) := by
  refine decidable_of_iff (∀ kv ∈ s.contentIdx, civB s kv = true) ?_
  unfold ContentIdxInv
  refine forall₂_congr ?_
  intro kv hkv
  exact (civB_iff s kv).symm

instance decConsistent (np : String → String) (s : Store) : Decidable (Consistent np s) :=
  decidable_of_iff (FilesInv np s ∧ FileIdxInv np s ∧ ContentsInv s ∧ ContentIdxInv s)
    Iff.rfl

instance decWFStore (np : String → String) (s : Store) : Decidable (WFStore np s) := by
  refine decidable_of_iff
    ((s.files.map (·.1)).Nodup ∧ (s.contents.map (·.1)).Nodup ∧
      (s.fileIdx.map (·.1)).Nodup ∧ (s.contentIdx.map (·.1)).Nodup ∧
      (∀ kv ∈ s.contentIdx, wfValB kv = true) ∧
      (∀ e ∈ s.contents, e.1 ≠ 0) ∧
      (∀ e ∈ s.files, e.2.file_id ≠ np e.2.file_path)) ?_
  unfold WFStore
  refine and_congr Iff.rfl (and_congr Iff.rfl (and_congr Iff.rfl
    (and_congr Iff.rfl (and_congr ?_ Iff.rfl))))
  refine forall₂_congr ?_
  intro kv hkv
  exact (wfValB_iff kv).symm

theorem step_preserves (np : String → String) (hnp : ∀ x, np (np x) = np x)
    {s : Store} (hC : Consistent np s) (hW : WFStore np s) (op : StoreOp)
    (hok : opOkB np s op = true) :
    Consistent np (applyOp np s op) ∧ WFStore np (applyOp np s op) := by
  cases op with
  | opCreateFile fid path name hash mtime now optMsg source uploader language topic pub =>
    simp only [opOkB, Bool.and_eq_true, Option.isNone_iff_eq_none, bne_iff_ne, ne_eq] at hok
    exact createFile_preserves np hnp hC hW fid path name hash mtime now optMsg
      source uploader language topic pub hok.1 hok.2
  | opUpdateFile fid u =>
    apply updateFile_preserves np hC hW fid u
    intro d row hgid
    simp only [opOkB] at hok
    rw [hgid] at hok
    simp only [Bool.and_eq_true, beq_iff_eq] at hok
    refine ⟨hok.1, ?_⟩
    intro p hp
    have h2 := hok.2
    rw [hp] at h2
    simp only [Bool.and_eq_true, bne_iff_ne, ne_eq, Bool.or_eq_true, beq_iff_eq,
      Option.isNone_iff_eq_none] at h2
    exact h2
  | opDeleteFile fid => exact deleteFile_preserves np hC hW fid
  | opCreateContent pid fid pnum c t pr ab kws ca ua =>
    simp only [opOkB, Bool.and_eq_true, Option.isNone_iff_eq_none, bne_iff_ne, ne_eq] at hok
    refine createContent_preserves np hC hW pid fid pnum c t pr ab kws ca ua
      hok.1.1 hok.1.2 ?_
    intro dd hdd
    rw [hdd] at hok
    exact Bool.false_ne_true hok.2
  | opDeleteContent pid => exact deleteContent_preserves np hC hW pid
  | opDeleteContentsByFile fid => exact deleteContentsByFileId_preserves np hC hW fid

theorem applyOps_preserves (np : String → String) (hnp : ∀ x, np (np x) = np x)
    (ops : List StoreOp) :
    ∀ s : Store, Consistent np s → WFStore np s → opsOkB np s ops = true →
      Consistent np (applyOps np s ops) ∧ WFStore np (applyOps np s ops) := by
  induction ops with
  | nil =>
    intro s hC hW _
    exact ⟨hC, hW⟩
  | cons op rest ih =>
    intro s hC hW hok
    simp only [opsOkB, Bool.and_eq_true] at hok
    obtain ⟨hC', hW'⟩ := step_preserves np hnp hC hW op hok.1
    exact ih (applyOp np s op) hC' hW' hok.2

/-- The mutation sequence refuting C1 as stated: two files are created, then
`update_file` moves the second onto the first file's path.  The first file's
path key then points at the second file's doc id. -/
def c1CounterOps : List StoreOp :=
  [ .opCreateFile "f1" "p1" "n1" "h1" 0 "t0" "initial" "" "" "zh" "" none,
    .opCreateFile "f2" "p2" "n2" "h2" 0 "t0" "initial" "" "" "zh" "" none,
    .opUpdateFile "f2" { file_path := some "p1" } ]

/-- A create followed by an `update_file` that sets the path to `""`. -/
def c1EmptyPathOps : List StoreOp :=
  [ .opCreateFile "f1" "p1" "n1" "h1" 0 "t0" "initial" "" "" "zh" "" none,
    .opUpdateFile "f1" { file_path := some "" } ]

/-- C1, counterexample: starting from the empty (trivially consistent and
well-formed) store, the three mutations of `c1CounterOps` — all drawn from the
claim's operation set — leave the secondary index inconsistent with the
`files` table: file `f1` is a live row no longer reachable under its
normalized path. -/
theorem c1_secondary_index_counterexample :
    Consistent id emptyStore ∧ WFStore id emptyStore ∧
    ¬ Consistent id (applyOps id emptyStore c1CounterOps) := by
  refine ⟨consistent_emptyStore id, wfStore_emptyStore id, ?_⟩
  decide

/-- A second reachable breakage, from the truthiness guard: updating a file's
path to the empty string writes the row but skips the index sync entirely
(the index is unchanged), leaving the live row unreachable under its
normalized path; `opOkB` therefore excludes falsy path updates. -/
theorem updateFile_empty_path_skips_sync :
    (applyOps id emptyStore c1EmptyPathOps).fileIdx =
      (applyOp id emptyStore
        (.opCreateFile "f1" "p1" "n1" "h1" 0 "t0" "initial" "" "" "zh" "" none)).fileIdx ∧
    ¬ Consistent id (applyOps id emptyStore c1EmptyPathOps) ∧
    opsOkB id emptyStore c1EmptyPathOps = false := by
  decide

/-- C1, amended: for every mutation sequence through the store operations in
which created ids are fresh keys and `update_file` is called with a real file
id, never sets an empty (falsy) path — there the code skips the index sync —
and never moves a file onto another live file's normalized path, the
secondary index stays consistent with the tables: every live file row is
reachable under its file id and normalized path, every live content row is
reachable under its page id and owning file id, and no index entry refers to
a deleted row. -/
theorem c1_secondary_index_consistent (np : String → String)
    (hnp : ∀ x, np (np x) = np x) (ops : List StoreOp) (s : Store)
    (hC : Consistent np s) (hW : WFStore np s) (hok : opsOkB np s ops = true) :
    Consistent np (applyOps np s ops) :=
  (applyOps_preserves np hnp ops s hC hW hok).1

def c1GoodOps : List StoreOp :=
  [ .opCreateFile "f1" "p1" "n1" "h1" 0 "t0" "initial" "" "" "zh" "" none,
    .opCreateContent "pg1" "f1" 1 "body" "" "main" "abs" ["k"] "t1" "t1",
    .opUpdateFile "f1" { file_path := some "p9" },
    .opDeleteContent "pg1",
    .opDeleteFile "f1" ]

/-- Witness for the amended C1 at a concrete five-mutation sequence. -/
theorem c1_secondary_index_consistent_witness :
    (∀ x : String, id (id x) = id x) ∧ Consistent id emptyStore ∧ WFStore id emptyStore ∧
    opsOkB id emptyStore c1GoodOps = true ∧
    Consistent id (applyOps id emptyStore c1GoodOps) := by
  refine ⟨fun x => rfl, consistent_emptyStore id, wfStore_emptyStore id, by decide, ?_⟩
  exact c1_secondary_index_consistent id (fun x => rfl) c1GoodOps emptyStore
    (consistent_emptyStore id) (wfStore_emptyStore id) (by decide)


/-! ## `recognizer.py`: `IMGRecognizer._update_models` (claim C9)

The structured fields parsed from the model response; a failed parse (`{}`)
is the record of empty defaults, matching `ai_data.get(key, default)`. -/

structure AiData where
  property : String := ""
  title : String := ""
  abstract : String := ""
  content : String := ""
  keywords : List String := []
deriving DecidableEq, Repr, Inhabited

/-- The non-empty-abstract projection used for the aggregate description
(Python truthiness of `p.get("abstract")`). -/
def nonemptyAbstract (p : PageRec) : Option String :=
  match p.abstract with
  | some a => if a ≠ "" then some a else none
  | none => none

/-- The in-place `p.update({...})` on the matched page dict. -/
def applyAiToPage (now : String) (ai : AiData) (p : PageRec) : PageRec :=
  { p with
      is_aigc := true
      processed_at := now
      property := ai.property
      title := ai.title
      abstract := some ai.abstract
      keywords := ai.keywords }

/-- `IMGRecognizer._update_models`, the File-side updates: mark the page,
write its fields, then recompute the aggregate keyword set and description
from the just-updated record.  `list(set(...))` has unspecified order, so the
de-duplicated keyword list is modelled by `dedup`; its membership agrees with
the Python set. -/
def updateModels (f : FileRow) (pn : Int) (now : String) (ai : AiData) :
    Except String FileRow :=
  let updated := f.pages.map fun p =>
    if p.page_number = pn then applyAiToPage now ai p else p
  if f.pages.any (fun p => p.page_number == pn) then
    let f1 := { f with pages := updated }
    let allKeywords := ((f1.pages.map fun p => p.keywords).join).filter fun kw => kw != ""
    let uniqueKeywords := allKeywords.dedup
    let sortedPages := f1.pages.mergeSort fun a b => decide (a.page_number ≤ b.page_number)
    let abstracts := sortedPages.filterMap nonemptyAbstract
    .ok { f1 with
      tags := uniqueKeywords
      file_desc := some (String.intercalate "\n" abstracts) }
  else .error "Page not found in file"

def c9File : FileRow :=
  ⟨"f1", "p1", "n1", "h1", 0, "t0",
    [⟨1, "img1", none, [], false, "t0", "", ""⟩], [], none, "completed",
    "", "", "zh", "", none⟩

def c9Ai : AiData := { keywords := [""] }

def c9Out : FileRow := ((updateModels c9File 1 "t1" c9Ai).toOption).getD default

/-- C9, counterexample: a page whose parsed keyword list is `[""]`.  After
`_update_models`, the empty-string keyword is in a page's keyword set but not
in the recomputed `tags`, because the aggregation drops falsy keywords
(`if kw`); so `tags` is not the de-duplicated union of the pages' keyword
sets. -/
theorem c9_aggregate_counterexample :
    updateModels c9File 1 "t1" c9Ai = .ok c9Out ∧
    ¬ (∀ kw, kw ∈ c9Out.tags ↔ ∃ p ∈ c9Out.pages, kw ∈ p.keywords) := by
  refine ⟨rfl, fun h => ?_⟩
  have h2 := (h "").mpr (by decide)
  exact absurd h2 (by decide)

/-- C9, amended: after `_update_models` persists a page's annotation result,
the File's `tags` equal (as a set) the de-duplicated union of the *non-empty*
keywords of all its pages, and `file_desc` is the newline-join of the
non-empty page abstracts of an ascending-page-number arrangement of the
pages, both recomputed from the just-updated record. -/
theorem c9_aggregates_from_updated_record (f : FileRow) (pn : Int) (now : String)
    (ai : AiData) (f' : FileRow) (hres : updateModels f pn now ai = .ok f') :
    (∀ kw, kw ∈ f'.tags ↔ (kw ≠ "" ∧ ∃ p ∈ f'.pages, kw ∈ p.keywords)) ∧
    (∃ l : List PageRec, l.Perm f'.pages ∧
      l.Sorted (fun a b => a.page_number ≤ b.page_number) ∧
      f'.file_desc = some (String.intercalate "\n" (l.filterMap nonemptyAbstract))) := by
  unfold updateModels at hres
  by_cases hfound : f.pages.any (fun p => p.page_number == pn) = true
  · rw [if_pos hfound] at hres
    simp only [Except.ok.injEq] at hres
    subst hres
    constructor
    · intro kw
      simp only [List.mem_dedup, List.mem_filter, List.mem_join, List.mem_map,
        bne_iff_ne, ne_eq]
      constructor
      · rintro ⟨⟨ks, ⟨p, hp, hks⟩, hkw⟩, hne⟩
        exact ⟨hne, p, hp, hks ▸ hkw⟩
      · rintro ⟨hne, p, hp, hkw⟩
        exact ⟨⟨p.keywords, ⟨p, hp, rfl⟩, hkw⟩, hne⟩
    · refine ⟨(f.pages.map fun p =>
        if p.page_number = pn then applyAiToPage now ai p
        else p).mergeSort (fun a b => decide (a.page_number ≤ b.page_number)),
        List.mergeSort_perm _ _, ?_, rfl⟩
      have hs := @List.sorted_mergeSort PageRec
        (fun a b : PageRec => decide (a.page_number ≤ b.page_number))
        (fun a b c hab hbc => by
          simp only [decide_eq_true_eq] at hab hbc ⊢
          omega)
        (fun a b => by
          simp only [Bool.or_eq_true, decide_eq_true_eq]
          omega)
        (f.pages.map fun p =>
          if p.page_number = pn then applyAiToPage now ai p else p)
      refine hs.imp ?_
      intro a b hab
      simpa using hab
  · rw [if_neg hfound] at hres
    exact absurd hres (by simp)

/-- Witness for the amended C9 at a concrete two-page file. -/
theorem c9_aggregates_witness :
    updateModels c9File 1 "t1" { keywords := ["K", "K"], abstract := "Sum" } =
      .ok (((updateModels c9File 1 "t1"
        { keywords := ["K", "K"], abstract := "Sum" }).toOption).getD default) ∧
    ((∀ kw, kw ∈ (((updateModels c9File 1 "t1"
        { keywords := ["K", "K"], abstract := "Sum" }).toOption).getD default).tags ↔
      (kw ≠ "" ∧ ∃ p ∈ (((updateModels c9File 1 "t1"
        { keywords := ["K", "K"], abstract := "Sum" }).toOption).getD default).pages,
        kw ∈ p.keywords)) ∧
    (∃ l : List PageRec, l.Perm (((updateModels c9File 1 "t1"
        { keywords := ["K", "K"], abstract := "Sum" }).toOption).getD default).pages ∧
      l.Sorted (fun a b => a.page_number ≤ b.page_number) ∧
      (((updateModels c9File 1 "t1"
        { keywords := ["K", "K"], abstract := "Sum" }).toOption).getD default).file_desc =
        some (String.intercalate "\n" (l.filterMap nonemptyAbstract)))) := by
  refine ⟨rfl, ?_⟩
  exact c9_aggregates_from_updated_record c9File 1 "t1"
    { keywords := ["K", "K"], abstract := "Sum" } _ rfl


/-! ## `agents.py`: the two retrievers (claims C3 and C10)

`_path2uri` depends on the serving filesystem and is abstracted as a
parameter `uriOf`; `max_results` (the page size) as `ps`. -/

/-- One result dict of `FileRetriever.run`.  `content` is `file_desc`, which
can be Python `None` on a never-annotated file. -/
structure FileHit where
  file_name : String
  topic : String
  content : Option String
  published_by : String
  published_date : Option PyDateTime
  file_uri : Option String
  matched_keywords : List String
deriving DecidableEq, Repr

/-- One result dict of `ContentRetriever.run`. -/
structure ContentHit where
  file_name : String
  page_number : Int
  page_abstract : String
  page_content : String
  page_keywords : List String
  published_by : String
  published_date : Option PyDateTime
  file_uri : Option String
  matched_keywords : List String
deriving DecidableEq, Repr

/-- The return dict of both retrievers. -/
structure RunOut (α : Type) where
  results : List α
  current_page : Int
  total_pages : Nat
  total_matches : Nat
deriving DecidableEq, Repr

/-- The per-file filter chain of `FileRetriever.run`.  `Except` models the
`AttributeError` raised by `_match_text` on a `None` description (caught by
the surrounding handler, which turns the whole run into the generic empty
dict). -/
def fileRowHit (uriOf : String → Option String) (c : SearchCriteria) (f : FileRow) :
    Except Unit (Option FileHit) :=
  if f.opt_msg ≠ "processed" then .ok none
  else if (c.start_date.isSome || c.end_date.isSome) && !matchDate c f.published_date then
    .ok none
  else if c.publisher ≠ "" && !matchText f.source c.publisher then .ok none
  else if c.title ≠ "" && !matchText f.file_name c.title then .ok none
  else
    let kwRes : Option (List String) :=
      if c.keywords ≠ [] then
        let mk := matchKeywords f.tags c
        if !mk.1 then none else some mk.2
      else some []
    match kwRes with
    | none => .ok none
    | some mks =>
      match f.file_desc with
      | none =>
        if c.content ≠ "" then .error ()
        else .ok (some ⟨f.file_name, f.topic, none, f.source, f.published_date,
          uriOf f.file_path, mks⟩)
      | some desc =>
        if c.content ≠ "" && !matchText desc c.content then .ok none
        else .ok (some ⟨f.file_name, f.topic, some desc, f.source, f.published_date,
          uriOf f.file_path, mks⟩)

/-- The filtering loop of `FileRetriever.run`, stopping at the first raised
exception. -/
def fileScan (uriOf : String → Option String) (c : SearchCriteria) :
    List FileRow → Except Unit (List FileHit)
  | [] => .ok []
  | f :: rest =>
    match fileRowHit uriOf c f with
    | .error e => .error e
    | .ok none => fileScan uriOf c rest
    | .ok (some h) => (fileScan uriOf c rest).map (h :: ·)

/-- Descending sort key comparisons of both retrievers (`sorted` with
`reverse=True` is a stable descending sort). -/
def byMatchedDesc {α : Type} (mk : α → List String) (a b : α) : Bool :=
  decide ((mk b).length ≤ (mk a).length)

def byDateDesc {α : Type} (pd : α → Option PyDateTime) (a b : α) : Bool :=
  dtLe (parseDateOrMin (pd b)) (parseDateOrMin (pd a))

/-- The shared ranking step: by matched-keyword count when keywords were
searched, else by published date, both descending. -/
def sortHits {α : Type} (mk : α → List String) (pd : α → Option PyDateTime)
    (c : SearchCriteria) (rs : List α) : List α :=
  if c.keywords ≠ [] then rs.mergeSort (byMatchedDesc mk)
  else rs.mergeSort (byDateDesc pd)

/-- The shared pagination step: ceil-div total pages, the out-of-range guard,
and the result slice. -/
def paginate {α : Type} (l : List α) (ps : Nat) (idx : Int) : RunOut α :=
  let tm := l.length
  let tp := (tm + ps - 1) / ps
  if idx > (tp : Int) ∧ tm > 0 then ⟨[], idx, tp, tm⟩
  else ⟨(l.drop ((idx - 1).toNat * ps)).take ps, idx, tp, tm⟩

/-- `FileRetriever.run`. -/
def fileRun (uriOf : String → Option String) (ps : Nat) (files : List FileRow)
    (c : SearchCriteria) (idx : Int) : RunOut FileHit :=
  if idx < 1 then ⟨[], idx, 0, 0⟩
  else if files.isEmpty then ⟨[], idx, 0, 0⟩
  else
    match fileScan uriOf c files with
    | .error _ => ⟨[], idx, 0, 0⟩
    | .ok results =>
      paginate (sortHits (·.matched_keywords) (·.published_date) c results) ps idx

/-- The `file_info_map` dict comprehension (later duplicates overwrite). -/
def fileMap (files : List FileRow) (fid : String) : Option FileRow :=
  files.reverse.find? fun f => f.file_id == fid

/-- The per-content filter chain of `ContentRetriever.run`. -/
def contentRowHit (uriOf : String → Option String) (c : SearchCriteria)
    (lookup : String → Option FileRow) (ct : ContentRow) : Option ContentHit :=
  if ct.property ≠ "main" then none
  else
    match (if ct.file_id = "" then none else lookup ct.file_id) with
    | none => none
    | some fi =>
      if (c.start_date.isSome || c.end_date.isSome) && !matchDate c fi.published_date then
        none
      else if c.publisher ≠ "" && !matchText fi.source c.publisher then none
      else if c.title ≠ "" && !matchText fi.file_name c.title then none
      else
        let kwRes : Option (List String) :=
          if c.keywords ≠ [] then
            let mk := matchKeywords ct.keywords c
            if !mk.1 then none else some mk.2
          else some []
        match kwRes with
        | none => none
        | some mks =>
          if c.content ≠ "" && !matchText ct.content c.content then none
          else some ⟨fi.file_name, ct.page_number, ct.abstract, ct.content, ct.keywords,
            fi.source, fi.published_date, uriOf fi.file_path, mks⟩

/-- `ContentRetriever.run`. -/
def contentRun (uriOf : String → Option String) (ps : Nat) (contents : List ContentRow)
    (files : List FileRow) (c : SearchCriteria) (idx : Int) : RunOut ContentHit :=
  if idx < 1 then ⟨[], idx, 0, 0⟩
  else if contents.isEmpty then ⟨[], idx, 0, 0⟩
  else
    paginate (sortHits (·.matched_keywords) (·.published_date) c
      (contents.filterMap (contentRowHit uriOf c (fileMap files)))) ps idx

/-! ## `embedder.py`: `Embedder.retrieve` (claim C6)

The FAISS search output is the list of (position, similarity) pairs; the
embedding calls, index files, and store lookups are abstracted as
parameters. -/

/-- One hydrated hit of `Embedder.retrieve`. -/
structure VHit where
  page_number : Int
  page_title : String
  page_abstract : String
  page_content : String
  local_path : Option String
  download_url : Option String
  file_name : String
  published_by : String
  published_date : Option PyDateTime
  vector_similarity : ℚ
deriving DecidableEq, Repr

/-- The threshold filter of `Embedder.retrieve`: keep hits while they pass,
`break` at the first miss. -/
def thresholdLoop (pageIds : Int → String) (th : ℚ) :
    List (Int × ℚ) → List (String × ℚ)
  | [] => []
  | (i, sim) :: rest =>
    if sim ≥ th then (pageIds i, sim) :: thresholdLoop pageIds th rest else []

/-- The filtered candidate list of `Embedder.retrieve`: threshold filter then
truncation to `k`. -/
def vrFiltered (pageIds : Int → String) (searchOut : List (Int × ℚ)) (k : Nat)
    (th : ℚ) : List (String × ℚ) :=
  let filtered := thresholdLoop pageIds th searchOut
  if filtered.length > k then filtered.take k else filtered

/-- The hydration loop of `Embedder.retrieve`: look the surviving page ids up
in the store, join each content to its file, and attach the similarity from
the `page_id_to_item` dict (last writer wins). -/
def vrHydrate (lookupContent : String → Option ContentRow)
    (lookupFile : String → Option FileRow) (fullPathOf : String → Option String)
    (urlOf : String → String) (filtered : List (String × ℚ)) : List VHit :=
  let pids := filtered.map (·.1)
  let simOf := fun pid => (filtered.reverse.find? fun it => it.1 == pid).map (·.2)
  let cts := pids.filterMap lookupContent
  cts.filterMap fun ct =>
    match lookupFile ct.file_id with
    | none => none
    | some file =>
      some ⟨ct.page_number, ct.title, ct.abstract, ct.content,
        (if file.uploader ≠ "admin" then fullPathOf file.file_path else none),
        (if file.uploader = "admin" then some (urlOf file.file_path) else none),
        file.file_name, file.source, file.published_date,
        (simOf ct.page_id).getD 0⟩

/-- `Embedder.retrieve`: filter by threshold, truncate to `k`, then hydrate
each hit through the store. -/
def vectorRetrieve (lookupContent : String → Option ContentRow)
    (lookupFile : String → Option FileRow) (fullPathOf : String → Option String)
    (urlOf : String → String) (pageIds : Int → String)
    (searchOut : List (Int × ℚ)) (k : Nat) (th : ℚ) : List VHit :=
  let filtered := vrFiltered pageIds searchOut k th
  if filtered.isEmpty then []
  else vrHydrate lookupContent lookupFile fullPathOf urlOf filtered


/-! ### Pagination and gating lemmas (toward C3 and C10) -/

theorem paginate_current_page {α : Type} (l : List α) (ps : Nat) (idx : Int) :
    (paginate l ps idx).current_page = idx := by
  unfold paginate
  dsimp only
  split <;> rfl

theorem paginate_total_matches {α : Type} (l : List α) (ps : Nat) (idx : Int) :
    (paginate l ps idx).total_matches = l.length := by
  unfold paginate
  dsimp only
  split <;> rfl

theorem paginate_total_pages {α : Type} (l : List α) (ps : Nat) (idx : Int) :
    (paginate l ps idx).total_pages = (l.length + ps - 1) / ps := by
  unfold paginate
  dsimp only
  split <;> rfl

theorem paginate_nil {α : Type} (ps : Nat) (idx : Int) :
    paginate ([] : List α) ps idx = ⟨[], idx, 0, 0⟩ := by
  have htp : (ps - 1) / ps = 0 := by
    cases ps with
    | zero => simp
    | succ n => exact Nat.div_eq_of_lt (by omega)
  unfold paginate
  dsimp only
  rw [if_neg]
  · simp [htp]
  · rintro ⟨-, hlen⟩
    exact absurd hlen (by simp)

theorem paginate_mem {α : Type} {l : List α} {ps : Nat} {idx : Int} {h : α}
    (hm : h ∈ (paginate l ps idx).results) : h ∈ l := by
  unfold paginate at hm
  dsimp only at hm
  split at hm
  · exact absurd hm (List.not_mem_nil h)
  · exact List.mem_of_mem_drop (List.mem_of_mem_take hm)

theorem paginate_overflow {α : Type} {l : List α} {ps : Nat} {idx : Int}
    (hm : 0 < (paginate l ps idx).total_matches)
    (hgt : ((paginate l ps idx).total_pages : Int) < idx) :
    (paginate l ps idx).results = [] := by
  rw [paginate_total_matches] at hm
  rw [paginate_total_pages] at hgt
  unfold paginate
  dsimp only
  rw [if_pos ⟨hgt, hm⟩]

theorem sortHits_nil {α : Type} (mk : α → List String) (pd : α → Option PyDateTime)
    (c : SearchCriteria) : sortHits mk pd c [] = [] := by
  unfold sortHits
  split <;> simp

theorem sortHits_mem {α : Type} {mk : α → List String} {pd : α → Option PyDateTime}
    {c : SearchCriteria} {l : List α} {h : α} (hm : h ∈ sortHits mk pd c l) : h ∈ l := by
  unfold sortHits at hm
  split at hm
  · exact (List.mergeSort_perm _ _).mem_iff.mp hm
  · exact (List.mergeSort_perm _ _).mem_iff.mp hm

theorem fileRun_current_page (uriOf : String → Option String) (ps : Nat)
    (files : List FileRow) (c : SearchCriteria) (idx : Int) :
    (fileRun uriOf ps files c idx).current_page = idx := by
  unfold fileRun
  split
  · rfl
  · split
    · rfl
    · split
      · rfl
      · exact paginate_current_page _ _ _

theorem contentRun_current_page (uriOf : String → Option String) (ps : Nat)
    (contents : List ContentRow) (files : List FileRow) (c : SearchCriteria) (idx : Int) :
    (contentRun uriOf ps contents files c idx).current_page = idx := by
  unfold contentRun
  split
  · rfl
  · split
    · rfl
    · exact paginate_current_page _ _ _

theorem fileRun_overflow (uriOf : String → Option String) (ps : Nat)
    (files : List FileRow) (c : SearchCriteria) (idx : Int)
    (hm : 0 < (fileRun uriOf ps files c idx).total_matches)
    (hgt : ((fileRun uriOf ps files c idx).total_pages : Int) < idx) :
    (fileRun uriOf ps files c idx).results = [] := by
  unfold fileRun at hm hgt ⊢
  by_cases h1 : idx < 1
  · rw [if_pos h1] at hm
    exact absurd hm (lt_irrefl 0)
  rw [if_neg h1] at hm hgt ⊢
  by_cases h2 : files.isEmpty = true
  · rw [if_pos h2] at hm
    exact absurd hm (lt_irrefl 0)
  rw [if_neg h2] at hm hgt ⊢
  cases hs : fileScan uriOf c files with
  | error e => rfl
  | ok rs =>
    rw [hs] at hm hgt
    exact paginate_overflow hm hgt

theorem contentRun_overflow (uriOf : String → Option String) (ps : Nat)
    (contents : List ContentRow) (files : List FileRow) (c : SearchCriteria) (idx : Int)
    (hm : 0 < (contentRun uriOf ps contents files c idx).total_matches)
    (hgt : ((contentRun uriOf ps contents files c idx).total_pages : Int) < idx) :
    (contentRun uriOf ps contents files c idx).results = [] := by
  unfold contentRun at hm hgt ⊢
  by_cases h1 : idx < 1
  · rw [if_pos h1] at hm
    exact absurd hm (lt_irrefl 0)
  rw [if_neg h1] at hm hgt ⊢
  by_cases h2 : contents.isEmpty = true
  · rw [if_pos h2] at hm
    exact absurd hm (lt_irrefl 0)
  rw [if_neg h2] at hm hgt ⊢
  exact paginate_overflow hm hgt

theorem contentRowHit_none_of_prop (uriOf : String → Option String) (c : SearchCriteria)
    (lk : String → Option FileRow) {ct : ContentRow} (hp : ct.property ≠ "main") :
    contentRowHit uriOf c lk ct = none := by
  unfold contentRowHit
  rw [if_pos hp]

theorem contentRowHit_prop {uriOf : String → Option String} {c : SearchCriteria}
    {lk : String → Option FileRow} {ct : ContentRow} {h : ContentHit}
    (hh : contentRowHit uriOf c lk ct = some h) : ct.property = "main" := by
  by_contra hp
  rw [contentRowHit_none_of_prop uriOf c lk hp] at hh
  exact Option.noConfusion hh

theorem fileRowHit_none_of_status (uriOf : String → Option String) (c : SearchCriteria)
    {f : FileRow} (hs : f.opt_msg ≠ "processed") : fileRowHit uriOf c f = .ok none := by
  unfold fileRowHit
  rw [if_pos hs]

theorem fileRowHit_status {uriOf : String → Option String} {c : SearchCriteria}
    {f : FileRow} {h : FileHit} (hh : fileRowHit uriOf c f = .ok (some h)) :
    f.opt_msg = "processed" := by
  by_contra hs
  rw [fileRowHit_none_of_status uriOf c hs] at hh
  exact Option.noConfusion (Except.ok.inj hh)

theorem fileScan_append_none (uriOf : String → Option String) (c : SearchCriteria)
    {f : FileRow} (hf : fileRowHit uriOf c f = .ok none) (l : List FileRow) :
    fileScan uriOf c (l ++ [f]) = fileScan uriOf c l := by
  induction l with
  | nil => simp only [List.nil_append, fileScan, hf]
  | cons g rest ih =>
    simp only [List.cons_append, fileScan]
    cases fileRowHit uriOf c g with
    | error e => rfl
    | ok o =>
      cases o with
      | none => exact ih
      | some x => exact congrArg (Except.map fun l2 => x :: l2) ih

theorem fileScan_mem {uriOf : String → Option String} {c : SearchCriteria} :
    ∀ {l : List FileRow} {rs : List FileHit}, fileScan uriOf c l = .ok rs →
      ∀ {h : FileHit}, h ∈ rs → ∃ f ∈ l, fileRowHit uriOf c f = .ok (some h) := by
  intro l
  induction l with
  | nil =>
    intro rs hs h hm
    have hrs : ([] : List FileHit) = rs := Except.ok.inj hs
    rw [← hrs] at hm
    exact absurd hm (List.not_mem_nil h)
  | cons g rest ih =>
    intro rs hs h hm
    unfold fileScan at hs
    cases hg : fileRowHit uriOf c g with
    | error e =>
      rw [hg] at hs
      exact Except.noConfusion hs
    | ok o =>
      rw [hg] at hs
      cases o with
      | none =>
        obtain ⟨f, hf, hh⟩ := ih hs hm
        exact ⟨f, List.mem_cons_of_mem g hf, hh⟩
      | some x =>
        cases hr : fileScan uriOf c rest with
        | error e =>
          rw [hr] at hs
          exact Except.noConfusion hs
        | ok rs2 =>
          rw [hr] at hs
          simp only [Except.map] at hs
          have hrs : x :: rs2 = rs := Except.ok.inj hs
          rw [← hrs] at hm
          rcases List.mem_cons.mp hm with heq | hmem
          · exact ⟨g, List.mem_cons_self g rest, by rw [hg, heq]⟩
          · obtain ⟨f, hf, hh⟩ := ih hr hmem
            exact ⟨f, List.mem_cons_of_mem g hf, hh⟩

/-- **C3** (spec §4.4, §8): both retrievers echo the requested page index in
`current_page`; a request with index `< 1` yields the explicit error dict
`⟨[], idx, 0, 0⟩`, which differs from the output of every run with a valid
index (in particular every legitimate zero-match success) because its
`current_page` is out of range; and a request beyond the computed total pages
while matches exist yields empty `results` with a positive `total_matches`,
which differs from every zero-match success. -/
theorem c3_invalid_page_index (uriOf : String → Option String) (ps : Nat)
    (files : List FileRow) (contents : List ContentRow) (c : SearchCriteria) (idx : Int) :
    ((fileRun uriOf ps files c idx).current_page = idx ∧
      (contentRun uriOf ps contents files c idx).current_page = idx) ∧
    (idx < 1 →
      fileRun uriOf ps files c idx = ⟨[], idx, 0, 0⟩ ∧
      contentRun uriOf ps contents files c idx = ⟨[], idx, 0, 0⟩ ∧
      ∀ idx2 : Int, 1 ≤ idx2 →
        fileRun uriOf ps files c idx ≠ fileRun uriOf ps files c idx2 ∧
        contentRun uriOf ps contents files c idx ≠
          contentRun uriOf ps contents files c idx2) ∧
    (0 < (fileRun uriOf ps files c idx).total_matches →
      ((fileRun uriOf ps files c idx).total_pages : Int) < idx →
      (fileRun uriOf ps files c idx).results = [] ∧
      ∀ r : RunOut FileHit, r.total_matches = 0 → fileRun uriOf ps files c idx ≠ r) ∧
    (0 < (contentRun uriOf ps contents files c idx).total_matches →
      ((contentRun uriOf ps contents files c idx).total_pages : Int) < idx →
      (contentRun uriOf ps contents files c idx).results = [] ∧
      ∀ r : RunOut ContentHit, r.total_matches = 0 →
        contentRun uriOf ps contents files c idx ≠ r) := by
  refine ⟨⟨fileRun_current_page uriOf ps files c idx,
    contentRun_current_page uriOf ps contents files c idx⟩, ?_, ?_, ?_⟩
  · intro hlt
    refine ⟨by unfold fileRun; rw [if_pos hlt], by unfold contentRun; rw [if_pos hlt], ?_⟩
    intro idx2 h2
    constructor
    · intro heq
      have hcp := congrArg RunOut.current_page heq
      rw [fileRun_current_page, fileRun_current_page] at hcp
      omega
    · intro heq
      have hcp := congrArg RunOut.current_page heq
      rw [contentRun_current_page, contentRun_current_page] at hcp
      omega
  · intro hm hgt
    refine ⟨fileRun_overflow uriOf ps files c idx hm hgt, ?_⟩
    intro r hr heq
    rw [heq, hr] at hm
    exact absurd hm (lt_irrefl 0)
  · intro hm hgt
    refine ⟨contentRun_overflow uriOf ps contents files c idx hm hgt, ?_⟩
    intro r hr heq
    rw [heq, hr] at hm
    exact absurd hm (lt_irrefl 0)

/-- A trivial uri resolver for concrete scenarios. -/
def uriNone : String → Option String := fun _ => none

/-- The all-pass search criteria (no keywords, no dates, empty strings). -/
def cAll : SearchCriteria := ⟨[], MatchLogic.AND, "", "", "", none, none⟩

/-- A processed file row matching `cAll`. -/
def c3File : FileRow :=
  ⟨"f1", "/a.pdf", "a.pdf", "h", 0, "", [], [], some "d", "processed", "src", "admin",
    "en", "t", none⟩

/-- A `main` content row of `c3File` matching `cAll`. -/
def c3Content : ContentRow := ⟨"p1", "f1", 1, "body", "title", "main", "abs", [], "", ""⟩

/-- The hit that `fileRowHit` produces from `c3File` under `cAll`. -/
def c3Hit : FileHit := ⟨"a.pdf", "t", some "d", "src", none, none, []⟩

/-- The hit that `contentRowHit` produces from `c3Content` under `cAll`. -/
def c3ContentHit : ContentHit := ⟨"a.pdf", 1, "abs", "body", [], "src", none, none, []⟩

theorem mergeSort_one {α : Type} (le : α → α → Bool) (a : α) : [a].mergeSort le = [a] :=
  List.perm_singleton.mp (List.mergeSort_perm _ _)

theorem c3_invalid_page_index_witness :
    (fileRun uriNone 1 [c3File] cAll 0 = ⟨[], 0, 0, 0⟩ ∧
      fileRun uriNone 1 [c3File] cAll 0 ≠ fileRun uriNone 1 [c3File] cAll 1) ∧
    ((fileRun uriNone 1 [c3File] cAll 5).results = [] ∧
      fileRun uriNone 1 [c3File] cAll 5 ≠ ⟨[], 5, 1, 0⟩) ∧
    ((contentRun uriNone 1 [c3Content] [c3File] cAll 5).results = [] ∧
      contentRun uriNone 1 [c3Content] [c3File] cAll 5 ≠ ⟨[], 5, 1, 0⟩) := by
  have hscan : fileScan uriNone cAll [c3File] = .ok [c3Hit] := rfl
  have hrunf : fileRun uriNone 1 [c3File] cAll 5 = ⟨[], 5, 1, 1⟩ := by
    unfold fileRun
    rw [if_neg (by decide), if_neg (by decide), hscan]
    show paginate (sortHits (fun h => h.matched_keywords) (fun h => h.published_date)
      cAll [c3Hit]) 1 5 = ⟨[], 5, 1, 1⟩
    unfold sortHits
    rw [if_neg (by decide), mergeSort_one]
    decide
  have hfm : List.filterMap (contentRowHit uriNone cAll (fileMap [c3File])) [c3Content] =
      [c3ContentHit] := rfl
  have hrunc : contentRun uriNone 1 [c3Content] [c3File] cAll 5 = ⟨[], 5, 1, 1⟩ := by
    unfold contentRun
    rw [if_neg (by decide), if_neg (by decide), hfm]
    unfold sortHits
    rw [if_neg (by decide), mergeSort_one]
    decide
  have h0 := c3_invalid_page_index uriNone 1 [c3File] [c3Content] cAll 0
  have h5 := c3_invalid_page_index uriNone 1 [c3File] [c3Content] cAll 5
  have hbase := h0.2.1 (by decide)
  have hfile := h5.2.2.1 (by rw [hrunf]; decide) (by rw [hrunf]; decide)
  have hcont := h5.2.2.2 (by rw [hrunc]; decide) (by rw [hrunc]; decide)
  exact ⟨⟨hbase.1, (hbase.2.2 1 (by decide)).1⟩,
    ⟨hfile.1, hfile.2 ⟨[], 5, 1, 0⟩ rfl⟩,
    ⟨hcont.1, hcont.2 ⟨[], 5, 1, 0⟩ rfl⟩⟩

/-- **C10** (implicit in `agents.py`): every hit of `ContentRetriever.run` comes
from a content row whose `property` is `"main"`; adding a row with any other
property changes nothing in the output (results or totals), and symmetrically
every hit of `FileRetriever.run` comes from a file row whose status is
`"processed"`, with files in any other status invisible to the search. -/
theorem c10_result_gating (uriOf : String → Option String) (ps : Nat)
    (files : List FileRow) (contents : List ContentRow) (c : SearchCriteria) (idx : Int) :
    (∀ h ∈ (contentRun uriOf ps contents files c idx).results,
      ∃ row ∈ contents, row.property = "main" ∧
        contentRowHit uriOf c (fileMap files) row = some h) ∧
    (∀ row : ContentRow, row.property ≠ "main" →
      contentRun uriOf ps (contents ++ [row]) files c idx =
        contentRun uriOf ps contents files c idx) ∧
    (∀ h ∈ (fileRun uriOf ps files c idx).results,
      ∃ f ∈ files, f.opt_msg = "processed" ∧ fileRowHit uriOf c f = .ok (some h)) ∧
    (∀ f : FileRow, f.opt_msg ≠ "processed" →
      fileRun uriOf ps (files ++ [f]) c idx = fileRun uriOf ps files c idx) := by
  refine ⟨?_, ?_, ?_, ?_⟩
  · intro h hm
    unfold contentRun at hm
    by_cases h1 : idx < 1
    · rw [if_pos h1] at hm
      exact absurd hm (List.not_mem_nil h)
    rw [if_neg h1] at hm
    by_cases h2 : contents.isEmpty = true
    · rw [if_pos h2] at hm
      exact absurd hm (List.not_mem_nil h)
    rw [if_neg h2] at hm
    obtain ⟨row, hrow, hhit⟩ := List.mem_filterMap.mp (sortHits_mem (paginate_mem hm))
    exact ⟨row, hrow, contentRowHit_prop hhit, hhit⟩
  · intro row hp
    have hnone := contentRowHit_none_of_prop uriOf c (fileMap files) hp
    unfold contentRun
    by_cases h1 : idx < 1
    · rw [if_pos h1, if_pos h1]
    rw [if_neg h1, if_neg h1]
    by_cases h2 : contents.isEmpty = true
    · have hcon : contents = [] := List.isEmpty_iff.mp h2
      subst hcon
      rw [if_pos (show ([] : List ContentRow).isEmpty = true from rfl), if_neg (by simp)]
      simp only [List.nil_append, List.filterMap_cons, hnone, List.filterMap_nil]
      rw [sortHits_nil, paginate_nil]
    · rw [if_neg h2, if_neg (by simp [h2])]
      rw [List.filterMap_append]
      simp only [List.filterMap_cons, hnone, List.filterMap_nil, List.append_nil]
  · intro h hm
    unfold fileRun at hm
    by_cases h1 : idx < 1
    · rw [if_pos h1] at hm
      exact absurd hm (List.not_mem_nil h)
    rw [if_neg h1] at hm
    by_cases h2 : files.isEmpty = true
    · rw [if_pos h2] at hm
      exact absurd hm (List.not_mem_nil h)
    rw [if_neg h2] at hm
    cases hs : fileScan uriOf c files with
    | error e =>
      rw [hs] at hm
      exact absurd hm (List.not_mem_nil h)
    | ok rs =>
      rw [hs] at hm
      obtain ⟨f, hf, hh⟩ := fileScan_mem hs (sortHits_mem (paginate_mem hm))
      exact ⟨f, hf, fileRowHit_status hh, hh⟩
  · intro f hne
    have hnone := fileRowHit_none_of_status uriOf c hne
    unfold fileRun
    by_cases h1 : idx < 1
    · rw [if_pos h1, if_pos h1]
    rw [if_neg h1, if_neg h1]
    by_cases h2 : files.isEmpty = true
    · have hfil : files = [] := List.isEmpty_iff.mp h2
      subst hfil
      rw [if_pos (show ([] : List FileRow).isEmpty = true from rfl), if_neg (by simp)]
      rw [fileScan_append_none uriOf c hnone]
      simp only [fileScan]
      rw [sortHits_nil, paginate_nil]
    · rw [if_neg h2, if_neg (by simp [h2])]
      rw [fileScan_append_none uriOf c hnone]

/-- A content row in a non-`main` property. -/
def c10Aux : ContentRow := ⟨"p2", "f1", 2, "b", "t", "addition", "a", [], "", ""⟩

/-- A file row not yet in status `processed`. -/
def c10File : FileRow :=
  ⟨"f2", "/b.pdf", "b.pdf", "h2", 0, "", [], [], none, "initial", "src", "admin",
    "en", "t", none⟩

theorem c10_result_gating_witness :
    contentRun uriNone 1 ([c3Content] ++ [c10Aux]) [c3File] cAll 1 =
      contentRun uriNone 1 [c3Content] [c3File] cAll 1 ∧
    fileRun uriNone 1 ([c3File] ++ [c10File]) cAll 1 = fileRun uriNone 1 [c3File] cAll 1 := by
  have h := c10_result_gating uriNone 1 [c3File] [c3Content] cAll 1
  exact ⟨h.2.1 c10Aux (by decide), h.2.2.2 c10File (by decide)⟩


/-! ### Vector retrieval lemmas (toward C6) -/

theorem thresholdLoop_ge {pageIds : Int → String} {th : ℚ} :
    ∀ {l : List (Int × ℚ)} {it : String × ℚ}, it ∈ thresholdLoop pageIds th l → th ≤ it.2 := by
  intro l
  induction l with
  | nil =>
    intro it hm
    exact absurd hm (List.not_mem_nil it)
  | cons p rest ih =>
    intro it hm
    obtain ⟨i, sim⟩ := p
    unfold thresholdLoop at hm
    by_cases hge : sim ≥ th
    · rw [if_pos hge] at hm
      rcases List.mem_cons.mp hm with heq | hmem
      · subst heq
        exact hge
      · exact ih hmem
    · rw [if_neg hge] at hm
      exact absurd hm (List.not_mem_nil it)

theorem vrFiltered_ge {pageIds : Int → String} {searchOut : List (Int × ℚ)} {k : Nat}
    {th : ℚ} {it : String × ℚ} (hm : it ∈ vrFiltered pageIds searchOut k th) : th ≤ it.2 := by
  unfold vrFiltered at hm
  dsimp only at hm
  split at hm
  · exact thresholdLoop_ge (List.mem_of_mem_take hm)
  · exact thresholdLoop_ge hm

theorem vrFiltered_length_le (pageIds : Int → String) (searchOut : List (Int × ℚ))
    (k : Nat) (th : ℚ) : (vrFiltered pageIds searchOut k th).length ≤ k := by
  unfold vrFiltered
  dsimp only
  split
  next h => rw [List.length_take]; exact min_le_left _ _
  next h => omega

theorem vrHydrate_length_le (lc : String → Option ContentRow) (lf : String → Option FileRow)
    (fp : String → Option String) (uo : String → String) (F : List (String × ℚ)) :
    (vrHydrate lc lf fp uo F).length ≤ F.length := by
  unfold vrHydrate
  dsimp only
  refine le_trans (List.length_filterMap_le _ _) (le_trans (List.length_filterMap_le _ _) ?_)
  simp

theorem vrHydrate_ge (lc : String → Option ContentRow) (lf : String → Option FileRow)
    (fp : String → Option String) (uo : String → String) {F : List (String × ℚ)} {th : ℚ}
    (hlk : ∀ pid row, lc pid = some row → row.page_id = pid)
    (hF : ∀ it ∈ F, th ≤ it.2) {h : VHit} (hm : h ∈ vrHydrate lc lf fp uo F) :
    th ≤ h.vector_similarity := by
  unfold vrHydrate at hm
  dsimp only at hm
  obtain ⟨ct, hct, hg⟩ := List.mem_filterMap.mp hm
  obtain ⟨pid, hpid, hlook⟩ := List.mem_filterMap.mp hct
  obtain ⟨it, hitF, hit1⟩ := List.mem_map.mp hpid
  have hpg : ct.page_id = pid := hlk pid ct hlook
  cases hlf : lf ct.file_id with
  | none =>
    rw [hlf] at hg
    exact Option.noConfusion hg
  | some file =>
    rw [hlf] at hg
    have hh := Option.some.inj hg
    subst hh
    have hsome : (F.reverse.find? fun it2 => it2.1 == pid).isSome :=
      List.find?_isSome.mpr ⟨it, List.mem_reverse.mpr hitF, by simp [hit1]⟩
    obtain ⟨w, hw⟩ := Option.isSome_iff_exists.mp hsome
    have hwmem : w ∈ F := List.mem_reverse.mp (List.mem_of_find?_eq_some hw)
    dsimp only
    rw [hpg, hw]
    exact hF w hwmem

/-- **C6** (spec §4.6): provided the store resolves a page id to a content row
carrying that page id, `Embedder.retrieve` never returns a hit whose
similarity is below the recall threshold — the filter loop admits only
passing hits (and `break`s at the first miss) — and after truncation it
returns at most `k` hits. -/
theorem c6_threshold_and_topk (lookupContent : String → Option ContentRow)
    (lookupFile : String → Option FileRow) (fullPathOf : String → Option String)
    (urlOf : String → String) (pageIds : Int → String) (searchOut : List (Int × ℚ))
    (k : Nat) (th : ℚ)
    (hlk : ∀ pid row, lookupContent pid = some row → row.page_id = pid) :
    (∀ h ∈ vectorRetrieve lookupContent lookupFile fullPathOf urlOf pageIds searchOut k th,
      th ≤ h.vector_similarity) ∧
    (vectorRetrieve lookupContent lookupFile fullPathOf urlOf pageIds
      searchOut k th).length ≤ k := by
  unfold vectorRetrieve
  dsimp only
  split
  · exact ⟨fun h hm => absurd hm (List.not_mem_nil h), by simp⟩
  · constructor
    · intro h hm
      exact vrHydrate_ge lookupContent lookupFile fullPathOf urlOf hlk
        (fun it hit => vrFiltered_ge hit) hm
    · exact le_trans (vrHydrate_length_le _ _ _ _ _) (vrFiltered_length_le _ _ _ _)

/-- A one-page store lookup for the C6 scenario. -/
def c6Lookup : String → Option ContentRow :=
  fun pid => if pid = "p1" then some c3Content else none

theorem c6_threshold_and_topk_witness :
    (∀ h ∈ vectorRetrieve c6Lookup (fileMap [c3File]) uriNone (fun s => s) (fun _ => "p1")
        [(0, 1), (1, (1 : ℚ)/2)] 2 (3/4), (3/4 : ℚ) ≤ h.vector_similarity) ∧
    (vectorRetrieve c6Lookup (fileMap [c3File]) uriNone (fun s => s) (fun _ => "p1")
        [(0, 1), (1, (1 : ℚ)/2)] 2 (3/4)).length ≤ 2 := by
  refine c6_threshold_and_topk _ _ _ _ _ _ _ _ ?_
  intro pid row h
  simp only [c6Lookup] at h
  by_cases hp : pid = "p1"
  · rw [if_pos hp] at h
    cases Option.some.inj h
    exact hp.symm
  · rw [if_neg hp] at h
    exact Option.noConfusion h


/-! ## `extractor.py`: the ingestion pipeline (claims C2, C7 and C8)

The source directory is a list of `(path, FData)` pairs: content hash, mtime
and how rendering that PDF would go (`fitz` and PIL are outside the program).
Rendered page images are the `arts` dict, keyed by the file path (one output
subdirectory per PDF, holding the number of written page images).  Writes to
the document store are counted, and every status value assigned through
`create_file`/`update_file` is appended to `log`. -/

/-- Outcome of rendering one PDF: all `n` pages written, or an exception
after `k` page images were already produced. -/
inductive RenderResult
  | ok (n : Nat)
  | failAfter (k : Nat)
deriving DecidableEq, Repr

/-- What the filesystem holds for one PDF path. -/
structure FData where
  hash : String
  mtime : ℚ
  render : RenderResult
deriving DecidableEq, Repr

/-- The extractor-visible world: document store, rendered artifacts, and the
instrumentation (status log, store-write counter). -/
structure ExtState where
  store : Store
  arts : List (String × Nat)
  log : List String
  writes : Nat
deriving DecidableEq, Repr

/-- `abs(a - b) > 0.001` in cross-multiplied integer form (the rationals are
compared over a common denominator). -/
def mtimeChanged (a b : ℚ) : Bool :=
  decide ((a.den : Nat) * b.den <
    1000 * (a.num * (b.den : Int) - b.num * (a.den : Int)).natAbs)

/-- `mtimeChanged` is exactly the source's `abs(a - b) > 0.001` test. -/
theorem mtimeChanged_iff (a b : ℚ) : mtimeChanged a b = true ↔ |a - b| > 1/1000 := by
  unfold mtimeChanged
  rw [decide_eq_true_iff]
  have hda : (0 : ℚ) < (a.den : ℚ) := by exact_mod_cast a.den_pos
  have hdb : (0 : ℚ) < (b.den : ℚ) := by exact_mod_cast b.den_pos
  have hD : (0 : ℚ) < ((a.den * b.den : Nat) : ℚ) := by
    push_cast
    exact mul_pos hda hdb
  have hsub : a - b = (((a.num * (b.den : Int) - b.num * (a.den : Int)) : Int) : ℚ) /
      ((a.den * b.den : Nat) : ℚ) := by
    conv_lhs => rw [← Rat.num_div_den a, ← Rat.num_div_den b]
    push_cast
    field_simp
    ring
  rw [gt_iff_lt, hsub, abs_div, abs_of_pos hD, div_lt_div_iff₀ (by norm_num) hD, one_mul]
  rw [show |(((a.num * (b.den : Int) - b.num * (a.den : Int)) : Int) : ℚ)| * 1000 =
      ((1000 * (a.num * (b.den : Int) - b.num * (a.den : Int)).natAbs : Nat) : ℚ) from by
    push_cast [Int.cast_natAbs]
    ring]
  rw [Nat.cast_lt]

/-- `FileModel.is_file_changed`: missing file, missing record, hash mismatch,
or mtime differing by more than the 0.001 epsilon. -/
def isFileChanged (np : String → String) (fs : List (String × FData)) (s : Store)
    (file_path : String) : Bool :=
  match dget fs (np file_path) with
  | none => true
  | some fd =>
    match getFileByPath np s (np file_path) with
    | none => true
    | some (_, row) =>
      if row.file_hash ≠ fd.hash then true
      else if mtimeChanged row.last_modified fd.mtime then true
      else false

/-- `PDFExtractor._pdf_to_pages`: create the output subdirectory, write page
images; on an exception, remove the subdirectory if any page was already
written (otherwise it stays, empty) and return no paths.  The result is the
new artifact dict and the number of returned page paths. -/
def pdfToPages (arts : List (String × Nat)) (file_path : String) (ofd : Option FData) :
    List (String × Nat) × Nat :=
  match ofd with
  | none => (dinsert arts file_path 0, 0)
  | some fd =>
    match fd.render with
    | .ok n => (dinsert arts file_path n, n)
    | .failAfter k =>
      if 0 < k then (dpop (dinsert arts file_path k) file_path, 0)
      else (dinsert arts file_path 0, 0)

/-- The page dicts built in `PDFExtractor.process_file` (fields the extractor
does not set are empty). -/
def mkPageRecs (file_path now : String) (n : Nat) : List PageRec :=
  (List.range n).map fun i =>
    ⟨(i : Int) + 1, file_path ++ "/page_" ++ toString (i + 1) ++ ".jpg",
      none, [], false, now, "", ""⟩

/-- `PDFExtractor._update_status`: one `update_file` call carrying only
`opt_msg`. -/
def exUpdateStatus (np : String → String) (st : ExtState) (fid status : String) :
    ExtState :=
  { st with
      store := (updateFile np st.store fid { opt_msg := some status }).1
      log := st.log ++ [status]
      writes := st.writes + 1 }

/-- `PDFExtractor._cleanup_invalid_pages`: clear the page records and remove
the page-image subdirectory if present. -/
def exCleanup (st : ExtState) (fid file_path : String) : ExtState :=
  { st with
      store := (cleanUpFilePages st.store fid).1
      arts := dpop st.arts file_path
      writes := st.writes + 1 }

/-- `PDFExtractor.process_file`: status to `initial` (both branches of the
conditional yield `initial`), then `pages_updating`, cleanup, render, add the
page records, and finish at `completed`.  No modeled step raises, so the
`needs_recovery` handler is not reached. -/
def processFile (np : String → String) (fs : List (String × FData)) (pagesNow : String)
    (st : ExtState) (fid : String) : ExtState :=
  match getFileById st.store fid with
  | none => st
  | some (_, row) =>
    let file_path := row.file_path
    let st1 := exUpdateStatus np st fid "initial"
    let st2 := exUpdateStatus np st1 fid "pages_updating"
    let st3 := exCleanup st2 fid file_path
    let pr := pdfToPages st3.arts file_path (dget fs file_path)
    let st4 := { st3 with arts := pr.1 }
    let st5 := { st4 with
        store := (addPages st4.store fid (mkPageRecs file_path pagesNow pr.2)).1
        writes := st4.writes + 1 }
    exUpdateStatus np st5 fid "completed"

/-- The update dicts batched by `PDFExtractor.run`. -/
def hashUpd (h : String) (m : ℚ) (msg : String) : FileUpdates :=
  { file_hash := some h
    last_modified := some m
    opt_msg := some msg }

/-- The per-run accumulator of `PDFExtractor.run`: world state plus the
deferred batch updates. -/
structure RunAcc where
  st : ExtState
  upds : List (String × FileUpdates)
deriving DecidableEq, Repr

/-- The record-creation step of `PDFExtractor.run` for a file without a
record: `create_file` with status `initial` and the `create_file` defaults. -/
def createStep (np : String → String) (uuidOf : String → String) (now : String)
    (st : ExtState) (file_path : String) (fd : FData) : ExtState :=
  { st with
      store := (createFile np st.store (uuidOf file_path) file_path file_path
        fd.hash fd.mtime now "initial" "" "" "zh" "" none).1
      log := st.log ++ ["initial"]
      writes := st.writes + 1 }

/-- One iteration of the scan loop of `PDFExtractor.run`: skip unchanged
files; create missing records (status `initial`, deferring the
`pending_processing` update), process, and defer the final hash sync with
status `processed`. -/
def processOne (np : String → String) (fs : List (String × FData))
    (uuidOf : String → String) (now pagesNow : String) (acc : RunAcc)
    (entry : String × FData) : RunAcc :=
  let file_path := entry.1
  let fd := entry.2
  if isFileChanged np fs acc.st.store file_path then
    match getFileByPath np acc.st.store file_path with
    | some (_, row) =>
      ⟨processFile np fs pagesNow acc.st row.file_id,
        acc.upds ++ [(row.file_id, hashUpd fd.hash fd.mtime "processed")]⟩
    | none =>
      let st1 := createStep np uuidOf now acc.st file_path fd
      match getFileByPath np st1.store file_path with
      | none => ⟨st1, acc.upds⟩
      | some (_, row) =>
        ⟨processFile np fs pagesNow st1 row.file_id,
          acc.upds ++ [(row.file_id, hashUpd fd.hash fd.mtime "pending_processing"),
            (row.file_id, hashUpd fd.hash fd.mtime "processed")]⟩
  else acc

/-- One `update_file` call of the batch loop of `PDFExtractor.run`. -/
def batchStep (np : String → String) (s : ExtState) (pu : String × FileUpdates) :
    ExtState :=
  { s with
      store := (updateFile np s.store pu.1 pu.2).1
      log := s.log ++ (match pu.2.opt_msg with | some m => [m] | none => [])
      writes := s.writes + 1 }

/-- The final loop of `PDFExtractor.run`: apply the batched `update_file`
calls in order. -/
def batchApply (np : String → String) (st : ExtState)
    (upds : List (String × FileUpdates)) : ExtState :=
  upds.foldl (batchStep np) st

/-- `PDFExtractor.run`: nothing to do on an empty directory; otherwise scan
every PDF and then apply the batched updates. -/
def runExtractor (np : String → String) (uuidOf : String → String)
    (now pagesNow : String) (fs : List (String × FData)) (st0 : ExtState) : ExtState :=
  if fs.isEmpty then st0
  else batchApply np (fs.foldl (processOne np fs uuidOf now pagesNow) ⟨st0, []⟩).st
    (fs.foldl (processOne np fs uuidOf now pagesNow) ⟨st0, []⟩).upds


/-! ### Status accounting (toward C7) -/

/-- Every status value the pipeline can assign in this model. -/
def allowedStatuses : List String :=
  ["initial", "pending_processing", "pages_updating", "completed", "processed"]

/-- `b` extends `a` by status-log entries drawn from `allowedStatuses`. -/
def StLe (a b : ExtState) : Prop :=
  ∃ t, b.log = a.log ++ t ∧ ∀ s ∈ t, s ∈ allowedStatuses

/-- Every batched update carries an allowed status (if any). -/
def UpdsOk (u : List (String × FileUpdates)) : Prop :=
  ∀ pu ∈ u, ∀ m, pu.2.opt_msg = some m → m ∈ allowedStatuses

theorem stLe_refl (a : ExtState) : StLe a a := ⟨[], by simp, by simp⟩

theorem stLe_trans {a b c : ExtState} (h1 : StLe a b) (h2 : StLe b c) : StLe a c := by
  obtain ⟨t1, he1, ha1⟩ := h1
  obtain ⟨t2, he2, ha2⟩ := h2
  refine ⟨t1 ++ t2, ?_, ?_⟩
  · rw [he2, he1, List.append_assoc]
  · intro s hs
    rcases List.mem_append.mp hs with h | h
    · exact ha1 s h
    · exact ha2 s h

theorem updsOk_nil : UpdsOk [] := by
  intro pu h
  exact absurd h (List.not_mem_nil pu)

theorem updsOk_cons {hd : String × FileUpdates} {tl : List (String × FileUpdates)}
    (hhd : ∀ m, hd.2.opt_msg = some m → m ∈ allowedStatuses) (htl : UpdsOk tl) :
    UpdsOk (hd :: tl) := by
  intro pu hm m hopt
  rcases List.mem_cons.mp hm with h | h
  · subst h
    exact hhd m hopt
  · exact htl pu h m hopt

theorem hashUpd_opt (h : String) (mt : ℚ) (msg : String) :
    (hashUpd h mt msg).opt_msg = some msg := rfl

theorem updsOk_hashUpd {msg : String} (hmsg : msg ∈ allowedStatuses)
    (fid h : String) (mt : ℚ) {tl : List (String × FileUpdates)} (htl : UpdsOk tl) :
    UpdsOk ((fid, hashUpd h mt msg) :: tl) := by
  refine updsOk_cons ?_ htl
  intro m hopt
  rw [hashUpd_opt] at hopt
  cases Option.some.inj hopt
  exact hmsg

theorem stLe_createStep (np uuidOf : String → String) (now : String) (st : ExtState)
    (p : String) (fd : FData) : StLe st (createStep np uuidOf now st p fd) :=
  ⟨["initial"], rfl, by decide⟩

theorem processFile_stle (np : String → String) (fs : List (String × FData))
    (pagesNow : String) (st : ExtState) (fid : String) :
    StLe st (processFile np fs pagesNow st fid) := by
  unfold processFile
  cases hg : getFileById st.store fid with
  | none => exact stLe_refl st
  | some e =>
    obtain ⟨d, row⟩ := e
    refine ⟨["initial", "pages_updating", "completed"], ?_, by decide⟩
    show st.log ++ ["initial"] ++ ["pages_updating"] ++ ["completed"] =
      st.log ++ ["initial", "pages_updating", "completed"]
    simp

theorem processOne_extends (np : String → String) (fs : List (String × FData))
    (uuidOf : String → String) (now pagesNow : String) (acc : RunAcc)
    (e : String × FData) :
    StLe acc.st (processOne np fs uuidOf now pagesNow acc e).st ∧
    ∃ u, (processOne np fs uuidOf now pagesNow acc e).upds = acc.upds ++ u ∧ UpdsOk u := by
  unfold processOne
  dsimp only
  by_cases hch : isFileChanged np fs acc.st.store e.1 = true
  · rw [if_pos hch]
    cases hg : getFileByPath np acc.st.store e.1 with
    | some e2 =>
      obtain ⟨d, row⟩ := e2
      exact ⟨processFile_stle np fs pagesNow acc.st row.file_id,
        [(row.file_id, hashUpd e.2.hash e.2.mtime "processed")], rfl,
        updsOk_hashUpd (by decide) _ _ _ updsOk_nil⟩
    | none =>
      cases hg2 : getFileByPath np (createStep np uuidOf now acc.st e.1 e.2).store e.1 with
      | none => exact ⟨stLe_createStep np uuidOf now acc.st e.1 e.2, [], by simp, updsOk_nil⟩
      | some e2 =>
        obtain ⟨d, row⟩ := e2
        refine ⟨stLe_trans (stLe_createStep np uuidOf now acc.st e.1 e.2)
          (processFile_stle np fs pagesNow _ row.file_id),
          [(row.file_id, hashUpd e.2.hash e.2.mtime "pending_processing"),
            (row.file_id, hashUpd e.2.hash e.2.mtime "processed")], rfl,
          updsOk_hashUpd (by decide) _ _ _
            (updsOk_hashUpd (by decide) _ _ _ updsOk_nil)⟩
  · rw [if_neg hch]
    exact ⟨stLe_refl acc.st, [], by simp, updsOk_nil⟩

theorem foldl_extends (np : String → String) (fs : List (String × FData))
    (uuidOf : String → String) (now pagesNow : String) :
    ∀ (l : List (String × FData)) (acc : RunAcc),
      StLe acc.st ((l.foldl (processOne np fs uuidOf now pagesNow) acc).st) ∧
      ∃ u, (l.foldl (processOne np fs uuidOf now pagesNow) acc).upds = acc.upds ++ u ∧
        UpdsOk u := by
  intro l
  induction l with
  | nil =>
    intro acc
    exact ⟨stLe_refl _, [], by simp, updsOk_nil⟩
  | cons e rest ih =>
    intro acc
    rw [List.foldl_cons]
    obtain ⟨h1, u1, he1, hu1⟩ := processOne_extends np fs uuidOf now pagesNow acc e
    obtain ⟨h2, u2, he2, hu2⟩ := ih (processOne np fs uuidOf now pagesNow acc e)
    refine ⟨stLe_trans h1 h2, u1 ++ u2, ?_, ?_⟩
    · rw [he2, he1, List.append_assoc]
    · intro pu hm m hopt
      rcases List.mem_append.mp hm with h | h
      · exact hu1 pu h m hopt
      · exact hu2 pu h m hopt

theorem batchApply_stle (np : String → String) :
    ∀ (upds : List (String × FileUpdates)) (st : ExtState), UpdsOk upds →
      StLe st (batchApply np st upds) := by
  intro upds
  induction upds with
  | nil =>
    intro st h
    exact stLe_refl st
  | cons pu rest ih =>
    intro st h
    have hstep : StLe st (batchStep np st pu) := by
      cases ho : pu.2.opt_msg with
      | some m =>
        refine ⟨[m], ?_, ?_⟩
        · show st.log ++ (match pu.2.opt_msg with | some m2 => [m2] | none => []) =
            st.log ++ [m]
          rw [ho]
        · intro s2 hs2
          rcases List.mem_cons.mp hs2 with h2 | h2
          · subst h2
            exact h pu (List.mem_cons_self pu rest) s2 ho
          · exact absurd h2 (List.not_mem_nil s2)
      | none =>
        refine ⟨[], ?_, by simp⟩
        show st.log ++ (match pu.2.opt_msg with | some m2 => [m2] | none => []) =
          st.log ++ []
        rw [ho]
    have htail : UpdsOk rest := fun pu2 hm m hopt =>
      h pu2 (List.mem_cons_of_mem pu hm) m hopt
    exact stLe_trans hstep (ih (batchStep np st pu) htail)


/-- The empty extractor world: empty store, no artifacts, no log, no writes. -/
def extSt0 : ExtState := ⟨emptyStore, [], [], 0⟩

/-- A one-file directory whose PDF renders cleanly into two pages. -/
def c7FS : List (String × FData) := [("/b.pdf", ⟨"hb", 0, .ok 2⟩)]

/-- **C7** counterexample: on a clean one-file ingestion the pipeline assigns
the status `initial` (at creation and again in `process_file`) and finishes at
`processed` — neither belongs to the claimed state set `{new, pending,
pending_processing, pages_updating, completed, needs_recovery}` — and the
claimed states `new` and `pending` are never assigned. -/
theorem c7_status_machine_counterexample :
    ("initial" ∈ (runExtractor id (fun _ => "f2") "t0" "t1" c7FS extSt0).log ∧
      "initial" ∉ ["new", "pending", "pending_processing", "pages_updating",
        "completed", "needs_recovery"]) ∧
    (((getFileById (runExtractor id (fun _ => "f2") "t0" "t1" c7FS extSt0).store "f2").map
      fun e => e.2.opt_msg) = some "processed" ∧
      "processed" ∉ ["new", "pending", "pending_processing", "pages_updating",
        "completed", "needs_recovery"]) ∧
    "new" ∉ (runExtractor id (fun _ => "f2") "t0" "t1" c7FS extSt0).log ∧
    "pending" ∉ (runExtractor id (fun _ => "f2") "t0" "t1" c7FS extSt0).log := by
  decide

/-- **C7** (amended): every status the ingestion pipeline assigns — through
`create_file`, `_update_status`, or the batched `update_file` calls — is one
of `initial`, `pending_processing`, `pages_updating`, `completed`, or
`processed` (with `needs_recovery` reachable only through the exception
handler, which no modeled step triggers). -/
theorem c7_assigned_statuses (np uuidOf : String → String) (now pagesNow : String)
    (fs : List (String × FData)) (st0 : ExtState) :
    ∀ s ∈ (runExtractor np uuidOf now pagesNow fs st0).log,
      s ∈ st0.log ∨ s ∈ allowedStatuses := by
  intro s hm
  unfold runExtractor at hm
  by_cases he : fs.isEmpty = true
  · rw [if_pos he] at hm
    exact Or.inl hm
  rw [if_neg he] at hm
  obtain ⟨h1, u, hu, huok⟩ := foldl_extends np fs uuidOf now pagesNow fs ⟨st0, []⟩
  have hupds : (fs.foldl (processOne np fs uuidOf now pagesNow) ⟨st0, []⟩).upds = u := by
    rw [hu]
    rfl
  have huok2 : UpdsOk (fs.foldl (processOne np fs uuidOf now pagesNow) ⟨st0, []⟩).upds := by
    rw [hupds]
    exact huok
  have h2 := batchApply_stle np
    (fs.foldl (processOne np fs uuidOf now pagesNow) ⟨st0, []⟩).upds
    (fs.foldl (processOne np fs uuidOf now pagesNow) ⟨st0, []⟩).st huok2
  obtain ⟨t, hlog, hall⟩ := stLe_trans h1 h2
  rw [hlog] at hm
  rcases List.mem_append.mp hm with h | h
  · exact Or.inl h
  · exact Or.inr (hall s h)

theorem c7_assigned_statuses_witness :
    "pages_updating" ∈ extSt0.log ∨ "pages_updating" ∈ allowedStatuses :=
  c7_assigned_statuses id (fun _ => "f2") "t0" "t1" c7FS extSt0 "pages_updating" (by decide)

/-- A file for which `is_file_changed` reports `false` is skipped entirely, so
a run over a directory in which every file is unchanged performs zero store
writes and leaves the world — store, artifacts, log and write counter —
exactly as it was. -/
theorem c8_unchanged_run_is_noop (np uuidOf : String → String) (now pagesNow : String)
    (fs : List (String × FData)) (st : ExtState)
    (hsync : ∀ e ∈ fs, isFileChanged np fs st.store e.1 = false) :
    runExtractor np uuidOf now pagesNow fs st = st := by
  unfold runExtractor
  split
  · rfl
  · have hfold : ∀ l : List (String × FData),
        (∀ e ∈ l, isFileChanged np fs st.store e.1 = false) →
        l.foldl (processOne np fs uuidOf now pagesNow) ⟨st, []⟩ = ⟨st, []⟩ := by
      intro l
      induction l with
      | nil =>
        intro h
        rfl
      | cons e rest ih =>
        intro h
        have h1 : processOne np fs uuidOf now pagesNow ⟨st, []⟩ e = ⟨st, []⟩ := by
          unfold processOne
          dsimp only
          rw [if_neg (by simp [h e (List.mem_cons_self e rest)])]
        rw [List.foldl_cons, h1]
        exact ih fun x hx => h x (List.mem_cons_of_mem e hx)
    rw [hfold fs hsync]
    rfl

/-- A two-file directory, both PDFs rendering cleanly. -/
def c8FS : List (String × FData) :=
  [("/a.pdf", ⟨"ha", 0, .ok 1⟩), ("/b.pdf", ⟨"hb", 2, .ok 2⟩)]

def c8Uuid : String → String := fun p => "id" ++ p

/-- The world after a first ingestion run over `c8FS`. -/
def c8St1 : ExtState := runExtractor id c8Uuid "t0" "t1" c8FS extSt0

theorem c8_unchanged_run_is_noop_witness :
    runExtractor id c8Uuid "t0" "t1" c8FS c8St1 = c8St1 :=
  c8_unchanged_run_is_noop id c8Uuid "t0" "t1" c8FS c8St1 (by decide)

/-- A one-file directory whose PDF fails to render after one page image was
already produced. -/
def c2FS : List (String × FData) := [("/a.pdf", ⟨"h", 0, .failAfter 1⟩)]

/-- **C2**: when rendering fails after partial artifacts exist, the partial
page images are indeed removed — but, contrary to the spec,
`_pdf_to_pages` swallows the exception and returns an empty page list, so
`process_file` completes normally and `run` syncs the stored hash and mtime
and sets the status to `processed`: `is_file_changed` then reports `false`
and a second run is a no-op — the file is never retried. -/
theorem c2_partial_render_swallowed :
    (runExtractor id (fun _ => "f1") "t0" "t1" c2FS extSt0).arts = [] ∧
    ((getFileById (runExtractor id (fun _ => "f1") "t0" "t1" c2FS extSt0).store "f1").map
      fun e => (e.2.opt_msg, e.2.file_hash, e.2.last_modified)) =
        some ("processed", "h", 0) ∧
    isFileChanged id c2FS (runExtractor id (fun _ => "f1") "t0" "t1" c2FS extSt0).store
      "/a.pdf" = false ∧
    runExtractor id (fun _ => "f1") "t0" "t1" c2FS
        (runExtractor id (fun _ => "f1") "t0" "t1" c2FS extSt0) =
      runExtractor id (fun _ => "f1") "t0" "t1" c2FS extSt0 := by
  decide


/-! ### Toward the two-run C8 statement: table lemmas -/

theorem dget_append_left {κ α : Type} [DecidableEq κ] {l1 : List (κ × α)}
    (l2 : List (κ × α)) {k : κ} {v : α} (h : dget l1 k = some v) :
    dget (l1 ++ l2) k = some v := by
  unfold dget at h ⊢
  rw [List.find?_append]
  cases hf : l1.find? fun p => p.1 == k with
  | none =>
    rw [hf] at h
    simp at h
  | some e =>
    rw [hf] at h
    simpa using h

theorem dget_append_right {κ α : Type} [DecidableEq κ] {l1 : List (κ × α)}
    (l2 : List (κ × α)) {k : κ} (h : dget l1 k = none) :
    dget (l1 ++ l2) k = dget l2 k := by
  unfold dget at h ⊢
  rw [List.find?_append]
  cases hf : l1.find? fun p => p.1 == k with
  | none => rfl
  | some e =>
    rw [hf] at h
    simp at h

theorem dget_none_of_keys {κ α : Type} [DecidableEq κ] {l : List (κ × α)} {k : κ}
    (h : ∀ e ∈ l, e.1 ≠ k) : dget l k = none := by
  unfold dget
  rw [List.find?_eq_none.mpr]
  · rfl
  · intro e he
    simpa using h e he

theorem tget_cons {ρ : Type} (a : Nat × ρ) (t : List (Nat × ρ)) (d : Nat) :
    tget (a :: t) d = if a.1 = d then some a.2 else tget t d := by
  by_cases h : a.1 = d
  · have hb : (a.1 == d) = true := by simpa using h
    simp [tget, dget, List.find?_cons, hb, h]
  · have hb : (a.1 == d) = false := by simpa using h
    simp [tget, dget, List.find?_cons, hb, h]

theorem tget_tupdateWhere {ρ : Type} (t : List (Nat × ρ)) (p : ρ → Bool) (f : ρ → ρ)
    (d : Nat) :
    tget (tupdateWhere t p f).1 d = (tget t d).map fun r => if p r then f r else r := by
  induction t with
  | nil => rfl
  | cons e rest ih =>
    show tget ((if p e.2 then (e.1, f e.2) else e) :: (tupdateWhere rest p f).1) d = _
    rw [tget_cons, ih,
      show tget (e :: rest) d = if e.1 = d then some e.2 else tget rest d from
        tget_cons e rest d]
    cases hp : p e.2 <;> by_cases hd : e.1 = d <;> simp [hp, hd]

theorem tget_map_at {ρ : Type} (t : List (Nat × ρ)) (d0 : Nat) (g : ρ → ρ) (d : Nat) :
    tget (t.map fun e => if e.1 = d0 then (e.1, g e.2) else e) d =
      if d = d0 then (tget t d).map g else tget t d := by
  induction t with
  | nil => simp [tget, dget]
  | cons e rest ih =>
    show tget ((if e.1 = d0 then (e.1, g e.2) else e) ::
      rest.map fun e2 => if e2.1 = d0 then (e2.1, g e2.2) else e2) d = _
    rw [tget_cons, ih,
      show tget (e :: rest) d = if e.1 = d then some e.2 else tget rest d from
        tget_cons e rest d]
    by_cases hdd : d = d0
    · subst hdd
      by_cases hd : e.1 = d <;> simp [hd]
    · by_cases he0 : e.1 = d0
      · have hd : ¬ e.1 = d := fun hc => hdd (by rw [← hc, he0])
        have hd0d : ¬ d0 = d := fun hc => hdd hc.symm
        simp [he0, hd, hdd, hd0d]
      · by_cases hd : e.1 = d <;> simp [he0, hd, hdd]

theorem mtimeChanged_self (a : ℚ) : mtimeChanged a a = false := by
  unfold mtimeChanged
  simp

theorem tget_fresh_none {ρ : Type} (t : List (Nat × ρ)) : tget t (nextId t) = none :=
  dget_none_of_keys (nextId_not_mem t)


/-! ### Toward the two-run C8 statement: meta-preservation -/

theorem getFileByPath_some_iff (np : String → String) (s : Store) (p : String) (d : Nat)
    (row : FileRow) :
    getFileByPath np s p = some (d, row) ↔
      dget s.fileIdx (np p) = some d ∧ tget s.files d = some row := by
  constructor
  · intro h
    unfold getFileByPath at h
    cases hk : dget s.fileIdx (np p) with
    | none =>
      rw [hk] at h
      exact absurd h (by simp)
    | some d2 =>
      rw [hk] at h
      have h2 : (tget s.files d2).map (fun x => (d2, x)) = some (d, row) := h
      cases ht : tget s.files d2 with
      | none =>
        rw [ht] at h2
        exact absurd h2 (by simp)
      | some r2 =>
        rw [ht] at h2
        rw [Option.map_some'] at h2
        have h3 := Option.some.inj h2
        have hd : d2 = d := congrArg Prod.fst h3
        subst hd
        have hr : r2 = row := congrArg Prod.snd h3
        subst hr
        exact ⟨rfl, ht⟩
  · intro h
    obtain ⟨h1, h2⟩ := h
    unfold getFileByPath
    rw [h1]
    show (tget s.files d).map (fun x => (d, x)) = some (d, row)
    rw [h2]
    rfl

/-- The file row exists and carries the expected id, hash and mtime. -/
def RowSyncId (np uuidOf : String → String) (s : Store) (p : String) (fd : FData) : Prop :=
  ∃ d row, getFileByPath np s p = some (d, row) ∧ row.file_id = uuidOf p ∧
    row.file_hash = fd.hash ∧ row.last_modified = fd.mtime

/-- The normalized path is not in the file index. -/
def NoRow (np : String → String) (s : Store) (p : String) : Prop :=
  dget s.fileIdx (np p) = none

def fileMeta (r : FileRow) : String × String × ℚ := (r.file_id, r.file_hash, r.last_modified)

/-- The operation keeps the file index and every row's id, hash and mtime. -/
def MetaPres (s s' : Store) : Prop :=
  s'.fileIdx = s.fileIdx ∧
  ∀ d, (tget s'.files d).map fileMeta = (tget s.files d).map fileMeta

theorem metaPres_refl (s : Store) : MetaPres s s := ⟨rfl, fun _ => rfl⟩

theorem metaPres_trans {a b c : Store} (h1 : MetaPres a b) (h2 : MetaPres b c) :
    MetaPres a c :=
  ⟨h2.1.trans h1.1, fun d => (h2.2 d).trans (h1.2 d)⟩

theorem metaPres_updateFile (np : String → String) (s : Store) (fid : String)
    (u : FileUpdates) (hp : u.file_path = none) (hh : u.file_hash = none)
    (hm : u.last_modified = none) : MetaPres s (updateFile np s fid u).1 := by
  unfold updateFile
  by_cases he : u.isEmpty
  · rw [if_pos he]
    exact metaPres_refl s
  rw [if_neg he]
  cases hg : getFileById s fid with
  | none => exact metaPres_refl s
  | some e =>
    obtain ⟨d0, row0⟩ := e
    dsimp only
    simp only [hp]
    by_cases hz : (tupdateWhere s.files (fun r => r.file_id == fid) u.apply).2 = 0
    · rw [if_pos hz]
      exact metaPres_refl s
    · rw [if_neg hz]
      refine ⟨rfl, fun d => ?_⟩
      rw [tget_tupdateWhere, Option.map_map]
      cases ht : tget s.files d with
      | none => rfl
      | some r =>
        simp only [Option.map_some', Function.comp]
        by_cases hb : (r.file_id == fid) = true
        · simp [hb, FileUpdates.apply, fileMeta, hh, hm]
        · simp [hb]

theorem metaPres_cleanUp (s : Store) (fid : String) :
    MetaPres s (cleanUpFilePages s fid).1 := by
  unfold cleanUpFilePages
  dsimp only
  by_cases hz :
      (tupdateWhere s.files (fun r => r.file_id == fid) fun r => { r with pages := [] }).2 = 0
  · rw [if_pos hz]
    exact metaPres_refl s
  · rw [if_neg hz]
    refine ⟨rfl, fun d => ?_⟩
    rw [tget_tupdateWhere, Option.map_map]
    cases ht : tget s.files d with
    | none => rfl
    | some r =>
      simp only [Option.map_some', Function.comp]
      by_cases hb : (r.file_id == fid) = true
      · simp [hb, fileMeta]
      · simp [hb]

theorem metaPres_addPages (s : Store) (fid : String) (pd : List PageRec) :
    MetaPres s (addPages s fid pd).1 := by
  unfold addPages
  cases hf : s.files.find? (fun e => e.2.file_id == fid) with
  | none => exact metaPres_refl s
  | some e =>
    obtain ⟨d0, row0⟩ := e
    dsimp only
    refine ⟨rfl, fun d => ?_⟩
    dsimp only
    rw [tget_map_at s.files d0 (fun r => { r with pages := row0.pages ++ pd }) d]
    by_cases hd : d = d0
    · rw [if_pos hd, Option.map_map]
      cases ht : tget s.files d with
      | none => rfl
      | some r => simp [fileMeta, Function.comp]
    · rw [if_neg hd]

theorem metaPres_exUpdateStatus (np : String → String) (st : ExtState)
    (fid status : String) : MetaPres st.store (exUpdateStatus np st fid status).store :=
  metaPres_updateFile np st.store fid _ rfl rfl rfl

theorem metaPres_processFile (np : String → String) (fs : List (String × FData))
    (pn : String) (st : ExtState) (fid : String) :
    MetaPres st.store (processFile np fs pn st fid).store := by
  unfold processFile
  cases hg : getFileById st.store fid with
  | none => exact metaPres_refl _
  | some e =>
    obtain ⟨d, row⟩ := e
    dsimp only
    exact metaPres_trans (metaPres_exUpdateStatus np st fid "initial")
      (metaPres_trans (metaPres_exUpdateStatus np _ fid "pages_updating")
        (metaPres_trans (metaPres_cleanUp _ fid)
          (metaPres_trans (metaPres_addPages _ fid _)
            (metaPres_exUpdateStatus np _ fid "completed"))))

theorem rowSyncId_of_metaPres {np uuidOf : String → String} {s s' : Store} {p : String}
    {fd : FData} (h : MetaPres s s') (hr : RowSyncId np uuidOf s p fd) :
    RowSyncId np uuidOf s' p fd := by
  obtain ⟨d, row, hg, hid, hh, hm⟩ := hr
  obtain ⟨hk, ht⟩ := (getFileByPath_some_iff np s p d row).mp hg
  have hk2 : dget s'.fileIdx (np p) = some d := by
    rw [h.1]
    exact hk
  have hmeta := h.2 d
  rw [ht] at hmeta
  cases ht2 : tget s'.files d with
  | none =>
    rw [ht2] at hmeta
    exact absurd hmeta (by simp)
  | some row2 =>
    rw [ht2] at hmeta
    obtain ⟨h1, h2, h3⟩ : row2.file_id = row.file_id ∧ row2.file_hash = row.file_hash ∧
        row2.last_modified = row.last_modified := by
      simpa [fileMeta, Prod.ext_iff] using hmeta
    exact ⟨d, row2, (getFileByPath_some_iff np s' p d row2).mpr ⟨hk2, ht2⟩,
      h1.trans hid, h2.trans hh, h3.trans hm⟩

theorem noRow_of_metaPres {np : String → String} {s s' : Store} {p : String}
    (h : MetaPres s s') (hn : NoRow np s p) : NoRow np s' p := by
  unfold NoRow at hn ⊢
  rw [h.1]
  exact hn


/-! ### Toward the two-run C8 statement: the creation step and the gate -/

theorem getFileByPath_none_of_noRow {np : String → String} {s : Store} {p : String}
    (h : NoRow np s p) : getFileByPath np s p = none := by
  unfold NoRow at h
  unfold getFileByPath
  rw [h]

/-- The row `create_file` writes for a scanned PDF. -/
def createdRow (np uuidOf : String → String) (now p : String) (fd : FData) : FileRow :=
  ⟨uuidOf p, np p, p, fd.hash, fd.mtime, now, [], [], none, "initial", "", "", "zh", "",
    none⟩

theorem createStep_store (np uuidOf : String → String) (now : String) (st : ExtState)
    (p : String) (fd : FData)
    (hnone : getFileByPath np st.store (np p) = none) :
    (createStep np uuidOf now st p fd).store =
      { st.store with
          files := st.store.files ++ [(nextId st.store.files, createdRow np uuidOf now p fd)]
          fileIdx := dinsert (dinsert st.store.fileIdx (uuidOf p) (nextId st.store.files))
            (np p) (nextId st.store.files) } := by
  show (createFile np st.store (uuidOf p) p p fd.hash fd.mtime now "initial" "" "" "zh" ""
    none).1 = _
  unfold createFile
  dsimp only
  rw [hnone]
  rfl

theorem createStep_rowSync (np uuidOf : String → String) (now : String) (st : ExtState)
    (p : String) (fd : FData) (hfix_p : np p = p) (hnorow : NoRow np st.store p) :
    RowSyncId np uuidOf (createStep np uuidOf now st p fd).store p fd := by
  have hnone : getFileByPath np st.store (np p) = none := by
    rw [hfix_p]
    exact getFileByPath_none_of_noRow hnorow
  rw [createStep_store np uuidOf now st p fd hnone]
  refine ⟨nextId st.store.files, createdRow np uuidOf now p fd, ?_, rfl, rfl, rfl⟩
  refine (getFileByPath_some_iff np _ p _ _).mpr ⟨?_, ?_⟩
  · show dget (dinsert (dinsert st.store.fileIdx (uuidOf p) (nextId st.store.files)) (np p)
      (nextId st.store.files)) (np p) = _
    rw [dget_dinsert]
    simp
  · show dget (st.store.files ++ [(nextId st.store.files, createdRow np uuidOf now p fd)])
      (nextId st.store.files) = _
    rw [dget_append_right _ (tget_fresh_none st.store.files)]
    simp [dget]

theorem createStep_pres_rowSync (np uuidOf : String → String) (now : String)
    (st : ExtState) (p : String) (fd : FData) {q : String} {fdq : FData}
    (hq : RowSyncId np uuidOf st.store q fdq) (hne1 : np q ≠ np p)
    (hne2 : np q ≠ uuidOf p) (hfix_p : np p = p) (hnorow : NoRow np st.store p) :
    RowSyncId np uuidOf (createStep np uuidOf now st p fd).store q fdq := by
  have hnone : getFileByPath np st.store (np p) = none := by
    rw [hfix_p]
    exact getFileByPath_none_of_noRow hnorow
  obtain ⟨d, row, hg, hid, hh, hm⟩ := hq
  obtain ⟨hk, ht⟩ := (getFileByPath_some_iff np st.store q d row).mp hg
  rw [createStep_store np uuidOf now st p fd hnone]
  refine ⟨d, row, (getFileByPath_some_iff np _ q d row).mpr ⟨?_, ?_⟩, hid, hh, hm⟩
  · show dget (dinsert (dinsert st.store.fileIdx (uuidOf p) (nextId st.store.files)) (np p)
      (nextId st.store.files)) (np q) = some d
    rw [dget_dinsert, if_neg hne1, dget_dinsert, if_neg hne2]
    exact hk
  · exact dget_append_left _ ht

theorem createStep_pres_noRow (np uuidOf : String → String) (now : String)
    (st : ExtState) (p : String) (fd : FData) {q : String}
    (hq : NoRow np st.store q) (hne1 : np q ≠ np p) (hne2 : np q ≠ uuidOf p)
    (hfix_p : np p = p) (hnorow : NoRow np st.store p) :
    NoRow np (createStep np uuidOf now st p fd).store q := by
  have hnone : getFileByPath np st.store (np p) = none := by
    rw [hfix_p]
    exact getFileByPath_none_of_noRow hnorow
  unfold NoRow at hq ⊢
  rw [createStep_store np uuidOf now st p fd hnone]
  show dget (dinsert (dinsert st.store.fileIdx (uuidOf p) (nextId st.store.files)) (np p)
    (nextId st.store.files)) (np q) = none
  rw [dget_dinsert, if_neg hne1, dget_dinsert, if_neg hne2]
  exact hq

theorem isFileChanged_true_of_noRow {np : String → String} (fs : List (String × FData))
    {s : Store} {p : String} (hfix_p : np p = p) (hnorow : NoRow np s p) :
    isFileChanged np fs s p = true := by
  unfold isFileChanged
  rw [hfix_p]
  cases hd : dget fs p with
  | none => rfl
  | some fd => simp only [getFileByPath_none_of_noRow hnorow]

theorem isFileChanged_false_of_sync {np uuidOf : String → String}
    {fs : List (String × FData)} {s : Store} {p : String} {fd : FData}
    (hfix_p : np p = p) (hget : dget fs p = some fd)
    (hr : RowSyncId np uuidOf s p fd) : isFileChanged np fs s p = false := by
  obtain ⟨d, row, hg, hid, hh, hm⟩ := hr
  unfold isFileChanged
  rw [hfix_p]
  simp only [hget, hg]
  rw [hh, hm]
  simp [mtimeChanged_self]

theorem processOne_eval_new (np : String → String) (fs : List (String × FData))
    (uuidOf : String → String) (now pn : String) (acc : RunAcc) (e : String × FData)
    (hch : isFileChanged np fs acc.st.store e.1 = true)
    (hnone : getFileByPath np acc.st.store e.1 = none)
    {d : Nat} {row : FileRow}
    (hsome : getFileByPath np (createStep np uuidOf now acc.st e.1 e.2).store e.1 =
      some (d, row)) :
    processOne np fs uuidOf now pn acc e =
      ⟨processFile np fs pn (createStep np uuidOf now acc.st e.1 e.2) row.file_id,
        acc.upds ++ [(row.file_id, hashUpd e.2.hash e.2.mtime "pending_processing"),
          (row.file_id, hashUpd e.2.hash e.2.mtime "processed")]⟩ := by
  unfold processOne
  dsimp only
  rw [if_pos hch]
  simp only [hnone, hsome]


/-! ### Toward the two-run C8 statement: the scan and batch phases -/

/-- Every batched update targets a scanned file's id and re-writes exactly that
file's current hash and mtime. -/
def UpdsGood (fs : List (String × FData)) (uuidOf : String → String)
    (u : List (String × FileUpdates)) : Prop :=
  ∀ pu ∈ u, pu.2.file_path = none ∧
    ∃ q ∈ fs, pu.1 = uuidOf q.1 ∧ pu.2.file_hash = some q.2.hash ∧
      pu.2.last_modified = some q.2.mtime

theorem updsGood_nil (fs : List (String × FData)) (uuidOf : String → String) :
    UpdsGood fs uuidOf [] := fun pu h => absurd h (List.not_mem_nil pu)

theorem scanFold_sync (np uuidOf : String → String) (now pn : String)
    (fs : List (String × FData))
    (hfix : ∀ e ∈ fs, np e.1 = e.1)
    (hfresh : ∀ e1 ∈ fs, ∀ e2 ∈ fs, uuidOf e1.1 ≠ np e2.1) :
    ∀ (todo : List (String × FData)) (acc : RunAcc) (S : List (String × FData)),
      (∀ e ∈ todo, e ∈ fs) →
      (∀ e ∈ S, e ∈ fs) →
      (todo.map (·.1)).Nodup →
      (∀ q ∈ S, ∀ e2 ∈ todo, q.1 ≠ e2.1) →
      (∀ e ∈ todo, NoRow np acc.st.store e.1) →
      (∀ e ∈ S, RowSyncId np uuidOf acc.st.store e.1 e.2) →
      UpdsGood fs uuidOf acc.upds →
      (∀ e, e ∈ S ∨ e ∈ todo →
        RowSyncId np uuidOf
          ((todo.foldl (processOne np fs uuidOf now pn) acc)).st.store e.1 e.2) ∧
      UpdsGood fs uuidOf ((todo.foldl (processOne np fs uuidOf now pn) acc)).upds := by
  intro todo
  induction todo with
  | nil =>
    intro acc S hsub hSsub hnd hdisj hnorow hS hupds
    refine ⟨?_, hupds⟩
    intro e hmem
    rcases hmem with h | h
    · exact hS e h
    · exact absurd h (List.not_mem_nil e)
  | cons e rest ih =>
    intro acc S hsub hSsub hnd hdisj hnorow hS hupds
    have hefs : e ∈ fs := hsub e (List.mem_cons_self e rest)
    have hfix_e : np e.1 = e.1 := hfix e hefs
    have hnorow_e : NoRow np acc.st.store e.1 := hnorow e (List.mem_cons_self e rest)
    have hch := isFileChanged_true_of_noRow fs hfix_e hnorow_e
    have hnone := getFileByPath_none_of_noRow hnorow_e
    obtain ⟨d, row, hg, hid, hh, hm⟩ :=
      createStep_rowSync np uuidOf now acc.st e.1 e.2 hfix_e hnorow_e
    have heval := processOne_eval_new np fs uuidOf now pn acc e hch hnone hg
    have hnd2 : e.1 ∉ rest.map (·.1) ∧ (rest.map (·.1)).Nodup := by simpa using hnd
    have hmp := metaPres_processFile np fs pn (createStep np uuidOf now acc.st e.1 e.2)
      row.file_id
    rw [List.foldl_cons, heval]
    have hSsub2 : ∀ x ∈ S ++ [e], x ∈ fs := by
      intro x hx
      rcases List.mem_append.mp hx with h2 | h2
      · exact hSsub x h2
      · rw [List.mem_singleton.mp h2]
        exact hefs
    have hdisj2 : ∀ q ∈ S ++ [e], ∀ e2 ∈ rest, q.1 ≠ e2.1 := by
      intro q hq e2 he2
      rcases List.mem_append.mp hq with h2 | h2
      · exact hdisj q h2 e2 (List.mem_cons_of_mem e he2)
      · rw [List.mem_singleton.mp h2]
        intro hc
        exact hnd2.1 (hc ▸ List.mem_map.mpr ⟨e2, he2, rfl⟩)
    have hnorow2 : ∀ x ∈ rest,
        NoRow np (processFile np fs pn (createStep np uuidOf now acc.st e.1 e.2)
          row.file_id).store x.1 := by
      intro x hx
      have hxfs : x ∈ fs := hsub x (List.mem_cons_of_mem e hx)
      have hne1 : np x.1 ≠ np e.1 := by
        rw [hfix x hxfs, hfix_e]
        intro hc
        exact hnd2.1 (hc ▸ List.mem_map.mpr ⟨x, hx, rfl⟩)
      have hne2 : np x.1 ≠ uuidOf e.1 := by
        rw [hfix x hxfs]
        exact fun hc => hfresh e hefs x hxfs (by rw [hfix x hxfs]; exact hc.symm)
      exact noRow_of_metaPres hmp
        (createStep_pres_noRow np uuidOf now acc.st e.1 e.2
          (hnorow x (List.mem_cons_of_mem e hx)) hne1 hne2 hfix_e hnorow_e)
    have hS2 : ∀ x ∈ S ++ [e],
        RowSyncId np uuidOf (processFile np fs pn
          (createStep np uuidOf now acc.st e.1 e.2) row.file_id).store x.1 x.2 := by
      intro x hx
      rcases List.mem_append.mp hx with h2 | h2
      · have hxfs : x ∈ fs := hSsub x h2
        have hne1 : np x.1 ≠ np e.1 := by
          rw [hfix x hxfs, hfix_e]
          exact hdisj x h2 e (List.mem_cons_self e rest)
        have hne2 : np x.1 ≠ uuidOf e.1 := by
          rw [hfix x hxfs]
          exact fun hc => hfresh e hefs x hxfs (by rw [hfix x hxfs]; exact hc.symm)
        exact rowSyncId_of_metaPres hmp
          (createStep_pres_rowSync np uuidOf now acc.st e.1 e.2 (hS x h2) hne1 hne2
            hfix_e hnorow_e)
      · rw [List.mem_singleton.mp h2]
        exact rowSyncId_of_metaPres hmp ⟨d, row, hg, hid, hh, hm⟩
    have hupds2 : UpdsGood fs uuidOf
        (acc.upds ++ [(row.file_id, hashUpd e.2.hash e.2.mtime "pending_processing"),
          (row.file_id, hashUpd e.2.hash e.2.mtime "processed")]) := by
      intro pu hpu
      rcases List.mem_append.mp hpu with h2 | h2
      · exact hupds pu h2
      · rcases List.mem_cons.mp h2 with h3 | h3
        · rw [h3]
          exact ⟨rfl, e, hefs, hid, rfl, rfl⟩
        · rw [List.mem_singleton.mp h3]
          exact ⟨rfl, e, hefs, hid, rfl, rfl⟩
    obtain ⟨hall, hugood⟩ := ih
      ⟨processFile np fs pn (createStep np uuidOf now acc.st e.1 e.2) row.file_id,
        acc.upds ++ [(row.file_id, hashUpd e.2.hash e.2.mtime "pending_processing"),
          (row.file_id, hashUpd e.2.hash e.2.mtime "processed")]⟩
      (S ++ [e]) (fun x hx => hsub x (List.mem_cons_of_mem e hx)) hSsub2 hnd2.2 hdisj2
      hnorow2 hS2 hupds2
    refine ⟨?_, hugood⟩
    intro x hx
    apply hall x
    rcases hx with h2 | h2
    · exact Or.inl (List.mem_append_left [e] h2)
    · rcases List.mem_cons.mp h2 with h3 | h3
      · exact Or.inl (List.mem_append_right S (List.mem_singleton.mpr h3))
      · exact Or.inr h3

theorem updateFile_pres_rowSync (np uuidOf : String → String)
    (fs : List (String × FData)) (hnodup : (fs.map (·.1)).Nodup)
    (hinj : ∀ e1 ∈ fs, ∀ e2 ∈ fs, uuidOf e1.1 = uuidOf e2.1 → e1.1 = e2.1)
    {s : Store} {fid : String} {u : FileUpdates} (hpath : u.file_path = none)
    (hgood : ∃ q ∈ fs, fid = uuidOf q.1 ∧ u.file_hash = some q.2.hash ∧
      u.last_modified = some q.2.mtime)
    {p : String} {fd : FData} (hp : (p, fd) ∈ fs)
    (hr : RowSyncId np uuidOf s p fd) :
    RowSyncId np uuidOf (updateFile np s fid u).1 p fd := by
  obtain ⟨d, row, hg, hid, hh, hm⟩ := hr
  obtain ⟨hk, ht⟩ := (getFileByPath_some_iff np s p d row).mp hg
  obtain ⟨q, hqfs, hqid, hqh, hqm⟩ := hgood
  unfold updateFile
  by_cases he : u.isEmpty = true
  · rw [if_pos he]
    exact ⟨d, row, hg, hid, hh, hm⟩
  rw [if_neg he]
  cases hgid : getFileById s fid with
  | none => exact ⟨d, row, hg, hid, hh, hm⟩
  | some e2 =>
    obtain ⟨d0, row0⟩ := e2
    dsimp only
    simp only [hpath]
    by_cases hz : (tupdateWhere s.files (fun r => r.file_id == fid) u.apply).2 = 0
    · rw [if_pos hz]
      exact ⟨d, row, hg, hid, hh, hm⟩
    · rw [if_neg hz]
      by_cases hb : (row.file_id == fid) = true
      · -- the update targets this very row and rewrites its own hash and mtime
        have hpq : p = q.1 := by
          refine hinj (p, fd) hp q hqfs ?_
          rw [← hid, ← hqid]
          exact eq_of_beq hb
        have hfdq : fd = q.2 := by
          have h1 : dget fs p = some fd := dget_eq_some_of_mem hnodup hp
          have h2 : dget fs q.1 = some q.2 := dget_eq_some_of_mem hnodup hqfs
          rw [hpq] at h1
          rw [h1] at h2
          exact Option.some.inj h2
        have ht2 : tget (tupdateWhere s.files (fun r => r.file_id == fid) u.apply).1 d =
            some (u.apply row) := by
          rw [tget_tupdateWhere, ht]
          show some (if row.file_id == fid then u.apply row else row) = some (u.apply row)
          rw [if_pos hb]
        refine ⟨d, u.apply row,
          (getFileByPath_some_iff np _ p d (u.apply row)).mpr ⟨hk, ht2⟩, ?_, ?_, ?_⟩
        · show (u.apply row).file_id = uuidOf p
          simp [FileUpdates.apply, hid]
        · show (u.apply row).file_hash = fd.hash
          simp [FileUpdates.apply, hqh, hfdq]
        · show (u.apply row).last_modified = fd.mtime
          simp [FileUpdates.apply, hqm, hfdq]
      · have ht2 : tget (tupdateWhere s.files (fun r => r.file_id == fid) u.apply).1 d =
            some row := by
          rw [tget_tupdateWhere, ht]
          show some (if row.file_id == fid then u.apply row else row) = some row
          rw [if_neg hb]
        exact ⟨d, row,
          (getFileByPath_some_iff np _ p d row).mpr ⟨hk, ht2⟩, hid, hh, hm⟩

theorem batch_pres_rowSync (np uuidOf : String → String) (fs : List (String × FData))
    (hnodup : (fs.map (·.1)).Nodup)
    (hinj : ∀ e1 ∈ fs, ∀ e2 ∈ fs, uuidOf e1.1 = uuidOf e2.1 → e1.1 = e2.1) :
    ∀ (upds : List (String × FileUpdates)) (st : ExtState),
      UpdsGood fs uuidOf upds →
      (∀ e ∈ fs, RowSyncId np uuidOf st.store e.1 e.2) →
      ∀ e ∈ fs, RowSyncId np uuidOf (batchApply np st upds).store e.1 e.2 := by
  intro upds
  induction upds with
  | nil =>
    intro st hg hr e he
    exact hr e he
  | cons pu rest ih =>
    intro st hg hr e he
    have htail : UpdsGood fs uuidOf rest :=
      fun pu2 h2 => hg pu2 (List.mem_cons_of_mem pu h2)
    have hhead := hg pu (List.mem_cons_self pu rest)
    refine ih (batchStep np st pu) htail ?_ e he
    intro e2 he2
    exact updateFile_pres_rowSync np uuidOf fs hnodup hinj hhead.1 hhead.2 he2 (hr e2 he2)

/-- **C8** (spec §7): running ingestion twice over the same unchanged
directory — distinct normalized paths, fresh uuids, starting from an empty
store — leaves the second run with nothing to do: the first run stores every
file's hash and mtime, `is_file_changed` reports `false` for each file, and
the second run performs zero store writes, returning the world unchanged. -/
theorem c8_second_run_zero_writes (np uuidOf : String → String)
    (now pn now2 pn2 : String) (fs : List (String × FData)) (st0 : ExtState)
    (hfix : ∀ e ∈ fs, np e.1 = e.1)
    (hnodup : (fs.map (·.1)).Nodup)
    (hinj : ∀ e1 ∈ fs, ∀ e2 ∈ fs, uuidOf e1.1 = uuidOf e2.1 → e1.1 = e2.1)
    (hfresh : ∀ e1 ∈ fs, ∀ e2 ∈ fs, uuidOf e1.1 ≠ np e2.1)
    (hst : st0.store = emptyStore) :
    runExtractor np uuidOf now2 pn2 fs (runExtractor np uuidOf now pn fs st0) =
      runExtractor np uuidOf now pn fs st0 := by
  apply c8_unchanged_run_is_noop
  intro e he
  have hsync : RowSyncId np uuidOf (runExtractor np uuidOf now pn fs st0).store e.1 e.2 := by
    unfold runExtractor
    by_cases hemp : fs.isEmpty = true
    · exact absurd he (by rw [List.isEmpty_iff.mp hemp]; exact List.not_mem_nil e)
    rw [if_neg hemp]
    have hnorow0 : ∀ q ∈ fs, NoRow np (⟨st0, []⟩ : RunAcc).st.store q.1 := by
      intro q hq
      unfold NoRow
      show dget st0.store.fileIdx (np q.1) = none
      rw [hst]
      rfl
    obtain ⟨hall, -⟩ := scanFold_sync np uuidOf now pn fs hfix hfresh fs ⟨st0, []⟩ []
      (fun x hx => hx) (fun x hx => absurd hx (List.not_mem_nil x)) hnodup
      (fun q hq => absurd hq (List.not_mem_nil q)) hnorow0
      (fun q hq => absurd hq (List.not_mem_nil q)) (updsGood_nil fs uuidOf)
    obtain ⟨-, hupds⟩ := scanFold_sync np uuidOf now pn fs hfix hfresh fs ⟨st0, []⟩ []
      (fun x hx => hx) (fun x hx => absurd hx (List.not_mem_nil x)) hnodup
      (fun q hq => absurd hq (List.not_mem_nil q)) hnorow0
      (fun q hq => absurd hq (List.not_mem_nil q)) (updsGood_nil fs uuidOf)
    exact batch_pres_rowSync np uuidOf fs hnodup hinj _ _ hupds
      (fun x hx => hall x (Or.inr hx)) e he
  exact isFileChanged_false_of_sync (hfix e he) (dget_eq_some_of_mem hnodup he) hsync

theorem c8_second_run_zero_writes_witness :
    runExtractor id c8Uuid "t2" "t3" c8FS (runExtractor id c8Uuid "t0" "t1" c8FS extSt0) =
      runExtractor id c8Uuid "t0" "t1" c8FS extSt0 :=
  c8_second_run_zero_writes id c8Uuid "t0" "t1" "t2" "t3" c8FS extSt0 (by decide)
    (by decide) (by decide) (by decide) rfl

end InsightsLib
